import Mathlib

/-!
# Cache simulator (`Cache.cpp`): shallow embedding and verified properties

The C++ class `Cache` is embedded as a record with explicit state passing.

Modelling conventions
* `uint32_t` addresses and tags are natural numbers; theorems that depend on the
  width assume `address < 2 ^ 32`.
* `int` fields (`lru`, `writeCount`, the four counters) are unbounded integers in
  `access`, `evictLine` and `reset`: signed overflow is undefined behaviour in C++.
  A second embedding (`access32`, `evictLine32`) lets every `++` and `--` on an `int`
  wrap around at 32 bits, as the compiled program does; the two agree as long as no
  member reaches `INT_MAX` (`access32_eq_access`).
* `numSets` and `associativity` are sizes handed to `vector::resize`, hence naturals.
* `vector<vector<CacheLine>>` is a list of lists.  The constructor gives every set
  exactly `associativity` ways and nothing resizes a set afterwards, so the loops
  `for (i = 0; i < associativity; ++i)` read way `i` with `List.getD`.
  The two indices that are *computed* (`setIndex`, `lruIndex`) are bounds-checked:
  `access` and `evictLine` return `none` when such an index falls outside its vector
  (undefined behaviour in the source).
* `cout` output of `communicateWithL2` is returned as a list of
  (operation text, address) pairs, one per printed line.
* Of `main` only the construction of the two caches from the parsed mode is embedded;
  argument and trace parsing are not modelled.
* `refAccess`, `refEvict` and `refRun` are not source code: they are the reference
  true-LRU cache the source is compared with.
-/

namespace CacheSim

/-! ## Data model -/

/-- The constant `CACHE_LINE_SIZE` (bytes per line). -/
def CACHE_LINE_SIZE : Nat := 64

/-- The enum `CacheOperation` (READ = 0, WRITE = 1, FETCH = 2, EVICT = 3, RESET = 8, PRINT = 9). -/
inductive CacheOperation where
  | READ | WRITE | FETCH | EVICT | RESET | PRINT
  deriving DecidableEq, Repr

open CacheOperation

/-- The struct `CacheLine`; `CacheLine.empty` is the value of `CacheLine()`. -/
structure CacheLine where
  valid : Bool
  dirty : Bool
  tag : Nat
  lru : Int
  writeCount : Int
  deriving DecidableEq, Repr

/-- The value-initialised line `CacheLine()`: every member at its default initialiser. -/
def CacheLine.empty : CacheLine := ⟨false, false, 0, 0, 0⟩

instance : Inhabited CacheLine := ⟨CacheLine.empty⟩

/-- The data members of class `Cache`. -/
structure Cache where
  numSets : Nat
  associativity : Nat
  verbose : Bool
  cache : List (List CacheLine)
  cacheReads : Int
  cacheWrites : Int
  cacheHits : Int
  cacheMisses : Int
  deriving DecidableEq, Repr

/-- One printed line of `communicateWithL2`: the operation text and the address. -/
abbrev Msg := String × Nat

/-- The constructor `Cache(sets, assoc, verbosity)`: `numSets` sets of `associativity`
empty lines, all counters zero. -/
def Cache.new (sets assoc : Nat) (verbosity : Bool) : Cache :=
  ⟨sets, assoc, verbosity, List.replicate sets (List.replicate assoc CacheLine.empty), 0, 0, 0, 0⟩

/-- `communicateWithL2(operation, address)`: prints one line when `verbose`. -/
def communicateWithL2 (verbose : Bool) (operation : String) (address : Nat) : List Msg :=
  if verbose then [(operation, address)] else []

/-- Halving loop computing the binary logarithm, with the argument itself as fuel. -/
def log2Aux : Nat → Nat → Nat
  | 0, _ => 0
  | fuel + 1, value => if 2 ≤ value then log2Aux fuel (value / 2) + 1 else 0

/-- `Cache::log2(value) = (int)log2f(value)`.  On a power of two `2 ^ k` (exactly
representable as a float for every `int`) `log2f` returns exactly `k`; this is the
integer binary logarithm, which agrees with the source on those arguments.  The
rounding of `log2f` on other arguments is not modelled. -/
def log2 (value : Nat) : Nat := log2Aux value value

/-- `getState(line)`: "I" for an invalid line, otherwise "M" when `writeCount >= 2`, else "V". -/
def getState (line : CacheLine) : String :=
  if !line.valid then "I" else if 2 ≤ line.writeCount then "M" else "V"

/-! ## Address decoding (first lines of `access` and `evictLine`) -/

/-- `setIndex = (address >> offsetBits) & ((1 << indexBits) - 1)` with
`offsetBits = log2(lineSize)` and `indexBits = log2(numSets)`. -/
def decodeSetIndex (lineSize numSets address : Nat) : Nat :=
  (address >>> log2 lineSize) &&& ((1 <<< log2 numSets) - 1)

/-- `tag = address >> (offsetBits + indexBits)`. -/
def decodeTag (lineSize numSets address : Nat) : Nat :=
  address >>> (log2 lineSize + log2 numSets)

/-- The set index `access`/`evictLine` compute for `address` in cache `c`. -/
def Cache.setIndexOf (c : Cache) (address : Nat) : Nat :=
  decodeSetIndex CACHE_LINE_SIZE c.numSets address

/-- The tag `access`/`evictLine` compute for `address` in cache `c`. -/
def Cache.tagOf (c : Cache) (address : Nat) : Nat :=
  decodeTag CACHE_LINE_SIZE c.numSets address

/-- The line `set[i]` of one set (`cache[setIndex][i]` in the source). -/
def wayOf (set : List CacheLine) (i : Nat) : CacheLine :=
  set.getD i default

/-- The line `cache[s][w]`. -/
def Cache.way (c : Cache) (s w : Nat) : CacheLine :=
  wayOf (c.cache.getD s []) w

/-! ## `evictLine` -/

/-- Inner loop of `evictLine` (`for j`): every valid line whose `lru` exceeds
`evictedLRU` is decremented.  First argument: iterations left; second: `j`. -/
def evictAdjust (evictedLRU : Int) : Nat → Nat → List CacheLine → List CacheLine
  | 0, _, set => set
  | n + 1, j, set =>
    let l := wayOf set j
    evictAdjust evictedLRU n (j + 1)
      (if l.valid && decide (l.lru > evictedLRU) then set.set j { l with lru := l.lru - 1 } else set)

/-- Outer loop of `evictLine` (`for i`) on the addressed set.  On a valid line with the
tag: the line is reset to `CacheLine()`; when the recorded `lru` is not `-1` the other
lines are adjusted and the loop is left (`break`), otherwise scanning goes on. -/
def evictScan (tag assoc : Nat) : Nat → Nat → List CacheLine → List CacheLine
  | 0, _, set => set
  | n + 1, i, set =>
    let l := wayOf set i
    if l.valid && l.tag == tag then
      let evictedLRU := l.lru
      let set1 := set.set i CacheLine.empty
      if evictedLRU != -1 then evictAdjust evictedLRU assoc 0 set1
      else evictScan tag assoc n (i + 1) set1
    else evictScan tag assoc n (i + 1) set

/-- `Cache::evictLine(address)`. -/
def evictLine (c : Cache) (address : Nat) : Option Cache :=
  let setIndex := c.setIndexOf address
  let tag := c.tagOf address
  match c.cache[setIndex]? with
  | none => none
  | some set =>
    some { c with cache := c.cache.set setIndex (evictScan tag c.associativity c.associativity 0 set) }

/-! ## `access` -/

/-- The hit-check loop of `access`: the first way `i` whose line is valid and carries `tag`. -/
def findHit (set : List CacheLine) (tag : Nat) : Nat → Nat → Option Nat
  | 0, _ => none
  | n + 1, i =>
    if (wayOf set i).valid && (wayOf set i).tag == tag then some i
    else findHit set tag n (i + 1)

/-- The loops `for j: if (j != skip && cache[setIndex][j].valid) lru++` of the hit path
(`skip = i`) and of the miss path (`skip = lruIndex`). -/
def bumpOthers (skip : Int) : Nat → Nat → List CacheLine → List CacheLine
  | 0, _, set => set
  | n + 1, j, set =>
    let l := wayOf set j
    bumpOthers skip n (j + 1)
      (if decide ((j : Int) ≠ skip) && l.valid then set.set j { l with lru := l.lru + 1 } else set)

/-- Body of the hit branch for way `i`: age reset, ageing of the others, write counting. -/
def hitUpdate (verbose : Bool) (assoc : Nat) (address : Nat) (operation : CacheOperation)
    (i : Nat) (set : List CacheLine) : List CacheLine × List Msg :=
  let set1 := set.set i { wayOf set i with lru := 0 }
  let set2 := bumpOthers i assoc 0 set1
  if operation = WRITE then
    let line := wayOf set2 i
    let wc := line.writeCount + 1
    if wc = 1 then (set2.set i { line with writeCount := wc }, [])
    else if wc = 2 then (set2.set i { line with writeCount := wc, dirty := true }, [])
    else (set2.set i { line with writeCount := wc }, communicateWithL2 verbose "Write to L2" address)
  else (set2, [])

/-- The victim loop of the miss path, returning `lruIndex`.
Arguments: iterations left, `i`, `maxLRU`, `lruIndex`. -/
def findVictim (set : List CacheLine) : Nat → Nat → Int → Int → Int
  | 0, _, _, lruIndex => lruIndex
  | n + 1, i, maxLRU, lruIndex =>
    let l := wayOf set i
    if !l.valid then (i : Int)
    else if l.lru > maxLRU then findVictim set n (i + 1) l.lru i
    else findVictim set n (i + 1) maxLRU lruIndex

/-- The counter update at the top of `access`: READ and FETCH count as reads, WRITE as a
write, any other operation is not counted. -/
def countAccess (c : Cache) (operation : CacheOperation) : Cache :=
  if operation = READ ∨ operation = FETCH then { c with cacheReads := c.cacheReads + 1 }
  else if operation = WRITE then { c with cacheWrites := c.cacheWrites + 1 }
  else c

/-- The line written into the victim way on a miss. -/
def newLine (tag : Nat) (operation : CacheOperation) : CacheLine :=
  ⟨true, false, tag, 0, if operation = WRITE then 1 else 0⟩

/-- `Cache::access(address, operation)`; the second component is what was printed. -/
def access (c : Cache) (address : Nat) (operation : CacheOperation) : Option (Cache × List Msg) :=
  let setIndex := c.setIndexOf address
  let tag := c.tagOf address
  let c1 := countAccess c operation
  if operation = EVICT then
    match evictLine c1 address with
    | none => none
    | some c2 => some (c2, [])
  else
    match c1.cache[setIndex]? with
    | none => none
    | some set =>
      match findHit set tag c1.associativity 0 with
      | some i =>
        let r := hitUpdate c1.verbose c1.associativity address operation i set
        some ({ c1 with cache := c1.cache.set setIndex r.1, cacheHits := c1.cacheHits + 1 }, r.2)
      | none =>
        let out : List Msg :=
          if operation = READ ∨ operation = FETCH then
            communicateWithL2 c1.verbose "Read from L2" address
          else if operation = WRITE then
            communicateWithL2 c1.verbose "Read for Ownership from L2" address
          else []
        let lruIndex := findVictim set c1.associativity 0 (-1) (-1)
        if 0 ≤ lruIndex ∧ lruIndex < set.length then
          let set1 := set.set lruIndex.toNat (newLine tag operation)
          let set2 := bumpOthers lruIndex c1.associativity 0 set1
          some ({ c1 with cache := c1.cache.set setIndex set2, cacheMisses := c1.cacheMisses + 1 }, out)
        else none

/-- `Cache::reset()`. -/
def reset (c : Cache) : Cache :=
  { c with
    cache := c.cache.map (fun set => set.map (fun _ => CacheLine.empty))
    cacheReads := 0, cacheWrites := 0, cacheHits := 0, cacheMisses := 0 }

/-- A sequence of `access` calls on one cache, in order; the printed lines are concatenated. -/
def accessSeq (c : Cache) : List (Nat × CacheOperation) → Option (Cache × List Msg)
  | [] => some (c, [])
  | (address, operation) :: rest =>
    match access c address operation with
    | none => none
    | some (c1, out1) =>
      match accessSeq c1 rest with
      | none => none
      | some (c2, out2) => some (c2, out1 ++ out2)

/-! ## Well-formedness -/

/-- Shape of a constructed cache: `numSets` is a power of two small enough for the
32-bit shifts of the decoder, there are `numSets` sets, each of `associativity` ways. -/
structure Cache.WF (c : Cache) : Prop where
  geometry : ∃ k, c.numSets = 2 ^ k ∧ k < 26
  sets : c.cache.length = c.numSets
  ways : ∀ s ∈ c.cache, s.length = c.associativity

/-- Data-model range of the `int` members of the lines: ages and write counts are never negative. -/
def Cache.NonNeg (c : Cache) : Prop :=
  ∀ s ∈ c.cache, ∀ l ∈ s, 0 ≤ l.lru ∧ 0 ≤ l.writeCount

/-- A valid line carrying `tag` sits in some way of set `s`. -/
def Cache.resident (c : Cache) (s tag : Nat) : Prop :=
  ∃ w, w < c.associativity ∧ (c.way s w).valid = true ∧ (c.way s w).tag = tag

instance (c : Cache) (s tag : Nat) : Decidable (c.resident s tag) :=
  inferInstanceAs (Decidable (∃ w, w < c.associativity ∧
    (c.way s w).valid = true ∧ (c.way s w).tag = tag))

/-- The calls `reqs` all return and afterwards a valid line with `tag` sits in set `s`. -/
def residentAfter (c : Cache) (reqs : List (Nat × CacheOperation)) (s tag : Nat) : Prop :=
  match accessSeq c reqs with
  | some r => r.1.resident s tag
  | none => False

instance (c : Cache) (reqs : List (Nat × CacheOperation)) (s tag : Nat) :
    Decidable (residentAfter c reqs s tag) :=
  match h : accessSeq c reqs with
  | some r => decidable_of_iff (r.1.resident s tag) (by simp [residentAfter, h])
  | none => isFalse (by simp [residentAfter, h])

/-- Number of WRITE accesses in `reqs` that go to the line with tag `t` of set `s`. -/
def writesTo (c : Cache) (s t : Nat) (reqs : List (Nat × CacheOperation)) : Nat :=
  (reqs.filter (fun r => decide (r.2 = WRITE ∧ c.setIndexOf r.1 = s ∧ c.tagOf r.1 = t))).length

/-- Way `v` of set `s` holds the valid line with tag `t` that has seen `k` writes, is dirty
exactly when `k ≥ 2`, and no other way of the set holds a valid line with that tag. -/
def Written (c : Cache) (s v t : Nat) (k : Int) : Prop :=
  (c.way s v).valid = true ∧ (c.way s v).tag = t ∧ (c.way s v).writeCount = k ∧
  (c.way s v).dirty = decide (2 ≤ k) ∧
  ∀ j, j ≠ v → ¬ ((c.way s j).valid = true ∧ (c.way s j).tag = t)

/-- Set `s` has been filled in way order with the lines tagged `tags`: way `w` below
`tags.length` is valid with tag `tags[w]` and age `tags.length - 1 - w`, every later way
is invalid. -/
def Filled (c : Cache) (s : Nat) (tags : List Nat) : Prop :=
  (∀ w, w < tags.length → (c.way s w).valid = true ∧ (c.way s w).tag = tags.getD w 0 ∧
    (c.way s w).lru = (tags.length : Int) - 1 - (w : Int)) ∧
  ∀ w, tags.length ≤ w → (c.way s w).valid = false

/-- Set `s` after the tags `ts` (one more than there are ways) went through it: way 0
holds the last tag, every later way `w` still holds `ts[w]`. -/
def Overflowed (c : Cache) (s : Nat) (ts : List Nat) : Prop :=
  (c.way s 0).valid = true ∧ (c.way s 0).tag = ts.getD (ts.length - 1) 0 ∧
  ∀ w, 1 ≤ w → w + 1 < ts.length →
    (c.way s w).valid = true ∧ (c.way s w).tag = ts.getD w 0

/-- A sample state of a verbose 4-set 2-way cache, the one reached from a fresh cache by
READ 0x000, WRITE 0x100, WRITE 0x100: set 0 is full, way 0 holding tag 0 (age 2, never
written), way 1 holding tag 1 (age 0, written twice, dirty); the other sets are empty. -/
def demoCache : Cache :=
  ⟨4, 2, true,
    [[⟨true, false, 0, 2, 0⟩, ⟨true, true, 1, 0, 2⟩],
     [CacheLine.empty, CacheLine.empty],
     [CacheLine.empty, CacheLine.empty],
     [CacheLine.empty, CacheLine.empty]],
    1, 2, 1, 2⟩

/-- A freshly constructed verbose cache with 4 sets and 2 ways. -/
def freshCache : Cache := Cache.new 4 2 true

/-- The states a cache can be in: freshly constructed with a power-of-two set count, or
obtained from such a state by `access`, `evictLine` and `reset` calls that return. -/
inductive Reachable : Cache → Prop where
  | init (k assoc : Nat) (verbosity : Bool) (hk : k < 26) :
      Reachable (Cache.new (2 ^ k) assoc verbosity)
  | access (c c' : Cache) (address : Nat) (operation : CacheOperation) (out : List Msg) :
      Reachable c → access c address operation = some (c', out) → Reachable c'
  | evictLine (c c' : Cache) (address : Nat) :
      Reachable c → evictLine c address = some c' → Reachable c'
  | reset (c : Cache) : Reachable c → Reachable (reset c)

/-! ## Definitions for the invariants of reachable states and the LRU reference -/

/-- The states a cache goes through in a trace: freshly constructed with a power-of-two
set count, then any `access` with READ, WRITE, FETCH or EVICT, `evictLine` or `reset` call
that returns. -/
inductive TraceReachable : Cache → Prop where
  | init (k assoc : Nat) (verbosity : Bool) (hk : k < 26) :
      TraceReachable (Cache.new (2 ^ k) assoc verbosity)
  | access (c c' : Cache) (address : Nat) (operation : CacheOperation) (out : List Msg) :
      TraceReachable c →
      (operation = READ ∨ operation = WRITE ∨ operation = FETCH ∨ operation = EVICT) →
      access c address operation = some (c', out) → TraceReachable c'
  | evictLine (c c' : Cache) (address : Nat) :
      TraceReachable c → evictLine c address = some c' → TraceReachable c'
  | reset (c : Cache) : TraceReachable c → TraceReachable (reset c)

/-- The tags held by the ways `ws` of a set, in the order of `ws`. -/
def tagsOf (set : List CacheLine) (ws : List Nat) : List Nat :=
  ws.map (fun w => (wayOf set w).tag)

/-- The list `ws` enumerates the valid ways of a set of `A` ways by strictly increasing
age (most recently used first), and their tags are pairwise distinct. -/
structure Recency (set : List CacheLine) (A : Nat) (ws : List Nat) : Prop where
  mem : ∀ w, w ∈ ws ↔ w < A ∧ (wayOf set w).valid = true
  ages : ws.Pairwise (fun a b => (wayOf set a).lru < (wayOf set b).lru)
  tags : (tagsOf set ws).Nodup

/-- Line-level invariant: an invalid line is the empty default line, and a valid line is
dirty exactly when its write count is at least 2. -/
def LineOK (l : CacheLine) : Prop :=
  (l.valid = false → l = CacheLine.empty) ∧ (l.valid = true → l.dirty = decide (2 ≤ l.writeCount))

/-- Every line of the cache satisfies `LineOK`. -/
def Cache.LinesOK (c : Cache) : Prop :=
  ∀ s ∈ c.cache, ∀ l ∈ s, LineOK l

/-- Reference true-LRU set of capacity `A` (the comparison model of claim C17): one access
to tag `t` in the recency list `l`.  A hit moves the tag to the front; a miss inserts the
tag at the front and drops the last tag when the list already holds `A` tags.  Returns the
hit flag and the new list. -/
def refAccess (A : Nat) (l : List Nat) (t : Nat) : Bool × List Nat :=
  if t ∈ l then (true, t :: l.erase t)
  else (false, if l.length < A then t :: l else (t :: l).dropLast)

/-- Reference true-LRU set: an evict removes the tag if present. -/
def refEvict (l : List Nat) (t : Nat) : List Nat :=
  l.erase t

/-- Reference true-LRU cache with `numSets` recency lists of capacity `A`: runs the
requests in order (EVICT is an evict, every other operation an access) and returns the
final lists and the hit flag of every access. -/
def refRun (numSets A : Nat) :
    List (List Nat) → List (Nat × CacheOperation) → List (List Nat) × List Bool
  | L, [] => (L, [])
  | L, (address, operation) :: rest =>
    let s := decodeSetIndex CACHE_LINE_SIZE numSets address
    let t := decodeTag CACHE_LINE_SIZE numSets address
    if operation = EVICT then refRun numSets A (L.set s (refEvict (L.getD s []) t)) rest
    else
      let r := refAccess A (L.getD s []) t
      let q := refRun numSets A (L.set s r.2) rest
      (q.1, r.1 :: q.2)

/-- The source cache on a sequence of requests, recording for every access other than
EVICT whether it was a hit, i.e. whether the call raised `cacheHits`. -/
def accessOutcomes (c : Cache) : List (Nat × CacheOperation) → Option (Cache × List Bool)
  | [] => some (c, [])
  | (address, operation) :: rest =>
    match access c address operation with
    | none => none
    | some (c1, _) =>
      match accessOutcomes c1 rest with
      | none => none
      | some (c2, flags) =>
        some (c2, if operation = EVICT then flags
                  else decide (c1.cacheHits = c.cacheHits + 1) :: flags)

/-- Simulation relation between the source cache and the reference lists: in every set
the valid ways ordered by increasing age carry exactly the tags of the reference list. -/
def Sim (c : Cache) (L : List (List Nat)) : Prop :=
  L.length = c.numSets ∧
  ∀ s, s < c.numSets →
    ∃ ws, Recency (c.cache.getD s []) c.associativity ws ∧
      L.getD s [] = tagsOf (c.cache.getD s []) ws


/-! ## The caches built by `main` -/

/-- The constant `L1I_SETS`. -/
def L1I_SETS : Nat := 16384

/-- The constant `L1D_SETS`. -/
def L1D_SETS : Nat := 16384

/-- The constant `L1I_ASSOC`. -/
def L1I_ASSOC : Nat := 2

/-- The constant `L1D_ASSOC`. -/
def L1D_ASSOC : Nat := 4

/-- The local `bool verbose = (mode == 1)` of `main`, where `mode` is the integer parsed
from the first command-line argument. -/
def mainVerbose (mode : Int) : Bool :=
  mode == 1

/-- The object `l1InstructionCache(L1I_SETS, L1I_ASSOC, verbose)` built by `main`. -/
def l1InstructionCache (mode : Int) : Cache :=
  Cache.new L1I_SETS L1I_ASSOC (mainVerbose mode)

/-- The object `l1DataCache(L1D_SETS, L1D_ASSOC, verbose)` built by `main`. -/
def l1DataCache (mode : Int) : Cache :=
  Cache.new L1D_SETS L1D_ASSOC (mainVerbose mode)

/-! ## The `int` members as 32-bit two's-complement integers

The definitions above keep the `int` members unbounded.  The definitions of this section embed
the same member functions with every `++` and `--` on an `int` wrapping around at 32 bits,
which is what the compiled program does once an age or a counter passes `INT_MAX`. -/

/-- The value a 32-bit `int` holds when the exact result of `++` or `--` is `x`: the
representative of `x` modulo `2 ^ 32` in `[-2 ^ 31, 2 ^ 31)`. -/
def wrapInt (x : Int) : Int :=
  (x + 2147483648) % 4294967296 - 2147483648

/-- Inner loop of `evictLine` with `lru--` on a 32-bit `int`. -/
def evictAdjust32 (evictedLRU : Int) : Nat → Nat → List CacheLine → List CacheLine
  | 0, _, set => set
  | n + 1, j, set =>
    let l := wayOf set j
    evictAdjust32 evictedLRU n (j + 1)
      (if l.valid && decide (l.lru > evictedLRU) then
        set.set j { l with lru := wrapInt (l.lru - 1) }
      else set)

/-- Outer loop of `evictLine`, over `evictAdjust32`. -/
def evictScan32 (tag assoc : Nat) : Nat → Nat → List CacheLine → List CacheLine
  | 0, _, set => set
  | n + 1, i, set =>
    let l := wayOf set i
    if l.valid && l.tag == tag then
      let evictedLRU := l.lru
      let set1 := set.set i CacheLine.empty
      if evictedLRU != -1 then evictAdjust32 evictedLRU assoc 0 set1
      else evictScan32 tag assoc n (i + 1) set1
    else evictScan32 tag assoc n (i + 1) set

/-- `Cache::evictLine(address)` with 32-bit `int` members. -/
def evictLine32 (c : Cache) (address : Nat) : Option Cache :=
  let setIndex := c.setIndexOf address
  let tag := c.tagOf address
  match c.cache[setIndex]? with
  | none => none
  | some set =>
    some { c with
           cache := c.cache.set setIndex (evictScan32 tag c.associativity c.associativity 0 set) }

/-- The ageing loops of `access` with `lru++` on a 32-bit `int`. -/
def bumpOthers32 (skip : Int) : Nat → Nat → List CacheLine → List CacheLine
  | 0, _, set => set
  | n + 1, j, set =>
    let l := wayOf set j
    bumpOthers32 skip n (j + 1)
      (if decide ((j : Int) ≠ skip) && l.valid then
        set.set j { l with lru := wrapInt (l.lru + 1) }
      else set)

/-- Body of the hit branch for way `i`, with `writeCount++` on a 32-bit `int`. -/
def hitUpdate32 (verbose : Bool) (assoc : Nat) (address : Nat) (operation : CacheOperation)
    (i : Nat) (set : List CacheLine) : List CacheLine × List Msg :=
  let set1 := set.set i { wayOf set i with lru := 0 }
  let set2 := bumpOthers32 i assoc 0 set1
  if operation = WRITE then
    let line := wayOf set2 i
    let wc := wrapInt (line.writeCount + 1)
    if wc = 1 then (set2.set i { line with writeCount := wc }, [])
    else if wc = 2 then (set2.set i { line with writeCount := wc, dirty := true }, [])
    else (set2.set i { line with writeCount := wc }, communicateWithL2 verbose "Write to L2" address)
  else (set2, [])

/-- The counter update at the top of `access`, with `++` on a 32-bit `int`. -/
def countAccess32 (c : Cache) (operation : CacheOperation) : Cache :=
  if operation = READ ∨ operation = FETCH then { c with cacheReads := wrapInt (c.cacheReads + 1) }
  else if operation = WRITE then { c with cacheWrites := wrapInt (c.cacheWrites + 1) }
  else c

/-- `Cache::access(address, operation)` with 32-bit `int` members. -/
def access32 (c : Cache) (address : Nat) (operation : CacheOperation) :
    Option (Cache × List Msg) :=
  let setIndex := c.setIndexOf address
  let tag := c.tagOf address
  let c1 := countAccess32 c operation
  if operation = EVICT then
    match evictLine32 c1 address with
    | none => none
    | some c2 => some (c2, [])
  else
    match c1.cache[setIndex]? with
    | none => none
    | some set =>
      match findHit set tag c1.associativity 0 with
      | some i =>
        let r := hitUpdate32 c1.verbose c1.associativity address operation i set
        some ({ c1 with cache := c1.cache.set setIndex r.1,
                        cacheHits := wrapInt (c1.cacheHits + 1) }, r.2)
      | none =>
        let out : List Msg :=
          if operation = READ ∨ operation = FETCH then
            communicateWithL2 c1.verbose "Read from L2" address
          else if operation = WRITE then
            communicateWithL2 c1.verbose "Read for Ownership from L2" address
          else []
        let lruIndex := findVictim set c1.associativity 0 (-1) (-1)
        if 0 ≤ lruIndex ∧ lruIndex < set.length then
          let set1 := set.set lruIndex.toNat (newLine tag operation)
          let set2 := bumpOthers32 lruIndex c1.associativity 0 set1
          some ({ c1 with cache := c1.cache.set setIndex set2,
                          cacheMisses := wrapInt (c1.cacheMisses + 1) }, out)
        else none

/-- One line's `int` members lie in `[-2 ^ 31, 2 ^ 31 - 1)`: a `++` or `--` on them stays
inside the 32-bit range. -/
def LineInRange (l : CacheLine) : Prop :=
  -2147483648 ≤ l.lru ∧ l.lru < 2147483647 ∧
  -2147483648 ≤ l.writeCount ∧ l.writeCount < 2147483647

/-- Every `int` member of the cache (ages, write counts, the four counters) lies in
`[-2 ^ 31, 2 ^ 31 - 1)`. -/
def Cache.InRange (c : Cache) : Prop :=
  (∀ s ∈ c.cache, ∀ l ∈ s, LineInRange l) ∧
  (-2147483648 ≤ c.cacheReads ∧ c.cacheReads < 2147483647) ∧
  (-2147483648 ≤ c.cacheWrites ∧ c.cacheWrites < 2147483647) ∧
  (-2147483648 ≤ c.cacheHits ∧ c.cacheHits < 2147483647) ∧
  (-2147483648 ≤ c.cacheMisses ∧ c.cacheMisses < 2147483647)

/-! ## Auxiliary lemmas: logarithm and decoder -/

theorem log2Aux_two_pow (k : Nat) : ∀ fuel, 2 ^ k ≤ fuel → log2Aux fuel (2 ^ k) = k := by
  induction k with
  | zero =>
    intro fuel h
    cases fuel with
    | zero => simp at h
    | succ f => simp [log2Aux]
  | succ k ih =>
    intro fuel h
    have h2 : 2 ≤ 2 ^ (k + 1) := by
      have : 1 ≤ 2 ^ k := Nat.one_le_two_pow
      rw [pow_succ]; omega
    cases fuel with
    | zero => omega
    | succ f =>
      have hk : 2 ^ (k + 1) / 2 = 2 ^ k := by rw [pow_succ]; simp
      have hf : 2 ^ k ≤ f := by
        have : 2 ^ (k + 1) = 2 ^ k * 2 := pow_succ 2 k
        have : 1 ≤ 2 ^ k := Nat.one_le_two_pow
        omega
      simp only [log2Aux, h2, if_true, hk, ih f hf]

theorem log2_two_pow (k : Nat) : log2 (2 ^ k) = k :=
  log2Aux_two_pow k _ (le_refl _)

theorem decodeSetIndex_two_pow (a b address : Nat) :
    decodeSetIndex (2 ^ a) (2 ^ b) address = address / 2 ^ a % 2 ^ b := by
  simp only [decodeSetIndex, log2_two_pow, Nat.one_shiftLeft, Nat.shiftRight_eq_div_pow,
    Nat.and_pow_two_sub_one_eq_mod]

theorem decodeTag_two_pow (a b address : Nat) :
    decodeTag (2 ^ a) (2 ^ b) address = address / 2 ^ a / 2 ^ b := by
  simp only [decodeTag, log2_two_pow, Nat.shiftRight_eq_div_pow, pow_add, Nat.div_div_eq_div_mul]

/-! ## Auxiliary lemmas: lists of lines -/

theorem wayOf_set (s : List CacheLine) (i j : Nat) (a : CacheLine) :
    wayOf (s.set i a) j = if i = j ∧ i < s.length then a else wayOf s j := by
  unfold wayOf
  rw [List.getD_eq_getElem?_getD, List.getD_eq_getElem?_getD, List.getElem?_set]
  by_cases hij : i = j
  · subst hij
    by_cases hl : i < s.length
    · rw [if_pos rfl, if_pos hl, if_pos ⟨rfl, hl⟩]; rfl
    · have hnone : s[i]? = none := List.getElem?_eq_none (by omega)
      rw [if_pos rfl, if_neg hl, if_neg (fun h => hl h.2), hnone]
  · rw [if_neg hij, if_neg (fun h => hij h.1)]

theorem wayOf_set_self (s : List CacheLine) (i : Nat) (a : CacheLine) (h : i < s.length) :
    wayOf (s.set i a) i = a := by
  rw [wayOf_set, if_pos ⟨rfl, h⟩]

theorem wayOf_set_ne (s : List CacheLine) (i j : Nat) (a : CacheLine) (h : i ≠ j) :
    wayOf (s.set i a) j = wayOf s j := by
  rw [wayOf_set, if_neg (fun hh => h hh.1)]

theorem wayOf_of_le (s : List CacheLine) (j : Nat) (h : s.length ≤ j) :
    wayOf s j = CacheLine.empty := by
  unfold wayOf
  rw [List.getD_eq_default _ _ h]; rfl

theorem valid_lt_length (s : List CacheLine) (j : Nat) (h : (wayOf s j).valid = true) :
    j < s.length := by
  by_contra hn
  rw [wayOf_of_le s j (by omega)] at h
  exact absurd h (by decide)

theorem wayOf_mem (s : List CacheLine) (j : Nat) (h : j < s.length) : wayOf s j ∈ s := by
  unfold wayOf
  rw [List.getD_eq_getElem _ _ h]; exact List.getElem_mem h

theorem ext_wayOf (s t : List CacheLine) (hlen : s.length = t.length)
    (h : ∀ j, j < s.length → wayOf s j = wayOf t j) : s = t := by
  apply List.ext_getElem hlen
  intro n h1 h2
  have := h n h1
  unfold wayOf at this
  rwa [List.getD_eq_getElem _ _ h1, List.getD_eq_getElem _ _ h2] at this

theorem set_wayOf_self (s : List CacheLine) (j : Nat) : s.set j (wayOf s j) = s := by
  apply ext_wayOf
  · simp
  · intro k _
    rw [wayOf_set]
    split
    · rename_i h; rw [h.1]
    · rfl

/-! ## Auxiliary lemmas: the loops -/

theorem bumpOthers_length (skip : Int) (n : Nat) :
    ∀ (j : Nat) (s : List CacheLine), (bumpOthers skip n j s).length = s.length := by
  induction n with
  | zero => intro j s; rfl
  | succ n ih =>
    intro j s
    simp only [bumpOthers]
    rw [ih]
    split
    · exact List.length_set _ _ _
    · rfl

theorem bumpOthers_wayOf (skip : Int) (n : Nat) :
    ∀ (j0 : Nat) (s : List CacheLine) (w : Nat),
      wayOf (bumpOthers skip n j0 s) w =
        if j0 ≤ w ∧ w < j0 + n ∧ (w : Int) ≠ skip ∧ (wayOf s w).valid = true then
          { wayOf s w with lru := (wayOf s w).lru + 1 }
        else wayOf s w := by
  induction n with
  | zero =>
    intro j0 s w
    rw [if_neg]
    · rfl
    · rintro ⟨a, b, _⟩; omega
  | succ n ih =>
    intro j0 s w
    simp only [bumpOthers]
    rw [ih]
    by_cases hw : w = j0
    · subst hw
      rw [if_neg (by rintro ⟨a, _⟩; omega)]
      by_cases hc : (w : Int) ≠ skip ∧ (wayOf s w).valid = true
      · have hlen := valid_lt_length s w hc.2
        rw [if_pos (by simp [hc.1, hc.2]), wayOf_set_self _ _ _ hlen,
          if_pos ⟨le_refl _, by omega, hc.1, hc.2⟩]
      · rw [if_neg, if_neg (fun h => hc ⟨h.2.2.1, h.2.2.2⟩)]
        intro h
        simp only [Bool.and_eq_true, decide_eq_true_eq] at h
        exact hc h
    · have hs2 : wayOf (if (decide ((j0 : Int) ≠ skip) && (wayOf s j0).valid) = true then
          s.set j0 { wayOf s j0 with lru := (wayOf s j0).lru + 1 } else s) w = wayOf s w := by
        split
        · exact wayOf_set_ne _ _ _ _ (Ne.symm hw)
        · rfl
      rw [hs2]
      by_cases hr : j0 ≤ w ∧ w < j0 + (n + 1) ∧ (w : Int) ≠ skip ∧ (wayOf s w).valid = true
      · rw [if_pos hr, if_pos ⟨by omega, by omega, hr.2.2.1, hr.2.2.2⟩]
      · rw [if_neg hr, if_neg]
        rintro ⟨a, b, c, d⟩
        exact hr ⟨by omega, by omega, c, d⟩

theorem evictAdjust_length (e : Int) (n : Nat) :
    ∀ (j : Nat) (s : List CacheLine), (evictAdjust e n j s).length = s.length := by
  induction n with
  | zero => intro j s; rfl
  | succ n ih =>
    intro j s
    simp only [evictAdjust]
    rw [ih]
    split
    · exact List.length_set _ _ _
    · rfl

theorem evictAdjust_wayOf (e : Int) (n : Nat) :
    ∀ (j0 : Nat) (s : List CacheLine) (w : Nat),
      wayOf (evictAdjust e n j0 s) w =
        if j0 ≤ w ∧ w < j0 + n ∧ (wayOf s w).valid = true ∧ e < (wayOf s w).lru then
          { wayOf s w with lru := (wayOf s w).lru - 1 }
        else wayOf s w := by
  induction n with
  | zero =>
    intro j0 s w
    rw [if_neg]
    · rfl
    · rintro ⟨a, b, _⟩; omega
  | succ n ih =>
    intro j0 s w
    simp only [evictAdjust]
    rw [ih]
    by_cases hw : w = j0
    · subst hw
      rw [if_neg (by rintro ⟨a, _⟩; omega)]
      by_cases hc : (wayOf s w).valid = true ∧ e < (wayOf s w).lru
      · have hlen := valid_lt_length s w hc.1
        rw [if_pos (by simp [hc.1, hc.2]), wayOf_set_self _ _ _ hlen,
          if_pos ⟨le_refl _, by omega, hc.1, hc.2⟩]
      · rw [if_neg, if_neg (fun h => hc ⟨h.2.2.1, h.2.2.2⟩)]
        intro h
        simp only [Bool.and_eq_true, decide_eq_true_eq, gt_iff_lt] at h
        exact hc h
    · have hs2 : wayOf (if ((wayOf s j0).valid && decide ((wayOf s j0).lru > e)) = true then
          s.set j0 { wayOf s j0 with lru := (wayOf s j0).lru - 1 } else s) w = wayOf s w := by
        split
        · exact wayOf_set_ne _ _ _ _ (Ne.symm hw)
        · rfl
      rw [hs2]
      by_cases hr : j0 ≤ w ∧ w < j0 + (n + 1) ∧ (wayOf s w).valid = true ∧ e < (wayOf s w).lru
      · rw [if_pos hr, if_pos ⟨by omega, by omega, hr.2.2.1, hr.2.2.2⟩]
      · rw [if_neg hr, if_neg]
        rintro ⟨a, b, c, d⟩
        exact hr ⟨by omega, by omega, c, d⟩

theorem findHit_eq_none (s : List CacheLine) (tag n : Nat) :
    ∀ i0, (∀ j, i0 ≤ j → j < i0 + n → ¬ ((wayOf s j).valid = true ∧ (wayOf s j).tag = tag)) →
      findHit s tag n i0 = none := by
  induction n with
  | zero => intro i0 _; rfl
  | succ n ih =>
    intro i0 h
    simp only [findHit]
    rw [if_neg]
    · exact ih (i0 + 1) (fun j h1 h2 => h j (by omega) (by omega))
    · intro hc
      simp only [Bool.and_eq_true, beq_iff_eq] at hc
      exact h i0 (le_refl _) (by omega) hc

theorem findHit_eq_some (s : List CacheLine) (tag n : Nat) :
    ∀ i0 w, i0 ≤ w → w < i0 + n → (wayOf s w).valid = true → (wayOf s w).tag = tag →
      (∀ j, i0 ≤ j → j < w → ¬ ((wayOf s j).valid = true ∧ (wayOf s j).tag = tag)) →
      findHit s tag n i0 = some w := by
  induction n with
  | zero => intro i0 w h1 h2; omega
  | succ n ih =>
    intro i0 w h1 h2 hv ht hfirst
    simp only [findHit]
    by_cases hw : w = i0
    · subst hw
      rw [if_pos (by simp [hv, ht])]
    · rw [if_neg]
      · exact ih (i0 + 1) w (by omega) (by omega) hv ht (fun j a b => hfirst j (by omega) b)
      · intro hc
        simp only [Bool.and_eq_true, beq_iff_eq] at hc
        exact hfirst i0 (le_refl _) (by omega) hc

theorem findHit_some_spec (s : List CacheLine) (tag n : Nat) :
    ∀ i0 w, findHit s tag n i0 = some w →
      i0 ≤ w ∧ w < i0 + n ∧ (wayOf s w).valid = true ∧ (wayOf s w).tag = tag ∧
      ∀ j, i0 ≤ j → j < w → ¬ ((wayOf s j).valid = true ∧ (wayOf s j).tag = tag) := by
  induction n with
  | zero => intro i0 w h; simp [findHit] at h
  | succ n ih =>
    intro i0 w h
    simp only [findHit] at h
    by_cases hc : ((wayOf s i0).valid && (wayOf s i0).tag == tag) = true
    · rw [if_pos hc] at h
      have hw : i0 = w := Option.some.inj h
      subst hw
      simp only [Bool.and_eq_true, beq_iff_eq] at hc
      exact ⟨le_refl _, by omega, hc.1, hc.2, fun j a b => by omega⟩
    · rw [if_neg hc] at h
      obtain ⟨a, b, c, d, e⟩ := ih (i0 + 1) w h
      refine ⟨by omega, by omega, c, d, ?_⟩
      intro j hj1 hj2
      by_cases hj : j = i0
      · subst hj
        intro hm
        apply hc
        simp [hm.1, hm.2]
      · exact e j (by omega) hj2

theorem findHit_none_spec (s : List CacheLine) (tag n : Nat) :
    ∀ i0, findHit s tag n i0 = none →
      ∀ j, i0 ≤ j → j < i0 + n → ¬ ((wayOf s j).valid = true ∧ (wayOf s j).tag = tag) := by
  induction n with
  | zero => intro i0 _ j h1 h2; omega
  | succ n ih =>
    intro i0 h j h1 h2
    simp only [findHit] at h
    by_cases hc : ((wayOf s i0).valid && (wayOf s i0).tag == tag) = true
    · rw [if_pos hc] at h; exact absurd h (by simp)
    · rw [if_neg hc] at h
      by_cases hj : j = i0
      · subst hj
        intro hm
        apply hc
        simp [hm.1, hm.2]
      · exact ih (i0 + 1) h j (by omega) (by omega)

theorem findVictim_first_invalid (s : List CacheLine) (n : Nat) :
    ∀ (i0 v : Nat) (m li : Int), i0 ≤ v → v < i0 + n → (wayOf s v).valid = false →
      (∀ j, i0 ≤ j → j < v → (wayOf s j).valid = true) →
      findVictim s n i0 m li = (v : Int) := by
  induction n with
  | zero => intro i0 v m li h1 h2; omega
  | succ n ih =>
    intro i0 v m li h1 h2 hv hbefore
    simp only [findVictim]
    by_cases hw : v = i0
    · subst hw
      rw [if_pos (by simp [hv])]
    · have hi : (wayOf s i0).valid = true := hbefore i0 (le_refl _) (by omega)
      rw [if_neg (by simp [hi])]
      split
      · exact ih (i0 + 1) v _ _ (by omega) (by omega) hv (fun j a b => hbefore j (by omega) b)
      · exact ih (i0 + 1) v _ _ (by omega) (by omega) hv (fun j a b => hbefore j (by omega) b)

theorem findVictim_keep (s : List CacheLine) (n : Nat) :
    ∀ (i0 : Nat) (m li : Int), (∀ j, i0 ≤ j → j < i0 + n → (wayOf s j).valid = true) →
      (∀ j, i0 ≤ j → j < i0 + n → (wayOf s j).lru ≤ m) →
      findVictim s n i0 m li = li := by
  induction n with
  | zero => intro i0 m li _ _; rfl
  | succ n ih =>
    intro i0 m li hvalid hle
    simp only [findVictim]
    have hi : (wayOf s i0).valid = true := hvalid i0 (le_refl _) (by omega)
    rw [if_neg (by simp [hi]), if_neg (by have := hle i0 (le_refl _) (by omega); omega)]
    exact ih (i0 + 1) m li (fun j a b => hvalid j (by omega) (by omega))
      (fun j a b => hle j (by omega) (by omega))

theorem findVictim_max (s : List CacheLine) (n : Nat) :
    ∀ (i0 v : Nat) (m li : Int), i0 ≤ v → v < i0 + n →
      (∀ j, i0 ≤ j → j < i0 + n → (wayOf s j).valid = true) →
      m < (wayOf s v).lru →
      (∀ j, i0 ≤ j → j < i0 + n → (wayOf s j).lru ≤ (wayOf s v).lru) →
      (∀ j, i0 ≤ j → j < v → (wayOf s j).lru < (wayOf s v).lru) →
      findVictim s n i0 m li = (v : Int) := by
  induction n with
  | zero => intro i0 v m li h1 h2; omega
  | succ n ih =>
    intro i0 v m li h1 h2 hvalid hm hmax hfirst
    simp only [findVictim]
    have hi : (wayOf s i0).valid = true := hvalid i0 (le_refl _) (by omega)
    rw [if_neg (by simp [hi])]
    by_cases hw : v = i0
    · subst hw
      rw [if_pos (by omega)]
      exact findVictim_keep s n (v + 1) _ _ (fun j a b => hvalid j (by omega) (by omega))
        (fun j a b => hmax j (by omega) (by omega))
    · have hlt := hfirst i0 (le_refl _) (by omega)
      split
      · exact ih (i0 + 1) v _ _ (by omega) (by omega) (fun j a b => hvalid j (by omega) (by omega))
          hlt (fun j a b => hmax j (by omega) (by omega)) (fun j a b => hfirst j (by omega) b)
      · exact ih (i0 + 1) v _ _ (by omega) (by omega) (fun j a b => hvalid j (by omega) (by omega))
          hm (fun j a b => hmax j (by omega) (by omega)) (fun j a b => hfirst j (by omega) b)

theorem evictScan_no_match (tag assoc n : Nat) :
    ∀ (i0 : Nat) (s : List CacheLine),
      (∀ j, i0 ≤ j → j < i0 + n → ¬ ((wayOf s j).valid = true ∧ (wayOf s j).tag = tag)) →
      evictScan tag assoc n i0 s = s := by
  induction n with
  | zero => intro i0 s _; rfl
  | succ n ih =>
    intro i0 s h
    simp only [evictScan]
    rw [if_neg]
    · exact ih (i0 + 1) s (fun j a b => h j (by omega) (by omega))
    · intro hc
      simp only [Bool.and_eq_true, beq_iff_eq] at hc
      exact h i0 (le_refl _) (by omega) hc

theorem evictScan_match (tag assoc n : Nat) :
    ∀ (i0 w : Nat) (s : List CacheLine), i0 ≤ w → w < i0 + n →
      (wayOf s w).valid = true → (wayOf s w).tag = tag → (wayOf s w).lru ≠ -1 →
      (∀ j, i0 ≤ j → j < w → ¬ ((wayOf s j).valid = true ∧ (wayOf s j).tag = tag)) →
      evictScan tag assoc n i0 s =
        evictAdjust (wayOf s w).lru assoc 0 (s.set w CacheLine.empty) := by
  induction n with
  | zero => intro i0 w s h1 h2; omega
  | succ n ih =>
    intro i0 w s h1 h2 hv ht hl hfirst
    simp only [evictScan]
    by_cases hw : w = i0
    · subst hw
      rw [if_pos (by simp [hv, ht]), if_pos (by simpa using hl)]
    · rw [if_neg]
      · exact ih (i0 + 1) w s (by omega) (by omega) hv ht hl (fun j a b => hfirst j (by omega) b)
      · intro hc
        simp only [Bool.and_eq_true, beq_iff_eq] at hc
        exact hfirst i0 (le_refl _) (by omega) hc

/-! ## Auxiliary lemmas: cache level -/

theorem countAccess_numSets (c : Cache) (op : CacheOperation) :
    (countAccess c op).numSets = c.numSets := by
  unfold countAccess; split
  · rfl
  · split <;> rfl

theorem countAccess_associativity (c : Cache) (op : CacheOperation) :
    (countAccess c op).associativity = c.associativity := by
  unfold countAccess; split
  · rfl
  · split <;> rfl

theorem countAccess_verbose (c : Cache) (op : CacheOperation) :
    (countAccess c op).verbose = c.verbose := by
  unfold countAccess; split
  · rfl
  · split <;> rfl

theorem countAccess_cache (c : Cache) (op : CacheOperation) :
    (countAccess c op).cache = c.cache := by
  unfold countAccess; split
  · rfl
  · split <;> rfl

theorem countAccess_cacheHits (c : Cache) (op : CacheOperation) :
    (countAccess c op).cacheHits = c.cacheHits := by
  unfold countAccess; split
  · rfl
  · split <;> rfl

theorem countAccess_cacheMisses (c : Cache) (op : CacheOperation) :
    (countAccess c op).cacheMisses = c.cacheMisses := by
  unfold countAccess; split
  · rfl
  · split <;> rfl

theorem countAccess_cacheReads (c : Cache) (op : CacheOperation) :
    (countAccess c op).cacheReads =
      if op = READ ∨ op = FETCH then c.cacheReads + 1 else c.cacheReads := by
  unfold countAccess; split
  · rfl
  · split <;> rfl

theorem countAccess_cacheWrites (c : Cache) (op : CacheOperation) :
    (countAccess c op).cacheWrites = if op = WRITE then c.cacheWrites + 1 else c.cacheWrites := by
  unfold countAccess
  by_cases h : op = READ ∨ op = FETCH
  · rw [if_pos h, if_neg]
    rcases h with h | h <;> simp [h]
  · rw [if_neg h]; split <;> rfl

theorem countAccess_evict (c : Cache) : countAccess c EVICT = c := by
  simp [countAccess]

theorem Cache.setIndexOf_two_pow (c : Cache) (k address : Nat) (h : c.numSets = 2 ^ k) :
    c.setIndexOf address = address / 2 ^ 6 % 2 ^ k := by
  unfold Cache.setIndexOf
  rw [h, show CACHE_LINE_SIZE = 2 ^ 6 from rfl, decodeSetIndex_two_pow]

theorem Cache.WF.setIndexOf_lt {c : Cache} (h : c.WF) (address : Nat) :
    c.setIndexOf address < c.numSets := by
  obtain ⟨k, hk, _⟩ := h.geometry
  rw [c.setIndexOf_two_pow k address hk, hk]
  exact Nat.mod_lt _ (Nat.two_pow_pos k)

theorem Cache.WF.lookup {c : Cache} (h : c.WF) (s : Nat) (hs : s < c.numSets) :
    c.cache[s]? = some (c.cache.getD s []) := by
  have hl : s < c.cache.length := by rw [h.sets]; exact hs
  rw [List.getD_eq_getElem _ _ hl, List.getElem?_eq_getElem hl]

theorem Cache.WF.set_mem {c : Cache} (h : c.WF) (s : Nat) (hs : s < c.numSets) :
    c.cache.getD s [] ∈ c.cache := by
  have hl : s < c.cache.length := by rw [h.sets]; exact hs
  rw [List.getD_eq_getElem _ _ hl]; exact List.getElem_mem hl

theorem Cache.WF.set_length {c : Cache} (h : c.WF) (s : Nat) (hs : s < c.numSets) :
    (c.cache.getD s []).length = c.associativity :=
  h.ways _ (h.set_mem s hs)

theorem getD_set_self (l : List (List CacheLine)) (s : Nat) (x : List CacheLine)
    (h : s < l.length) : (l.set s x).getD s [] = x := by
  rw [List.getD_eq_getElem?_getD, List.getElem?_set, if_pos rfl, if_pos h]; rfl

theorem getD_set_ne (l : List (List CacheLine)) (s t : Nat) (x : List CacheLine)
    (h : s ≠ t) : (l.set s x).getD t [] = l.getD t [] := by
  rw [List.getD_eq_getElem?_getD, List.getElem?_set, if_neg h, List.getD_eq_getElem?_getD]

theorem Cache.NonNeg.way {c : Cache} (hn : c.NonNeg) (h : c.WF) (s w : Nat)
    (hs : s < c.numSets) (hw : w < c.associativity) :
    0 ≤ (c.way s w).lru ∧ 0 ≤ (c.way s w).writeCount := by
  apply hn _ (h.set_mem s hs)
  exact wayOf_mem _ _ (by rw [h.set_length s hs]; exact hw)

theorem access_evict_eq (c : Cache) (address : Nat) :
    access c address EVICT =
      match evictLine c address with
      | none => none
      | some c2 => some (c2, []) := by
  simp [access, countAccess_evict]

theorem access_hit_eq (c : Cache) (h : c.WF) (address : Nat) (op : CacheOperation)
    (hop : op ≠ EVICT) (w : Nat)
    (hfind : findHit (c.cache.getD (c.setIndexOf address) []) (c.tagOf address)
      c.associativity 0 = some w) :
    access c address op =
      some ({ countAccess c op with
              cache := c.cache.set (c.setIndexOf address)
                (hitUpdate c.verbose c.associativity address op w
                  (c.cache.getD (c.setIndexOf address) [])).1
              cacheHits := c.cacheHits + 1 },
            (hitUpdate c.verbose c.associativity address op w
              (c.cache.getD (c.setIndexOf address) [])).2) := by
  unfold access
  simp only [if_neg hop, countAccess_numSets, countAccess_cache, countAccess_associativity,
    countAccess_verbose, countAccess_cacheHits]
  rw [h.lookup _ (h.setIndexOf_lt address)]
  simp only [hfind]

theorem access_miss_eq (c : Cache) (h : c.WF) (address : Nat) (op : CacheOperation)
    (hop : op ≠ EVICT) (v : Nat) (hv : v < c.associativity)
    (hfind : findHit (c.cache.getD (c.setIndexOf address) []) (c.tagOf address)
      c.associativity 0 = none)
    (hvictim : findVictim (c.cache.getD (c.setIndexOf address) []) c.associativity 0 (-1) (-1)
      = (v : Int)) :
    access c address op =
      some ({ countAccess c op with
              cache := c.cache.set (c.setIndexOf address)
                (bumpOthers v c.associativity 0
                  ((c.cache.getD (c.setIndexOf address) []).set v (newLine (c.tagOf address) op)))
              cacheMisses := c.cacheMisses + 1 },
            if op = READ ∨ op = FETCH then communicateWithL2 c.verbose "Read from L2" address
            else if op = WRITE then
              communicateWithL2 c.verbose "Read for Ownership from L2" address
            else []) := by
  have hlen := h.set_length _ (h.setIndexOf_lt address)
  unfold access
  simp only [if_neg hop, countAccess_numSets, countAccess_cache, countAccess_associativity,
    countAccess_verbose, countAccess_cacheMisses]
  rw [h.lookup _ (h.setIndexOf_lt address)]
  simp only [hfind, hvictim, Int.toNat_ofNat, hlen]
  rw [if_pos ⟨by omega, by omega⟩]

theorem hitUpdate_length (verbose : Bool) (assoc address : Nat) (op : CacheOperation) (w : Nat)
    (set : List CacheLine) : (hitUpdate verbose assoc address op w set).1.length = set.length := by
  unfold hitUpdate
  simp only
  split
  · split
    · simp [bumpOthers_length]
    · split <;> simp [bumpOthers_length]
  · simp [bumpOthers_length]

theorem hitUpdate_wayOf_other (verbose : Bool) (assoc address : Nat) (op : CacheOperation)
    (w : Nat) (set : List CacheLine) (j : Nat) (hj : j ≠ w) :
    wayOf (hitUpdate verbose assoc address op w set).1 j =
      if j < assoc ∧ (wayOf set j).valid = true then
        { wayOf set j with lru := (wayOf set j).lru + 1 }
      else wayOf set j := by
  have hb : wayOf (bumpOthers w assoc 0 (set.set w { wayOf set w with lru := 0 })) j =
      if j < assoc ∧ (wayOf set j).valid = true then
        { wayOf set j with lru := (wayOf set j).lru + 1 }
      else wayOf set j := by
    rw [bumpOthers_wayOf, wayOf_set_ne _ _ _ _ (Ne.symm hj)]
    by_cases hc : j < assoc ∧ (wayOf set j).valid = true
    · rw [if_pos hc, if_pos ⟨Nat.zero_le _, by omega, by exact_mod_cast hj, hc.2⟩]
    · rw [if_neg hc, if_neg]
      rintro ⟨_, a, _, b⟩
      exact hc ⟨by omega, b⟩
  unfold hitUpdate
  simp only
  split
  · split
    · rw [wayOf_set_ne _ _ _ _ (Ne.symm hj), hb]
    · split
      · rw [wayOf_set_ne _ _ _ _ (Ne.symm hj), hb]
      · rw [wayOf_set_ne _ _ _ _ (Ne.symm hj), hb]
  · exact hb

theorem hitUpdate_wayOf_self (verbose : Bool) (assoc address : Nat) (op : CacheOperation)
    (w : Nat) (set : List CacheLine) (hw : w < set.length) :
    wayOf (hitUpdate verbose assoc address op w set).1 w =
      { wayOf set w with
        lru := 0
        writeCount := if op = WRITE then (wayOf set w).writeCount + 1 else (wayOf set w).writeCount
        dirty := if op = WRITE ∧ (wayOf set w).writeCount + 1 = 2 then true
                 else (wayOf set w).dirty } := by
  have hb : wayOf (bumpOthers w assoc 0 (set.set w { wayOf set w with lru := 0 })) w =
      { wayOf set w with lru := 0 } := by
    rw [bumpOthers_wayOf, wayOf_set_self _ _ _ hw, if_neg]
    rintro ⟨_, _, a, _⟩
    exact a rfl
  have hl : w < (bumpOthers w assoc 0 (set.set w { wayOf set w with lru := 0 })).length := by
    rw [bumpOthers_length, List.length_set]; exact hw
  unfold hitUpdate
  simp only
  by_cases hop : op = WRITE
  · rw [if_pos hop]
    split
    · rename_i h1
      rw [wayOf_set_self _ _ _ hl, hb]
      simp only [hb] at h1
      simp [hop, h1]
    · split
      · rename_i h1 h2
        rw [wayOf_set_self _ _ _ hl, hb]
        simp only [hb] at h2
        simp [hop, h2]
      · rename_i h1 h2
        rw [wayOf_set_self _ _ _ hl, hb]
        simp only [hb] at h2
        simp [hop, h2]
  · rw [if_neg hop, hb]
    simp [hop]

theorem hitUpdate_out (verbose : Bool) (assoc address : Nat) (op : CacheOperation)
    (w : Nat) (set : List CacheLine) (hw : w < set.length) :
    (hitUpdate verbose assoc address op w set).2 =
      if op = WRITE ∧ (wayOf set w).writeCount + 1 ≠ 1 ∧ (wayOf set w).writeCount + 1 ≠ 2 then
        communicateWithL2 verbose "Write to L2" address
      else [] := by
  have hb : wayOf (bumpOthers w assoc 0 (set.set w { wayOf set w with lru := 0 })) w =
      { wayOf set w with lru := 0 } := by
    rw [bumpOthers_wayOf, wayOf_set_self _ _ _ hw, if_neg]
    rintro ⟨_, _, a, _⟩
    exact a rfl
  unfold hitUpdate
  simp only [hb]
  by_cases hop : op = WRITE
  · rw [if_pos hop]
    split
    · rename_i h1
      rw [if_neg (fun h => h.2.1 h1)]
    · split
      · rename_i h1 h2
        rw [if_neg (fun h => h.2.2 h2)]
      · rename_i h1 h2
        rw [if_pos ⟨hop, h1, h2⟩]
  · rw [if_neg hop, if_neg (fun h => hop h.1)]

theorem missFill_length (v assoc : Nat) (l : CacheLine) (set : List CacheLine) :
    (bumpOthers v assoc 0 (set.set v l)).length = set.length := by
  rw [bumpOthers_length, List.length_set]

theorem missFill_wayOf_self (v assoc : Nat) (l : CacheLine) (set : List CacheLine)
    (hv : v < set.length) : wayOf (bumpOthers v assoc 0 (set.set v l)) v = l := by
  rw [bumpOthers_wayOf, wayOf_set_self _ _ _ hv, if_neg]
  rintro ⟨_, _, a, _⟩
  exact a rfl

theorem missFill_wayOf_other (v assoc : Nat) (l : CacheLine) (set : List CacheLine)
    (j : Nat) (hj : j ≠ v) :
    wayOf (bumpOthers v assoc 0 (set.set v l)) j =
      if j < assoc ∧ (wayOf set j).valid = true then
        { wayOf set j with lru := (wayOf set j).lru + 1 }
      else wayOf set j := by
  rw [bumpOthers_wayOf, wayOf_set_ne _ _ _ _ (Ne.symm hj)]
  by_cases hc : j < assoc ∧ (wayOf set j).valid = true
  · rw [if_pos hc, if_pos ⟨Nat.zero_le _, by omega, by exact_mod_cast hj, hc.2⟩]
  · rw [if_neg hc, if_neg]
    rintro ⟨_, a, _, b⟩
    exact hc ⟨by omega, b⟩

theorem exists_first_max (f : Nat → Int) (n : Nat) (hn : 0 < n) :
    ∃ v, v < n ∧ (∀ j, j < n → f j ≤ f v) ∧ (∀ j, j < v → f j < f v) := by
  induction n with
  | zero => omega
  | succ n ih =>
    by_cases h0 : n = 0
    · subst h0
      exact ⟨0, by omega, fun j hj => by rw [show j = 0 by omega], fun j hj => by omega⟩
    · obtain ⟨v, hv, hmax, hfirst⟩ := ih (by omega)
      by_cases hlast : f n ≤ f v
      · refine ⟨v, by omega, ?_, hfirst⟩
        intro j hj
        by_cases hjn : j = n
        · rw [hjn]; exact hlast
        · exact hmax j (by omega)
      · refine ⟨n, by omega, ?_, ?_⟩
        · intro j hj
          by_cases hjn : j = n
          · rw [hjn]
          · have := hmax j (by omega); omega
        · intro j hj
          have := hmax j hj; omega

theorem set_getD_self (l : List (List CacheLine)) (s : Nat) : l.set s (l.getD s []) = l := by
  by_cases h : s < l.length
  · apply List.ext_getElem (by simp)
    intro n h1 h2
    rw [List.getElem_set]
    split
    · rename_i hsn
      subst hsn
      rw [List.getD_eq_getElem _ _ h]
    · rfl
  · exact List.set_eq_of_length_le (by omega)

theorem evictLine_eq (c : Cache) (h : c.WF) (address : Nat) :
    evictLine c address =
      some { c with
             cache := c.cache.set (c.setIndexOf address)
               (evictScan (c.tagOf address) c.associativity c.associativity 0
                 (c.cache.getD (c.setIndexOf address) [])) } := by
  unfold evictLine
  simp only
  rw [h.lookup _ (h.setIndexOf_lt address)]

theorem evictFill_wayOf (e : Int) (w assoc : Nat) (set : List CacheLine) (hw : w < set.length)
    (j : Nat) :
    wayOf (evictAdjust e assoc 0 (set.set w CacheLine.empty)) j =
      if j = w then CacheLine.empty
      else if j < assoc ∧ (wayOf set j).valid = true ∧ e < (wayOf set j).lru then
        { wayOf set j with lru := (wayOf set j).lru - 1 }
      else wayOf set j := by
  rw [evictAdjust_wayOf]
  by_cases hj : j = w
  · subst hj
    rw [wayOf_set_self _ _ _ hw, if_pos rfl, if_neg]
    rintro ⟨_, _, a, _⟩
    exact absurd a (by decide)
  · rw [wayOf_set_ne _ _ _ _ (Ne.symm hj), if_neg hj]
    by_cases hc : j < assoc ∧ (wayOf set j).valid = true ∧ e < (wayOf set j).lru
    · rw [if_pos hc, if_pos ⟨Nat.zero_le _, by omega, hc.2.1, hc.2.2⟩]
    · rw [if_neg hc, if_neg]
      rintro ⟨_, a, b, d⟩
      exact hc ⟨by omega, b, d⟩

theorem Cache.WF.update {c : Cache} (h : c.WF) (c' : Cache) (s : Nat) (x : List CacheLine)
    (hn : c'.numSets = c.numSets) (ha : c'.associativity = c.associativity)
    (hc : c'.cache = c.cache.set s x) (hx : x.length = c.associativity) : c'.WF := by
  refine ⟨by rw [hn]; exact h.geometry, by rw [hc, List.length_set, hn]; exact h.sets, ?_⟩
  intro t ht
  rw [hc] at ht
  rw [ha]
  rcases List.mem_or_eq_of_mem_set ht with hm | he
  · exact h.ways t hm
  · rw [he]; exact hx

theorem Cache.setIndexOf_congr (c c' : Cache) (h : c'.numSets = c.numSets) (address : Nat) :
    c'.setIndexOf address = c.setIndexOf address := by
  unfold Cache.setIndexOf; rw [h]

theorem Cache.tagOf_congr (c c' : Cache) (h : c'.numSets = c.numSets) (address : Nat) :
    c'.tagOf address = c.tagOf address := by
  unfold Cache.tagOf; rw [h]

theorem exists_victim (c : Cache) (hwf : c.WF) (hnn : c.NonNeg) (hassoc : 1 ≤ c.associativity)
    (s : Nat) (hs : s < c.numSets) :
    ∃ v, v < c.associativity ∧
      findVictim (c.cache.getD s []) c.associativity 0 (-1) (-1) = (v : Int) ∧
      (((c.way s v).valid = false ∧ ∀ j, j < v → (c.way s j).valid = true) ∨
        ((∀ j, j < c.associativity → (c.way s j).valid = true) ∧
          (∀ j, j < c.associativity → (c.way s j).lru ≤ (c.way s v).lru) ∧
          ∀ j, j < v → (c.way s j).lru < (c.way s v).lru)) := by
  by_cases hinv : ∃ j, j < c.associativity ∧ (c.way s j).valid = false
  · classical
    have hv := Nat.find_spec hinv
    have hbefore : ∀ j, j < Nat.find hinv → (c.way s j).valid = true := by
      intro j hj
      have := Nat.find_min hinv hj
      by_contra hcon
      exact this ⟨by omega, by simpa using hcon⟩
    exact ⟨Nat.find hinv, hv.1, findVictim_first_invalid _ _ 0 _ _ _ (Nat.zero_le _)
      (by omega) hv.2 (fun j _ hj => hbefore j hj), Or.inl ⟨hv.2, hbefore⟩⟩
  · have hall : ∀ j, j < c.associativity → (c.way s j).valid = true := by
      intro j hj
      by_contra hcon
      exact hinv ⟨j, hj, by simpa using hcon⟩
    obtain ⟨v, hv, hmax, hfst⟩ :=
      exists_first_max (fun j => (c.way s j).lru) c.associativity hassoc
    have hpos := (hnn.way hwf s v hs hv).1
    exact ⟨v, hv, findVictim_max _ _ 0 v _ _ (Nat.zero_le _) (by omega)
      (fun j _ hj => hall j (by omega)) (by unfold Cache.way at hpos; omega)
      (fun j _ hj => hmax j (by omega)) (fun j _ hj => hfst j hj), Or.inr ⟨hall, hmax, hfst⟩⟩

theorem access_miss_spec (c : Cache) (hwf : c.WF) (address : Nat) (op : CacheOperation)
    (hop : op ≠ EVICT) (v : Nat) (hv : v < c.associativity)
    (hmiss : ∀ j, j < c.associativity → ¬ ((c.way (c.setIndexOf address) j).valid = true ∧
      (c.way (c.setIndexOf address) j).tag = c.tagOf address))
    (hvictim : findVictim (c.cache.getD (c.setIndexOf address) []) c.associativity 0 (-1) (-1)
      = (v : Int)) :
    ∃ c', access c address op = some (c',
        if op = READ ∨ op = FETCH then communicateWithL2 c.verbose "Read from L2" address
        else if op = WRITE then
          communicateWithL2 c.verbose "Read for Ownership from L2" address
        else []) ∧
      c'.WF ∧ c'.numSets = c.numSets ∧ c'.associativity = c.associativity ∧
      c'.verbose = c.verbose ∧ c'.cacheHits = c.cacheHits ∧
      c'.cacheMisses = c.cacheMisses + 1 ∧
      c'.way (c.setIndexOf address) v = newLine (c.tagOf address) op ∧
      ∀ j, j ≠ v → c'.way (c.setIndexOf address) j =
        if j < c.associativity ∧ (c.way (c.setIndexOf address) j).valid = true then
          { c.way (c.setIndexOf address) j with
            lru := (c.way (c.setIndexOf address) j).lru + 1 }
        else c.way (c.setIndexOf address) j := by
  have hsi := hwf.setIndexOf_lt address
  have hlen := hwf.set_length _ hsi
  have hsl : c.setIndexOf address < c.cache.length := by rw [hwf.sets]; exact hsi
  have hvl : v < (c.cache.getD (c.setIndexOf address) []).length := by rw [hlen]; exact hv
  have hfind := findHit_eq_none (c.cache.getD (c.setIndexOf address) []) (c.tagOf address)
    c.associativity 0 (fun j _ hj => hmiss j (by omega))
  refine ⟨_, access_miss_eq c hwf address op hop v hv hfind hvictim, ?_,
    countAccess_numSets c op, countAccess_associativity c op, countAccess_verbose c op,
    countAccess_cacheHits c op, rfl, ?_, ?_⟩
  · exact hwf.update _ (c.setIndexOf address) _ (countAccess_numSets c op)
      (countAccess_associativity c op) rfl (by rw [missFill_length, hlen])
  · simp only [Cache.way, getD_set_self _ _ _ hsl]
    rw [missFill_wayOf_self _ _ _ _ hvl]
  · intro j hj
    simp only [Cache.way, getD_set_self _ _ _ hsl]
    rw [missFill_wayOf_other _ _ _ _ _ hj]

theorem access_hit_spec (c : Cache) (hwf : c.WF) (address : Nat) (op : CacheOperation)
    (hop : op ≠ EVICT) (w : Nat)
    (hvalid : (c.way (c.setIndexOf address) w).valid = true)
    (htag : (c.way (c.setIndexOf address) w).tag = c.tagOf address)
    (hfirst : ∀ j, j < w → ¬ ((c.way (c.setIndexOf address) j).valid = true ∧
      (c.way (c.setIndexOf address) j).tag = c.tagOf address)) :
    ∃ c', access c address op = some (c',
        if op = WRITE ∧ (c.way (c.setIndexOf address) w).writeCount + 1 ≠ 1 ∧
            (c.way (c.setIndexOf address) w).writeCount + 1 ≠ 2 then
          communicateWithL2 c.verbose "Write to L2" address
        else []) ∧
      c'.WF ∧ c'.numSets = c.numSets ∧ c'.associativity = c.associativity ∧
      c'.verbose = c.verbose ∧ c'.cacheHits = c.cacheHits + 1 ∧
      c'.cacheMisses = c.cacheMisses ∧
      c'.way (c.setIndexOf address) w =
        { c.way (c.setIndexOf address) w with
          lru := 0
          writeCount := if op = WRITE then (c.way (c.setIndexOf address) w).writeCount + 1
                        else (c.way (c.setIndexOf address) w).writeCount
          dirty := if op = WRITE ∧ (c.way (c.setIndexOf address) w).writeCount + 1 = 2 then true
                   else (c.way (c.setIndexOf address) w).dirty } ∧
      ∀ j, j ≠ w → c'.way (c.setIndexOf address) j =
        if j < c.associativity ∧ (c.way (c.setIndexOf address) j).valid = true then
          { c.way (c.setIndexOf address) j with
            lru := (c.way (c.setIndexOf address) j).lru + 1 }
        else c.way (c.setIndexOf address) j := by
  have hsi := hwf.setIndexOf_lt address
  have hlen := hwf.set_length _ hsi
  have hsl : c.setIndexOf address < c.cache.length := by rw [hwf.sets]; exact hsi
  have hwl : w < (c.cache.getD (c.setIndexOf address) []).length := valid_lt_length _ _ hvalid
  have hfind := findHit_eq_some (c.cache.getD (c.setIndexOf address) []) (c.tagOf address)
    c.associativity 0 w (Nat.zero_le _) (by omega) hvalid htag (fun j _ hj => hfirst j hj)
  have heq := access_hit_eq c hwf address op hop w hfind
  rw [hitUpdate_out _ _ _ _ _ _ hwl] at heq
  refine ⟨_, heq, ?_, countAccess_numSets c op, countAccess_associativity c op,
    countAccess_verbose c op, rfl, countAccess_cacheMisses c op, ?_, ?_⟩
  · exact hwf.update _ (c.setIndexOf address) _ (countAccess_numSets c op)
      (countAccess_associativity c op) rfl (by rw [hitUpdate_length, hlen])
  · simp only [Cache.way, getD_set_self _ _ _ hsl]
    rw [hitUpdate_wayOf_self _ _ _ _ _ _ hwl]
  · intro j hj
    simp only [Cache.way, getD_set_self _ _ _ hsl]
    rw [hitUpdate_wayOf_other _ _ _ _ _ _ _ hj]

theorem getD_zero_mem (l : List Nat) (w : Nat) (h : w < l.length) : l.getD w 0 ∈ l := by
  rw [List.getD_eq_getElem _ _ h]; exact List.getElem_mem h

theorem accessSeq_cons (c : Cache) (a : Nat) (op : CacheOperation)
    (rest : List (Nat × CacheOperation)) :
    accessSeq c ((a, op) :: rest) =
      match access c a op with
      | none => none
      | some (c1, out1) =>
        match accessSeq c1 rest with
        | none => none
        | some (c2, out2) => some (c2, out1 ++ out2) := rfl

theorem accessSeq_append (xs ys : List (Nat × CacheOperation)) :
    ∀ c : Cache, accessSeq c (xs ++ ys) =
      match accessSeq c xs with
      | none => none
      | some (c1, out1) =>
        match accessSeq c1 ys with
        | none => none
        | some (c2, out2) => some (c2, out1 ++ out2) := by
  induction xs with
  | nil =>
    intro c
    rw [List.nil_append]
    rcases h : accessSeq c ys with _ | ⟨c2, o2⟩
    · simp [accessSeq, h]
    · simp [accessSeq, h]
  | cons x xs ih =>
    intro c
    obtain ⟨a, op⟩ := x
    rw [List.cons_append, accessSeq_cons, accessSeq_cons]
    rcases hacc : access c a op with _ | ⟨c1, o1⟩
    · rfl
    · simp only [ih c1]
      rcases h1 : accessSeq c1 xs with _ | ⟨c2, o2⟩
      · rfl
      · simp only
        rcases h2 : accessSeq c2 ys with _ | ⟨c3, o3⟩
        · rfl
        · simp

theorem fill_step (c : Cache) (hwf : c.WF) (address : Nat) (op : CacheOperation)
    (hop : op = READ ∨ op = WRITE ∨ op = FETCH) (tags : List Nat)
    (hF : Filled c (c.setIndexOf address) tags) (hlen : tags.length < c.associativity)
    (ht : c.tagOf address ∉ tags) :
    ∃ c' out, access c address op = some (c', out) ∧ c'.WF ∧ c'.numSets = c.numSets ∧
      c'.associativity = c.associativity ∧ c'.cacheHits = c.cacheHits ∧
      c'.cacheMisses = c.cacheMisses + 1 ∧
      Filled c' (c.setIndexOf address) (tags ++ [c.tagOf address]) := by
  have hne : op ≠ EVICT := by rcases hop with h | h | h <;> rw [h] <;> decide
  have hmiss : ∀ j, j < c.associativity → ¬ ((c.way (c.setIndexOf address) j).valid = true ∧
      (c.way (c.setIndexOf address) j).tag = c.tagOf address) := by
    intro j _ hm
    by_cases hj : j < tags.length
    · apply ht
      rw [← hm.2, (hF.1 j hj).2.1]
      exact getD_zero_mem _ _ hj
    · have := hF.2 j (by omega)
      rw [this] at hm
      exact absurd hm.1 (by decide)
  have hvictim := findVictim_first_invalid (c.cache.getD (c.setIndexOf address) [])
    c.associativity 0 tags.length (-1) (-1) (Nat.zero_le _) (by omega)
    (hF.2 tags.length (le_refl _)) (fun j _ hj => (hF.1 j hj).1)
  obtain ⟨c', hacc, hwf', hn, ha, _, hh, hm, hself, hother⟩ :=
    access_miss_spec c hwf address op hne tags.length hlen hmiss hvictim
  refine ⟨c', _, hacc, hwf', hn, ha, hh, hm, ?_, ?_⟩
  · intro w hw
    rw [List.length_append, List.length_singleton] at hw
    by_cases hwl : w = tags.length
    · subst hwl
      rw [hself]
      refine ⟨rfl, ?_, ?_⟩
      · rw [List.getD_append_right _ _ _ _ (le_refl _)]; simp [newLine]
      · simp [newLine]
    · have hw' : w < tags.length := by omega
      obtain ⟨h1, h2, h3⟩ := hF.1 w hw'
      rw [hother w hwl, if_pos ⟨by omega, h1⟩]
      refine ⟨h1, ?_, ?_⟩
      · rw [List.getD_append _ _ _ _ hw']; exact h2
      · simp only [h3, List.length_append, List.length_singleton]
        push_cast; ring
  · intro w hw
    rw [List.length_append, List.length_singleton] at hw
    have hinv := hF.2 w (by omega)
    rw [hother w (by omega), if_neg]
    · exact hinv
    · intro h; rw [hinv] at h; exact absurd h.2 (by decide)

theorem evict_oldest_step (c : Cache) (hwf : c.WF) (address : Nat) (op : CacheOperation)
    (hop : op = READ ∨ op = WRITE ∨ op = FETCH) (tags : List Nat)
    (hF : Filled c (c.setIndexOf address) tags) (hlen : tags.length = c.associativity)
    (hassoc : 1 ≤ c.associativity) (ht : c.tagOf address ∉ tags) :
    ∃ c' out, access c address op = some (c', out) ∧
      c'.associativity = c.associativity ∧ c'.cacheHits = c.cacheHits ∧
      c'.cacheMisses = c.cacheMisses + 1 ∧
      (c'.way (c.setIndexOf address) 0).valid = true ∧
      (c'.way (c.setIndexOf address) 0).tag = c.tagOf address ∧
      ∀ w, 1 ≤ w → w < c.associativity →
        (c'.way (c.setIndexOf address) w).valid = true ∧
        (c'.way (c.setIndexOf address) w).tag = tags.getD w 0 := by
  have hne : op ≠ EVICT := by rcases hop with h | h | h <;> rw [h] <;> decide
  have hmiss : ∀ j, j < c.associativity → ¬ ((c.way (c.setIndexOf address) j).valid = true ∧
      (c.way (c.setIndexOf address) j).tag = c.tagOf address) := by
    intro j hj hm
    apply ht
    rw [← hm.2, (hF.1 j (by omega)).2.1]
    exact getD_zero_mem _ _ (by omega)
  have hlru : ∀ j, j < c.associativity →
      (wayOf (c.cache.getD (c.setIndexOf address) []) j).lru =
        (c.associativity : Int) - 1 - (j : Int) := by
    intro j hj
    have := (hF.1 j (by omega)).2.2
    rw [hlen] at this
    exact this
  have hvictim := findVictim_max (c.cache.getD (c.setIndexOf address) [])
    c.associativity 0 0 (-1) (-1) (le_refl _) (by omega)
    (fun j _ hj => (hF.1 j (by omega)).1)
    (by rw [hlru 0 (by omega)]; omega)
    (fun j _ hj => by rw [hlru 0 (by omega), hlru j (by omega)]; omega)
    (fun j _ hj => by omega)
  obtain ⟨c', hacc, _, _, ha, _, hh, hm, hself, hother⟩ :=
    access_miss_spec c hwf address op hne 0 (by omega) hmiss hvictim
  refine ⟨c', _, hacc, ha, hh, hm, by rw [hself]; rfl, by rw [hself]; rfl, ?_⟩
  intro w hw1 hw2
  obtain ⟨h1, h2, _⟩ := hF.1 w (by omega)
  rw [hother w (by omega), if_pos ⟨hw2, h1⟩]
  exact ⟨h1, h2⟩

theorem fresh_wf (k assoc : Nat) (verbosity : Bool) (hk : k < 26) :
    (Cache.new (2 ^ k) assoc verbosity).WF := by
  refine ⟨⟨k, rfl, hk⟩, by simp [Cache.new], ?_⟩
  intro s hs
  simp only [Cache.new] at hs
  rw [List.eq_of_mem_replicate hs]
  simp [Cache.new]

theorem fresh_nonNeg (sets assoc : Nat) (verbosity : Bool) :
    (Cache.new sets assoc verbosity).NonNeg := by
  intro s hs l hl
  simp only [Cache.new] at hs
  rw [List.eq_of_mem_replicate hs] at hl
  rw [List.eq_of_mem_replicate hl]
  exact ⟨le_refl _, le_refl _⟩

theorem freshCache_wf : freshCache.WF := fresh_wf 2 2 true (by decide)

theorem freshCache_nonNeg : freshCache.NonNeg := fresh_nonNeg 4 2 true

theorem demoCache_reached :
    accessSeq freshCache [(0x000, READ), (0x100, WRITE), (0x100, WRITE)] =
      some (demoCache, [("Read from L2", 0x000), ("Read for Ownership from L2", 0x100)]) := by
  decide

theorem demoCache_wf : demoCache.WF :=
  ⟨⟨2, rfl, by decide⟩, rfl, by decide⟩

theorem demoCache_nonNeg : demoCache.NonNeg := by
  unfold Cache.NonNeg
  decide

/-! ## Auxiliary lemmas: the shape and range invariants hold in every reachable state -/

theorem evictScan_length (tag assoc n : Nat) :
    ∀ (i : Nat) (s : List CacheLine), (evictScan tag assoc n i s).length = s.length := by
  induction n with
  | zero => intro i s; rfl
  | succ n ih =>
    intro i s
    simp only [evictScan]
    split
    · split
      · rw [evictAdjust_length, List.length_set]
      · rw [ih, List.length_set]
    · exact ih _ _

theorem forall_mem_of_wayOf (P : CacheLine → Prop) (s : List CacheLine)
    (h : ∀ j, P (wayOf s j)) : ∀ l ∈ s, P l := by
  intro l hl
  obtain ⟨j, hj, rfl⟩ := List.mem_iff_getElem.1 hl
  have := h j
  unfold wayOf at this
  rwa [List.getD_eq_getElem _ _ hj] at this

theorem wayOf_nonneg_of_mem (s : List CacheLine)
    (h : ∀ l ∈ s, 0 ≤ l.lru ∧ 0 ≤ l.writeCount) (j : Nat) :
    0 ≤ (wayOf s j).lru ∧ 0 ≤ (wayOf s j).writeCount := by
  by_cases hj : j < s.length
  · exact h _ (wayOf_mem s j hj)
  · rw [wayOf_of_le s j (by omega)]
    exact ⟨le_refl _, le_refl _⟩

theorem evictScan_nonneg (tag assoc n : Nat) :
    ∀ (i : Nat) (s : List CacheLine),
      (∀ j, 0 ≤ (wayOf s j).lru ∧ 0 ≤ (wayOf s j).writeCount) →
      ∀ j, 0 ≤ (wayOf (evictScan tag assoc n i s) j).lru ∧
        0 ≤ (wayOf (evictScan tag assoc n i s) j).writeCount := by
  induction n with
  | zero => intro i s h; exact h
  | succ n ih =>
    intro i s h
    have hset : ∀ j, 0 ≤ (wayOf (s.set i CacheLine.empty) j).lru ∧
        0 ≤ (wayOf (s.set i CacheLine.empty) j).writeCount := by
      intro j
      rw [wayOf_set]
      split
      · exact ⟨le_refl _, le_refl _⟩
      · exact h j
    simp only [evictScan]
    split
    · split
      · intro j
        rw [evictAdjust_wayOf]
        split
        · rename_i hc
          have := hset j
          have hi := (h i).1
          exact ⟨by simp only []; omega, this.2⟩
        · exact hset j
      · exact ih _ _ hset
    · exact ih _ _ h

theorem Cache.NonNeg.update_set {c : Cache} (hn : c.NonNeg) (c' : Cache) (s : Nat)
    (x : List CacheLine) (hc : c'.cache = c.cache.set s x)
    (hx : ∀ j, 0 ≤ (wayOf x j).lru ∧ 0 ≤ (wayOf x j).writeCount) : c'.NonNeg := by
  intro t ht
  rw [hc] at ht
  rcases List.mem_or_eq_of_mem_set ht with hm | he
  · exact hn t hm
  · rw [he]
    exact forall_mem_of_wayOf _ x hx

theorem evictLine_preserves (c : Cache) (hwf : c.WF) (hnn : c.NonNeg) (address : Nat)
    (c' : Cache) (h : evictLine c address = some c') : c'.WF ∧ c'.NonNeg := by
  have hsi := hwf.setIndexOf_lt address
  rw [evictLine_eq c hwf address] at h
  have hc := (Option.some.inj h).symm
  subst hc
  refine ⟨hwf.update _ (c.setIndexOf address) _ rfl rfl rfl
    (by rw [evictScan_length, hwf.set_length _ hsi]), hnn.update_set _ (c.setIndexOf address) _ rfl ?_⟩
  exact evictScan_nonneg _ _ _ _ _ (wayOf_nonneg_of_mem _ (hnn _ (hwf.set_mem _ hsi)))

theorem access_preserves (c : Cache) (hwf : c.WF) (hnn : c.NonNeg) (address : Nat)
    (op : CacheOperation) (c' : Cache) (out : List Msg)
    (h : access c address op = some (c', out)) : c'.WF ∧ c'.NonNeg := by
  have hsi := hwf.setIndexOf_lt address
  have hlen := hwf.set_length _ hsi
  have hold := wayOf_nonneg_of_mem _ (hnn _ (hwf.set_mem _ hsi))
  by_cases hev : op = EVICT
  · subst hev
    rw [access_evict_eq] at h
    rcases he : evictLine c address with _ | c2
    · rw [he] at h; exact absurd h (by simp)
    · rw [he] at h
      have : c2 = c' := (Prod.mk.inj (Option.some.inj h)).1
      subst this
      exact evictLine_preserves c hwf hnn address c2 he
  · rcases hf : findHit (c.cache.getD (c.setIndexOf address) []) (c.tagOf address)
        c.associativity 0 with _ | w
    · -- miss
      have hmiss := findHit_none_spec _ _ _ _ hf
      unfold access at h
      simp only [if_neg hev, countAccess_numSets, countAccess_cache, countAccess_associativity,
        countAccess_verbose, countAccess_cacheMisses] at h
      rw [hwf.lookup _ hsi] at h
      simp only [hf] at h
      split at h
      · rename_i hb
        have hc := (Prod.mk.inj (Option.some.inj h)).1.symm
        subst hc
        obtain ⟨v, hv⟩ : ∃ v : Nat, findVictim (c.cache.getD (c.setIndexOf address) [])
            c.associativity 0 (-1) (-1) = (v : Int) := ⟨_, (Int.toNat_of_nonneg hb.1).symm⟩
        have hvl : v < (c.cache.getD (c.setIndexOf address) []).length := by
          have := hb.2; rw [hv] at this; exact_mod_cast this
        simp only [hv, Int.toNat_ofNat]
        refine ⟨hwf.update _ (c.setIndexOf address) _ rfl rfl rfl
          (by rw [missFill_length, hlen]), hnn.update_set _ (c.setIndexOf address) _ rfl ?_⟩
        intro j
        by_cases hj : j = v
        · subst hj
          rw [missFill_wayOf_self _ _ _ _ hvl]
          unfold newLine
          refine ⟨le_refl _, ?_⟩
          simp only []
          split <;> decide
        · rw [missFill_wayOf_other _ _ _ _ _ hj]
          have := hold j
          split
          · exact ⟨by simp only []; omega, this.2⟩
          · exact this
      · exact absurd h (by simp)
    · -- hit
      obtain ⟨_, _, hvalid, htag, hfirst⟩ := findHit_some_spec _ _ _ _ _ hf
      have hwl := valid_lt_length _ _ hvalid
      rw [access_hit_eq c hwf address op hev w hf] at h
      have hc := (Prod.mk.inj (Option.some.inj h)).1.symm
      subst hc
      refine ⟨hwf.update _ (c.setIndexOf address) _ (countAccess_numSets c op)
        (countAccess_associativity c op) rfl (by rw [hitUpdate_length, hlen]),
        hnn.update_set _ (c.setIndexOf address) _ rfl ?_⟩
      intro j
      by_cases hj : j = w
      · subst hj
        rw [hitUpdate_wayOf_self _ _ _ _ _ _ hwl]
        have := hold j
        refine ⟨le_refl _, ?_⟩
        simp only []
        split
        · omega
        · exact this.2
      · rw [hitUpdate_wayOf_other _ _ _ _ _ _ _ hj]
        have := hold j
        split
        · exact ⟨by simp only []; omega, this.2⟩
        · exact this

theorem reset_preserves (c : Cache) (hwf : c.WF) : (reset c).WF ∧ (reset c).NonNeg := by
  refine ⟨⟨hwf.geometry, ?_, ?_⟩, ?_⟩
  · simp only [reset, List.length_map]; exact hwf.sets
  · intro s hs
    simp only [reset, List.mem_map] at hs
    obtain ⟨s0, hs0, rfl⟩ := hs
    rw [List.length_map]; exact hwf.ways s0 hs0
  · intro s hs l hl
    simp only [reset, List.mem_map] at hs
    obtain ⟨s0, _, rfl⟩ := hs
    simp only [List.mem_map] at hl
    obtain ⟨_, _, rfl⟩ := hl
    exact ⟨le_refl _, le_refl _⟩

theorem Reachable.wf_nonNeg {c : Cache} (h : Reachable c) : c.WF ∧ c.NonNeg := by
  induction h with
  | init k assoc verbosity hk => exact ⟨fresh_wf k assoc verbosity hk, fresh_nonNeg _ _ _⟩
  | access c c' address operation out _ hacc ih =>
    exact access_preserves c ih.1 ih.2 address operation c' out hacc
  | evictLine c c' address _ hev ih => exact evictLine_preserves c ih.1 ih.2 address c' hev
  | reset c _ ih => exact reset_preserves c ih.1

theorem access_shape (c : Cache) (hwf : c.WF) (address : Nat) (op : CacheOperation)
    (c' : Cache) (out : List Msg) (h : access c address op = some (c', out)) :
    c'.numSets = c.numSets ∧ c'.associativity = c.associativity ∧ c'.verbose = c.verbose ∧
    ∃ x, c'.cache = c.cache.set (c.setIndexOf address) x := by
  have hsi := hwf.setIndexOf_lt address
  by_cases hev : op = EVICT
  · subst hev
    rw [access_evict_eq, evictLine_eq c hwf address] at h
    have hc := (Prod.mk.inj (Option.some.inj h)).1.symm
    subst hc
    exact ⟨rfl, rfl, rfl, _, rfl⟩
  · rcases hf : findHit (c.cache.getD (c.setIndexOf address) []) (c.tagOf address)
        c.associativity 0 with _ | w
    · unfold access at h
      simp only [if_neg hev, countAccess_numSets, countAccess_cache, countAccess_associativity,
        countAccess_verbose, countAccess_cacheMisses] at h
      rw [hwf.lookup _ hsi] at h
      simp only [hf] at h
      split at h
      · have hc := (Prod.mk.inj (Option.some.inj h)).1.symm
        subst hc
        exact ⟨rfl, rfl, rfl, _, rfl⟩
      · exact absurd h (by simp)
    · rw [access_hit_eq c hwf address op hev w hf] at h
      have hc := (Prod.mk.inj (Option.some.inj h)).1.symm
      subst hc
      exact ⟨countAccess_numSets c op, countAccess_associativity c op,
        countAccess_verbose c op, _, rfl⟩

theorem access_frame (c : Cache) (hwf : c.WF) (address : Nat) (op : CacheOperation)
    (c' : Cache) (out : List Msg) (h : access c address op = some (c', out)) (t w : Nat)
    (ht : c.setIndexOf address ≠ t) : c'.way t w = c.way t w := by
  obtain ⟨_, _, _, x, hx⟩ := access_shape c hwf address op c' out h
  unfold Cache.way
  rw [hx, getD_set_ne _ _ _ _ ht]

theorem access_returns (c : Cache) (hwf : c.WF) (hnn : c.NonNeg) (hassoc : 1 ≤ c.associativity)
    (address : Nat) (op : CacheOperation) : ∃ c' out, access c address op = some (c', out) := by
  have hsi := hwf.setIndexOf_lt address
  by_cases hev : op = EVICT
  · subst hev
    rw [access_evict_eq, evictLine_eq c hwf address]
    exact ⟨_, _, rfl⟩
  · rcases hf : findHit (c.cache.getD (c.setIndexOf address) []) (c.tagOf address)
        c.associativity 0 with _ | w
    · obtain ⟨v, hv, hvictim, _⟩ := exists_victim c hwf hnn hassoc _ hsi
      exact ⟨_, _, access_miss_eq c hwf address op hev v hv hf hvictim⟩
    · exact ⟨_, _, access_hit_eq c hwf address op hev w hf⟩

theorem Filled.congr {c c' : Cache} {s : Nat} {tags : List Nat} (h : Filled c s tags)
    (hw : ∀ w, c'.way s w = c.way s w) : Filled c' s tags := by
  refine ⟨fun w hlt => ?_, fun w hle => ?_⟩
  · rw [hw w]; exact h.1 w hlt
  · rw [hw w]; exact h.2 w hle

theorem Overflowed.congr_ways {c c' : Cache} {s : Nat} {ts : List Nat} (h : Overflowed c s ts)
    (hw : ∀ w, c'.way s w = c.way s w) : Overflowed c' s ts := by
  refine ⟨by rw [hw 0]; exact h.1, by rw [hw 0]; exact h.2.1, fun w h1 h2 => ?_⟩
  rw [hw w]; exact h.2.2 w h1 h2

theorem nodup_getD_ne (ts : List Nat) (hnd : ts.Nodup) (i j : Nat) (hi : i < ts.length)
    (hj : j < ts.length) (hij : i ≠ j) : ts.getD i 0 ≠ ts.getD j 0 := by
  rw [List.getD_eq_getElem _ _ hi, List.getD_eq_getElem _ _ hj]
  intro h
  exact hij (hnd.getElem_inj_iff.1 h)

theorem drop_cons_facts (ts : List Nat) (hnd : ts.Nodup) (k t : Nat) (rest : List Nat)
    (h : t :: rest = ts.drop k) :
    k < ts.length ∧ ts.getD k 0 = t ∧ rest = ts.drop (k + 1) ∧
    ts.take (k + 1) = ts.take k ++ [t] ∧ t ∉ ts.take k := by
  have hk : k < ts.length := by
    by_contra hn
    rw [List.drop_eq_nil_of_le (by omega)] at h
    exact absurd h (by simp)
  rw [List.drop_eq_getElem_cons hk] at h
  have ht : t = ts[k] := (List.cons.inj h).1
  have hr : rest = ts.drop (k + 1) := (List.cons.inj h).2
  refine ⟨hk, by rw [List.getD_eq_getElem _ _ hk, ht], hr, ?_, ?_⟩
  · rw [List.take_succ, List.getElem?_eq_getElem hk, ht]; rfl
  · intro hmem
    have hsplit := List.take_append_drop k ts
    rw [← hsplit] at hnd
    have hdisj := (List.nodup_append.1 hnd).2.2
    apply hdisj hmem
    rw [List.drop_eq_getElem_cons hk, ht]
    exact List.mem_cons_self _ _

theorem getD_take_lt (ts : List Nat) (k w : Nat) (hw : w < k) (hk : k ≤ ts.length) :
    (ts.take k).getD w 0 = ts.getD w 0 := by
  have h1 : w < (ts.take k).length := by rw [List.length_take]; omega
  rw [List.getD_eq_getElem _ _ h1, List.getD_eq_getElem _ _ (by omega), List.getElem_take]

theorem miss_prefix_cons (c0 c c1 : Cache) (s a : Nat) (op : CacheOperation) (out1 : List Msg)
    (rest : List (Nat × CacheOperation)) (hacc : access c a op = some (c1, out1))
    (hhead : c0.setIndexOf a = s →
      c1.cacheMisses = c.cacheMisses + 1 ∧ c1.cacheHits = c.cacheHits)
    (htail : ∀ pre r post, rest = pre ++ r :: post → c0.setIndexOf r.1 = s →
      ∃ cp outp cq outq, accessSeq c1 pre = some (cp, outp) ∧
        access cp r.1 r.2 = some (cq, outq) ∧
        cq.cacheMisses = cp.cacheMisses + 1 ∧ cq.cacheHits = cp.cacheHits) :
    ∀ pre r post, (a, op) :: rest = pre ++ r :: post → c0.setIndexOf r.1 = s →
      ∃ cp outp cq outq, accessSeq c pre = some (cp, outp) ∧
        access cp r.1 r.2 = some (cq, outq) ∧
        cq.cacheMisses = cp.cacheMisses + 1 ∧ cq.cacheHits = cp.cacheHits := by
  intro pre r post hsplit hr
  cases pre with
  | nil =>
    rw [List.nil_append] at hsplit
    have hx : (a, op) = r := (List.cons.inj hsplit).1
    subst hx
    obtain ⟨h1, h2⟩ := hhead hr
    exact ⟨c, [], c1, out1, rfl, hacc, h1, h2⟩
  | cons y pre' =>
    rw [List.cons_append] at hsplit
    have hy : (a, op) = y := (List.cons.inj hsplit).1
    have hrest : rest = pre' ++ r :: post := (List.cons.inj hsplit).2
    subst hy
    obtain ⟨cp, outp, cq, outq, h1, h2, h3, h4⟩ := htail pre' r post hrest hr
    refine ⟨cp, out1 ++ outp, cq, outq, ?_, h2, h3, h4⟩
    rw [accessSeq_cons, hacc]
    simp only [h1]

theorem interleaved_fill (c0 : Cache) (s : Nat) (ts : List Nat) (hnd : ts.Nodup)
    (reqs : List (Nat × CacheOperation)) :
    ∀ (c : Cache) (k : Nat), c.WF → c.NonNeg → c.numSets = c0.numSets →
      1 ≤ c.associativity → ts.length = c.associativity + 1 →
      (reqs.filter (fun r => decide (c0.setIndexOf r.1 = s))).map (fun r => c0.tagOf r.1)
        = ts.drop k →
      (∀ r ∈ reqs, c0.setIndexOf r.1 = s → (r.2 = READ ∨ r.2 = WRITE ∨ r.2 = FETCH)) →
      (k ≤ c.associativity → Filled c s (ts.take k)) →
      (c.associativity < k → Overflowed c s ts) →
      ∃ c' out, accessSeq c reqs = some (c', out) ∧ c'.associativity = c.associativity ∧
        Overflowed c' s ts ∧
        ∀ pre r post, reqs = pre ++ r :: post → c0.setIndexOf r.1 = s →
          ∃ cp outp cq outq, accessSeq c pre = some (cp, outp) ∧
            access cp r.1 r.2 = some (cq, outq) ∧
            cq.cacheMisses = cp.cacheMisses + 1 ∧ cq.cacheHits = cp.cacheHits := by
  induction reqs with
  | nil =>
    intro c k _ _ _ _ hlen hdrop _ _ hO
    simp only [List.filter_nil, List.map_nil] at hdrop
    have hk : ts.length ≤ k := List.drop_eq_nil_iff.1 hdrop.symm
    refine ⟨c, [], rfl, rfl, hO (by omega), ?_⟩
    intro pre r post hsplit
    exact absurd hsplit (by simp)
  | cons x rest ih =>
    intro c k hwf hnn hn hassoc hlen hdrop hops hF hO
    obtain ⟨a, op⟩ := x
    have hsa : c.setIndexOf a = c0.setIndexOf a := c0.setIndexOf_congr c hn a
    have hta : c.tagOf a = c0.tagOf a := c0.tagOf_congr c hn a
    by_cases htgt : c0.setIndexOf a = s
    · -- an access to the set under study
      rw [List.filter_cons_of_pos (by simpa using htgt), List.map_cons] at hdrop
      obtain ⟨hk, hgetk, hrest, htake, hnotin⟩ := drop_cons_facts ts hnd k _ _ hdrop
      have hkA : k ≤ c.associativity := by omega
      have hFk := hF hkA
      have hlk : (ts.take k).length = k := by rw [List.length_take]; omega
      have hop := hops (a, op) (List.mem_cons_self _ _) htgt
      rw [← htgt, ← hsa] at hFk
      rw [← hta] at hnotin htake hgetk
      have hstep : ∃ c1 out1, access c a op = some (c1, out1) ∧
          c1.cacheMisses = c.cacheMisses + 1 ∧ c1.cacheHits = c.cacheHits ∧
          (k + 1 ≤ c.associativity → Filled c1 s (ts.take (k + 1))) ∧
          (c.associativity < k + 1 → Overflowed c1 s ts) := by
        by_cases hlt : k < c.associativity
        · obtain ⟨c1, out1, hacc, _, _, _, hh1, hm1, hF1⟩ :=
            fill_step c hwf a op hop (ts.take k) hFk (by omega) hnotin
          rw [← htake, hsa, htgt] at hF1
          exact ⟨c1, out1, hacc, hm1, hh1, fun _ => hF1, fun h => absurd h (by omega)⟩
        · have hkeq : k = c.associativity := by omega
          obtain ⟨c1, out1, hacc, _, hh1, hm1, hv0, ht0, hways⟩ :=
            evict_oldest_step c hwf a op hop (ts.take k) hFk (by omega) hassoc hnotin
          rw [hsa, htgt] at hv0 ht0 hways
          refine ⟨c1, out1, hacc, hm1, hh1, fun h => absurd h (by omega), fun _ => ?_⟩
          refine ⟨hv0, ?_, ?_⟩
          · rw [ht0, ← hgetk, hlen, hkeq]; simp
          · intro w hw1 hw2
            obtain ⟨h1, h2⟩ := hways w hw1 (by omega)
            exact ⟨h1, by rw [h2, getD_take_lt ts k w (by omega) (by omega)]⟩
      obtain ⟨c1, out1, hacc, hm1, hh1, hF1, hO1⟩ := hstep
      obtain ⟨hwf1, hnn1⟩ := access_preserves c hwf hnn a op c1 out1 hacc
      obtain ⟨hn1, ha1, _, _⟩ := access_shape c hwf a op c1 out1 hacc
      obtain ⟨c2, out2, hseq, ha2, hO2, hpre⟩ :=
        ih c1 (k + 1) hwf1 hnn1 (by rw [hn1, hn]) (by rw [ha1]; exact hassoc)
          (by rw [ha1]; exact hlen) hrest
          (fun r hr => hops r (List.mem_cons_of_mem _ hr))
          (by rw [ha1]; exact hF1) (by rw [ha1]; exact hO1)
      refine ⟨c2, out1 ++ out2, ?_, by rw [ha2, ha1], hO2, ?_⟩
      · rw [accessSeq_cons, hacc]; simp only [hseq]
      · exact miss_prefix_cons c0 c c1 s a op out1 rest hacc (fun _ => ⟨hm1, hh1⟩) hpre
    · -- an access to another set
      rw [List.filter_cons_of_neg (by simpa using htgt)] at hdrop
      obtain ⟨c1, out1, hacc⟩ := access_returns c hwf hnn hassoc a op
      obtain ⟨hwf1, hnn1⟩ := access_preserves c hwf hnn a op c1 out1 hacc
      obtain ⟨hn1, ha1, _, _⟩ := access_shape c hwf a op c1 out1 hacc
      have hframe : ∀ w, c1.way s w = c.way s w := fun w =>
        access_frame c hwf a op c1 out1 hacc s w (by rw [hsa]; exact htgt)
      obtain ⟨c2, out2, hseq, ha2, hO2, hpre⟩ :=
        ih c1 k hwf1 hnn1 (by rw [hn1, hn]) (by rw [ha1]; exact hassoc)
          (by rw [ha1]; exact hlen) hdrop
          (fun r hr => hops r (List.mem_cons_of_mem _ hr))
          (by rw [ha1]; exact fun h => (hF h).congr hframe)
          (by rw [ha1]; exact fun h => (hO h).congr_ways hframe)
      refine ⟨c2, out1 ++ out2, ?_, by rw [ha2, ha1], hO2, ?_⟩
      · rw [accessSeq_cons, hacc]; simp only [hseq]
      · exact miss_prefix_cons c0 c c1 s a op out1 rest hacc (fun h => absurd h htgt) hpre

theorem exists_first (P : Nat → Prop) (n : Nat) (h : ∃ j, j < n ∧ P j) :
    ∃ w, w < n ∧ P w ∧ ∀ j, j < w → ¬ P j := by
  classical
  have hw := Nat.find_spec h
  refine ⟨Nat.find h, hw.1, hw.2, ?_⟩
  intro j hj hP
  exact Nat.find_min h hj ⟨by omega, hP⟩

theorem evictLine_absent (c : Cache) (hwf : c.WF) (address : Nat)
    (habsent : ∀ j, j < c.associativity → ¬ ((c.way (c.setIndexOf address) j).valid = true ∧
      (c.way (c.setIndexOf address) j).tag = c.tagOf address)) :
    evictLine c address = some c := by
  have hscan := evictScan_no_match (c.tagOf address) c.associativity c.associativity 0
    (c.cache.getD (c.setIndexOf address) []) (fun j _ hj => habsent j (by omega))
  have hev := evictLine_eq c hwf address
  rw [hscan, set_getD_self] at hev
  exact hev

theorem evictLine_match_spec (c : Cache) (hwf : c.WF) (address w : Nat)
    (hvalid : (c.way (c.setIndexOf address) w).valid = true)
    (htag : (c.way (c.setIndexOf address) w).tag = c.tagOf address)
    (hfirst : ∀ j, j < w → ¬ ((c.way (c.setIndexOf address) j).valid = true ∧
      (c.way (c.setIndexOf address) j).tag = c.tagOf address))
    (hage : 0 ≤ (c.way (c.setIndexOf address) w).lru) :
    ∃ c', evictLine c address = some c' ∧ c'.associativity = c.associativity ∧
      c'.cacheReads = c.cacheReads ∧ c'.cacheWrites = c.cacheWrites ∧
      c'.cacheHits = c.cacheHits ∧ c'.cacheMisses = c.cacheMisses ∧
      ∀ j, c'.way (c.setIndexOf address) j =
        if j = w then CacheLine.empty
        else if j < c.associativity ∧ (c.way (c.setIndexOf address) j).valid = true ∧
            (c.way (c.setIndexOf address) w).lru < (c.way (c.setIndexOf address) j).lru then
          { c.way (c.setIndexOf address) j with
            lru := (c.way (c.setIndexOf address) j).lru - 1 }
        else c.way (c.setIndexOf address) j := by
  have hsi := hwf.setIndexOf_lt address
  have hlen := hwf.set_length _ hsi
  have hsl : c.setIndexOf address < c.cache.length := by rw [hwf.sets]; exact hsi
  have hwl : w < (c.cache.getD (c.setIndexOf address) []).length := valid_lt_length _ _ hvalid
  have hscan := evictScan_match (c.tagOf address) c.associativity c.associativity 0 w
    (c.cache.getD (c.setIndexOf address) []) (Nat.zero_le _) (by omega) hvalid htag
    (by unfold Cache.way at hage; omega) (fun j _ hj => hfirst j hj)
  have hev := evictLine_eq c hwf address
  rw [hscan] at hev
  refine ⟨_, hev, rfl, rfl, rfl, rfl, rfl, ?_⟩
  intro j
  simp only [Cache.way, getD_set_self _ _ _ hsl]
  rw [evictFill_wayOf _ _ _ _ hwl]

theorem Written.of_ways {c c1 : Cache} {s v t : Nat} {k : Int} (hw : Written c s v t k)
    (hv : (c1.way s v).valid = (c.way s v).valid ∧ (c1.way s v).tag = (c.way s v).tag ∧
      (c1.way s v).writeCount = (c.way s v).writeCount ∧
      (c1.way s v).dirty = (c.way s v).dirty)
    (hothers : ∀ j, j ≠ v → (c1.way s j).valid = true → (c1.way s j).tag = t →
      (c.way s j).valid = true ∧ (c.way s j).tag = t) : Written c1 s v t k := by
  obtain ⟨h1, h2, h3, h4, h5⟩ := hw
  refine ⟨by rw [hv.1]; exact h1, by rw [hv.2.1]; exact h2, by rw [hv.2.2.1]; exact h3,
    by rw [hv.2.2.2]; exact h4, ?_⟩
  intro j hj hm
  exact h5 j hj (hothers j hj hm.1 hm.2)

theorem written_step (c : Cache) (hwf : c.WF) (hnn : c.NonNeg) (hassoc : 1 ≤ c.associativity)
    (s v t : Nat) (k : Int) (hk : 0 ≤ k) (hw : Written c s v t k)
    (a : Nat) (op : CacheOperation) (c1 : Cache) (out1 : List Msg)
    (hacc : access c a op = some (c1, out1)) (hres : c1.resident s t) :
    Written c1 s v t (if op = WRITE ∧ c.setIndexOf a = s ∧ c.tagOf a = t then k + 1 else k) ∧
    (op = WRITE → c.setIndexOf a = s → c.tagOf a = t →
      out1 = if 2 ≤ k then communicateWithL2 c.verbose "Write to L2" a else []) := by
  have hsi := hwf.setIndexOf_lt a
  by_cases hs : c.setIndexOf a = s
  swap
  · -- another set: set `s` is untouched
    have hframe : ∀ w, c1.way s w = c.way s w := fun w =>
      access_frame c hwf a op c1 out1 hacc s w hs
    rw [if_neg (fun h => hs h.2.1)]
    exact ⟨hw.of_ways ⟨by rw [hframe], by rw [hframe], by rw [hframe], by rw [hframe]⟩
      (fun j _ h1 h2 => by rw [hframe] at h1 h2; exact ⟨h1, h2⟩), fun _ h => absurd h hs⟩
  subst hs
  obtain ⟨hvalid, htag, hwc, hdirty, huniq⟩ := hw
  have hvA : v < c.associativity := by
    have := valid_lt_length _ _ hvalid
    rwa [hwf.set_length _ hsi] at this
  by_cases hev : op = EVICT
  · subst hev
    rw [access_evict_eq] at hacc
    rw [if_neg (fun h => absurd h.1 (by decide))]
    refine ⟨?_, fun h => absurd h (by decide)⟩
    by_cases ht : c.tagOf a = t
    · -- the line itself would be evicted
      exfalso
      obtain ⟨c', hev', _, _, _, _, _, hways⟩ :=
        evictLine_match_spec c hwf a v hvalid (htag.trans ht.symm)
          (fun j hj hm => huniq j (by omega) ⟨hm.1, hm.2.trans ht⟩)
          (hnn.way hwf _ v hsi hvA).1
      rw [hev'] at hacc
      have hc : c' = c1 := (Prod.mk.inj (Option.some.inj hacc)).1
      subst hc
      obtain ⟨j, _, hjv, hjt⟩ := hres
      rw [hways j] at hjv hjt
      by_cases hj : j = v
      · rw [if_pos hj] at hjv; exact absurd hjv (by decide)
      · rw [if_neg hj] at hjv hjt
        apply huniq j hj
        have h12 := And.intro hjv hjt
        split at h12 <;> exact h12
    · by_cases hm : ∃ j, j < c.associativity ∧
          ((c.way (c.setIndexOf a) j).valid = true ∧ (c.way (c.setIndexOf a) j).tag = c.tagOf a)
      · obtain ⟨w, hwA, hwm, hwfirst⟩ := exists_first _ _ hm
        have hwv : v ≠ w := by
          intro h; subst h; exact ht (hwm.2.symm.trans htag)
        obtain ⟨c', hev', _, _, _, _, _, hways⟩ :=
          evictLine_match_spec c hwf a w hwm.1 hwm.2 hwfirst (hnn.way hwf _ w hsi hwA).1
        rw [hev'] at hacc
        have hc : c' = c1 := (Prod.mk.inj (Option.some.inj hacc)).1
        subst hc
        refine Written.of_ways ⟨hvalid, htag, hwc, hdirty, huniq⟩ ?_ ?_
        · rw [hways v, if_neg hwv]
          split <;> exact ⟨rfl, rfl, rfl, rfl⟩
        · intro j _ h1 h2
          rw [hways j] at h1 h2
          by_cases hj : j = w
          · rw [if_pos hj] at h1; exact absurd h1 (by decide)
          · rw [if_neg hj] at h1 h2
            have h12 := And.intro h1 h2
            split at h12 <;> exact h12
      · have hev' := evictLine_absent c hwf a (fun j hj hmj => hm ⟨j, hj, hmj⟩)
        rw [hev'] at hacc
        have hc : c = c1 := (Prod.mk.inj (Option.some.inj hacc)).1
        subst hc
        exact ⟨hvalid, htag, hwc, hdirty, huniq⟩
  · by_cases ht : c.tagOf a = t
    · -- a hit on the line itself
      obtain ⟨c', hacc', _, _, _, _, _, _, hself, hother⟩ :=
        access_hit_spec c hwf a op hev v hvalid (htag.trans ht.symm)
          (fun j hj hm => huniq j (by omega) ⟨hm.1, hm.2.trans ht⟩)
      rw [hacc'] at hacc
      have hc : c' = c1 := (Prod.mk.inj (Option.some.inj hacc)).1
      have ho := (Prod.mk.inj (Option.some.inj hacc)).2
      subst hc
      have huniq' : ∀ j, j ≠ v → ¬ ((c'.way (c.setIndexOf a) j).valid = true ∧
          (c'.way (c.setIndexOf a) j).tag = t) := by
        intro j hj hm
        rw [hother j hj] at hm
        apply huniq j hj
        split at hm
        · exact hm
        · exact hm
      by_cases hopw : op = WRITE
      · subst hopw
        rw [if_pos ⟨rfl, rfl, ht⟩]
        refine ⟨⟨by rw [hself]; exact hvalid, by rw [hself]; exact htag,
          by rw [hself]; simp [hwc], ?_, huniq'⟩, fun _ _ _ => ?_⟩
        · rw [hself]
          simp only [hwc, hdirty, true_and]
          by_cases h2 : k + 1 = 2
          · rw [if_pos h2]; simp; omega
          · rw [if_neg h2]
            have : (2 ≤ k) ↔ (2 ≤ k + 1) := by constructor <;> intro h <;> omega
            simp [this]
        · rw [← ho, hwc]
          by_cases h2 : 2 ≤ k
          · rw [if_pos h2, if_pos ⟨rfl, by omega, by omega⟩]
          · rw [if_neg h2, if_neg]
            rintro ⟨_, h3, h4⟩
            omega
      · rw [if_neg (fun h => hopw h.1)]
        refine ⟨⟨by rw [hself]; exact hvalid, by rw [hself]; exact htag,
          by rw [hself]; simp [hopw, hwc], by rw [hself]; simp [hopw, hdirty], huniq'⟩,
          fun h => absurd h hopw⟩
    · rw [if_neg (fun h => ht h.2.2)]
      refine ⟨?_, fun _ _ h => absurd h ht⟩
      by_cases hm : ∃ j, j < c.associativity ∧
          ((c.way (c.setIndexOf a) j).valid = true ∧ (c.way (c.setIndexOf a) j).tag = c.tagOf a)
      · -- a hit on another line of the set
        obtain ⟨w, hwA, hwm, hwfirst⟩ := exists_first _ _ hm
        have hwv : v ≠ w := by
          intro h; subst h; exact ht (hwm.2.symm.trans htag)
        obtain ⟨c', hacc', _, _, _, _, _, _, hself, hother⟩ :=
          access_hit_spec c hwf a op hev w hwm.1 hwm.2 hwfirst
        rw [hacc'] at hacc
        have hc : c' = c1 := (Prod.mk.inj (Option.some.inj hacc)).1
        subst hc
        refine Written.of_ways ⟨hvalid, htag, hwc, hdirty, huniq⟩ ?_ ?_
        · rw [hother v hwv]
          split <;> exact ⟨rfl, rfl, rfl, rfl⟩
        · intro j _ h1 h2
          by_cases hj : j = w
          · subst hj
            rw [hself] at h2
            exact absurd (hwm.2.symm.trans h2) ht
          · rw [hother j hj] at h1 h2
            have h12 := And.intro h1 h2
            split at h12 <;> exact h12
      · -- a miss in the set
        obtain ⟨u, hu, hvictim, _⟩ := exists_victim c hwf hnn hassoc _ hsi
        obtain ⟨c', hacc', _, _, _, _, _, _, hself, hother⟩ :=
          access_miss_spec c hwf a op hev u hu (fun j hj hmj => hm ⟨j, hj, hmj⟩) hvictim
        rw [hacc'] at hacc
        have hc : c' = c1 := (Prod.mk.inj (Option.some.inj hacc)).1
        subst hc
        have hkeep : ∀ j, j ≠ u → (c'.way (c.setIndexOf a) j).valid = true →
            (c'.way (c.setIndexOf a) j).tag = t →
            (c.way (c.setIndexOf a) j).valid = true ∧ (c.way (c.setIndexOf a) j).tag = t := by
          intro j hj h1 h2
          rw [hother j hj] at h1 h2
          have h12 := And.intro h1 h2
          split at h12 <;> exact h12
        have huv : v ≠ u := by
          intro h
          subst h
          obtain ⟨j, _, hjv, hjt⟩ := hres
          by_cases hj : j = v
          · subst hj
            rw [hself] at hjt
            exact ht hjt
          · exact huniq j hj (hkeep j hj hjv hjt)
        refine Written.of_ways ⟨hvalid, htag, hwc, hdirty, huniq⟩ ?_ ?_
        · rw [hother v huv]
          split <;> exact ⟨rfl, rfl, rfl, rfl⟩
        · intro j _ h1 h2
          by_cases hj : j = u
          · subst hj
            rw [hself] at h2
            exact absurd h2 ht
          · exact hkeep j hj h1 h2

theorem writesTo_cons (c : Cache) (s t a : Nat) (op : CacheOperation)
    (rest : List (Nat × CacheOperation)) :
    writesTo c s t ((a, op) :: rest) =
      (if op = WRITE ∧ c.setIndexOf a = s ∧ c.tagOf a = t then 1 else 0) + writesTo c s t rest := by
  unfold writesTo
  by_cases h : op = WRITE ∧ c.setIndexOf a = s ∧ c.tagOf a = t
  · rw [List.filter_cons_of_pos (by simpa using h), if_pos h, List.length_cons]; omega
  · rw [List.filter_cons_of_neg (by simpa using h), if_neg h]; omega

theorem written_phase (c0 : Cache) (s v t : Nat) (reqs : List (Nat × CacheOperation)) :
    ∀ (c : Cache) (k : Int), 0 ≤ k → c.WF → c.NonNeg → 1 ≤ c.associativity →
      c.numSets = c0.numSets → c.verbose = c0.verbose → Written c s v t k →
      (∀ pre post, reqs = pre ++ post → ∀ cp outp, accessSeq c pre = some (cp, outp) →
        cp.resident s t) →
      ∃ c' out, accessSeq c reqs = some (c', out) ∧
        Written c' s v t (k + (writesTo c0 s t reqs : Int)) ∧
        ∀ pre r post, reqs = pre ++ r :: post → r.2 = WRITE → c0.setIndexOf r.1 = s →
          c0.tagOf r.1 = t →
          ∃ cp outp cq outq, accessSeq c pre = some (cp, outp) ∧
            access cp r.1 r.2 = some (cq, outq) ∧
            outq = if 2 ≤ k + (writesTo c0 s t pre : Int) then
                communicateWithL2 c0.verbose "Write to L2" r.1
              else [] := by
  induction reqs with
  | nil =>
    intro c k _ _ _ _ _ _ hw _
    refine ⟨c, [], rfl, by simpa [writesTo] using hw, ?_⟩
    intro pre r post hsplit
    exact absurd hsplit (by simp)
  | cons x rest ih =>
    intro c k hk hwf hnn hassoc hn hvb hw hstay
    obtain ⟨a, op⟩ := x
    have hsa : c.setIndexOf a = c0.setIndexOf a := c0.setIndexOf_congr c hn a
    have hta : c.tagOf a = c0.tagOf a := c0.tagOf_congr c hn a
    obtain ⟨c1, out1, hacc⟩ := access_returns c hwf hnn hassoc a op
    have hres1 : c1.resident s t := by
      apply hstay [(a, op)] rest rfl c1 (out1 ++ [])
      rw [accessSeq_cons, hacc]; rfl
    obtain ⟨hw1, hout1⟩ := written_step c hwf hnn hassoc s v t k hk hw a op c1 out1 hacc hres1
    rw [hsa, hta] at hw1 hout1
    obtain ⟨hwf1, hnn1⟩ := access_preserves c hwf hnn a op c1 out1 hacc
    obtain ⟨hn1, ha1, hvb1, _⟩ := access_shape c hwf a op c1 out1 hacc
    have hkeq : ∀ l : List (Nat × CacheOperation),
        (if op = WRITE ∧ c0.setIndexOf a = s ∧ c0.tagOf a = t then k + 1 else k) +
          (writesTo c0 s t l : Int) = k + (writesTo c0 s t ((a, op) :: l) : Int) := by
      intro l
      rw [writesTo_cons]
      split <;> (push_cast; ring)
    obtain ⟨c2, out2, hseq, hw2, hpre⟩ :=
      ih c1 _ (by split <;> omega) hwf1 hnn1 (by rw [ha1]; exact hassoc) (by rw [hn1, hn])
        (by rw [hvb1, hvb]) hw1
        (by
          intro pre post hsplit cp outp hcp
          apply hstay ((a, op) :: pre) post (by rw [hsplit]; rfl) cp (out1 ++ outp)
          rw [accessSeq_cons, hacc]
          simp only [hcp])
    rw [hkeq] at hw2
    refine ⟨c2, out1 ++ out2, ?_, hw2, ?_⟩
    · rw [accessSeq_cons, hacc]; simp only [hseq]
    · intro pre r post hsplit hrw hrs hrt
      cases pre with
      | nil =>
        rw [List.nil_append] at hsplit
        have hx : (a, op) = r := (List.cons.inj hsplit).1
        subst hx
        refine ⟨c, [], c1, out1, rfl, hacc, ?_⟩
        rw [hout1 hrw hrs hrt, hvb]
        simp [writesTo]
      | cons y pre' =>
        rw [List.cons_append] at hsplit
        have hy : (a, op) = y := (List.cons.inj hsplit).1
        have hrest : rest = pre' ++ r :: post := (List.cons.inj hsplit).2
        subst hy
        obtain ⟨cp, outp, cq, outq, h1, h2, h3⟩ := hpre pre' r post hrest hrw hrs hrt
        rw [hkeq] at h3
        refine ⟨cp, out1 ++ outp, cq, outq, ?_, h2, h3⟩
        rw [accessSeq_cons, hacc]
        simp only [h1]

/-! ## Auxiliary lemmas: the recency order of a set -/

theorem Recency.way_nodup {set : List CacheLine} {A : Nat} {ws : List Nat}
    (h : Recency set A ws) : ws.Nodup :=
  List.Pairwise.imp (fun {a b} hab heq => by rw [heq] at hab; exact lt_irrefl _ hab) h.ages

theorem Recency.tag_inj {set : List CacheLine} {A : Nat} {ws : List Nat}
    (h : Recency set A ws) (a b : Nat) (ha : a ∈ ws) (hb : b ∈ ws)
    (hab : (wayOf set a).tag = (wayOf set b).tag) : a = b :=
  List.inj_on_of_nodup_map h.tags ha hb hab

theorem Recency.lru_inj {set : List CacheLine} {A : Nat} {ws : List Nat}
    (h : Recency set A ws) (a b : Nat) (ha : a ∈ ws) (hb : b ∈ ws)
    (hab : (wayOf set a).lru = (wayOf set b).lru) : a = b := by
  have hp : (ws.map (fun w => (wayOf set w).lru)).Pairwise (· < ·) := List.pairwise_map.2 h.ages
  have hn : (ws.map (fun w => (wayOf set w).lru)).Nodup :=
    List.Pairwise.imp (fun {x y} hxy => ne_of_lt hxy) hp
  exact List.inj_on_of_nodup_map hn ha hb hab

theorem Recency.length_le {set : List CacheLine} {A : Nat} {ws : List Nat}
    (h : Recency set A ws) : ws.length ≤ A := by
  have hsub : ws ⊆ List.range A := fun w hw => List.mem_range.2 ((h.mem w).1 hw).1
  have := (h.way_nodup.subperm hsub).length_le
  rwa [List.length_range] at this

theorem Recency.length_lt_of_invalid {set : List CacheLine} {A : Nat} {ws : List Nat}
    (h : Recency set A ws) (v : Nat) (hv : v < A) (hinv : (wayOf set v).valid = false) :
    ws.length < A := by
  have hsub : ws ⊆ (List.range A).erase v := by
    intro w hw
    have hwA := ((h.mem w).1 hw)
    have hne : w ≠ v := by
      intro heq; rw [heq, hinv] at hwA; exact absurd hwA.2 (by decide)
    exact (List.mem_erase_of_ne hne).2 (List.mem_range.2 hwA.1)
  have h1 := (h.way_nodup.subperm hsub).length_le
  rw [List.length_erase_of_mem (List.mem_range.2 hv), List.length_range] at h1
  omega

theorem Recency.length_eq_of_full {set : List CacheLine} {A : Nat} {ws : List Nat}
    (h : Recency set A ws) (hall : ∀ w, w < A → (wayOf set w).valid = true) :
    ws.length = A := by
  have hsub : List.range A ⊆ ws := fun w hw =>
    (h.mem w).2 ⟨List.mem_range.1 hw, hall w (List.mem_range.1 hw)⟩
  have h1 := ((List.nodup_range A).subperm hsub).length_le
  rw [List.length_range] at h1
  have h2 := h.length_le
  omega

theorem Recency.mem_tags {set : List CacheLine} {A : Nat} {ws : List Nat}
    (h : Recency set A ws) (t : Nat) :
    t ∈ tagsOf set ws ↔ ∃ w, w < A ∧ (wayOf set w).valid = true ∧ (wayOf set w).tag = t := by
  unfold tagsOf
  rw [List.mem_map]
  constructor
  · rintro ⟨w, hw, rfl⟩
    exact ⟨w, ((h.mem w).1 hw).1, ((h.mem w).1 hw).2, rfl⟩
  · rintro ⟨w, hwA, hv, ht⟩
    exact ⟨w, (h.mem w).2 ⟨hwA, hv⟩, ht⟩

theorem Recency.tags_erase {set : List CacheLine} {A : Nat} {ws : List Nat}
    (h : Recency set A ws) (w : Nat) (hw : w ∈ ws) :
    (tagsOf set ws).erase (wayOf set w).tag = tagsOf set (ws.filter (fun u => u != w)) := by
  rw [h.tags.erase_eq_filter]
  unfold tagsOf
  rw [List.filter_map]
  congr 1
  apply List.filter_congr
  intro u hu
  by_cases huw : u = w
  · subst huw; simp
  · have ht : (wayOf set u).tag ≠ (wayOf set w).tag := fun heq => huw (h.tag_inj u w hu hw heq)
    have e1 : ((wayOf set u).tag != (wayOf set w).tag) = true := bne_iff_ne.2 ht
    have e2 : (u != w) = true := bne_iff_ne.2 huw
    show ((wayOf set u).tag != (wayOf set w).tag) = (u != w)
    rw [e1, e2]

theorem Recency.last_oldest {set : List CacheLine} {A : Nat} {ws : List Nat}
    (h : Recency set A ws) (hne : ws ≠ []) (w : Nat) (hw : w ∈ ws) :
    (wayOf set w).lru ≤ (wayOf set (ws.getLast hne)).lru := by
  have hsplit := List.dropLast_append_getLast hne
  have hp := h.ages
  rw [← hsplit] at hp hw
  rcases List.mem_append.1 hw with hm | hm
  · exact le_of_lt ((List.pairwise_append.1 hp).2.2 w hm _ (List.mem_singleton_self _))
  · rw [List.mem_singleton.1 hm]

theorem recency_front (set set' : List CacheLine) (A : Nat) (ws rest : List Nat) (v t : Nat)
    (h : Recency set A ws) (hsub : rest.Sublist ws) (hv : v < A)
    (hnew : (wayOf set' v).valid = true ∧ (wayOf set' v).tag = t ∧ (wayOf set' v).lru = 0)
    (hold : ∀ w ∈ rest, (wayOf set' w).valid = true ∧
      (wayOf set' w).tag = (wayOf set w).tag ∧ (wayOf set' w).lru = (wayOf set w).lru + 1)
    (hnn : ∀ w ∈ rest, 0 ≤ (wayOf set w).lru)
    (hmem : ∀ w, w < A → (wayOf set' w).valid = true → w = v ∨ w ∈ rest)
    (ht : t ∉ tagsOf set rest) :
    Recency set' A (v :: rest) ∧ tagsOf set' (v :: rest) = t :: tagsOf set rest := by
  have htags : tagsOf set' rest = tagsOf set rest := by
    unfold tagsOf
    exact List.map_congr_left (fun w hw => (hold w hw).2.1)
  have htags' : tagsOf set' (v :: rest) = t :: tagsOf set rest := by
    rw [← htags]; unfold tagsOf; rw [List.map_cons, hnew.2.1]
  refine ⟨⟨?_, ?_, ?_⟩, htags'⟩
  · intro w
    constructor
    · intro hw
      rcases List.mem_cons.1 hw with heq | hin
      · rw [heq]; exact ⟨hv, hnew.1⟩
      · exact ⟨((h.mem w).1 (hsub.subset hin)).1, (hold w hin).1⟩
    · rintro ⟨hwA, hval⟩
      rcases hmem w hwA hval with heq | hin
      · rw [heq]; exact List.mem_cons_self _ _
      · exact List.mem_cons_of_mem _ hin
  · rw [List.pairwise_cons]
    refine ⟨?_, ?_⟩
    · intro a ha
      rw [hnew.2.2, (hold a ha).2.2]
      have := hnn a ha
      omega
    · refine List.Pairwise.imp_of_mem ?_ (h.ages.sublist hsub)
      intro a b ha hb hab
      rw [(hold a ha).2.2, (hold b hb).2.2]
      omega
  · rw [htags']
    exact List.nodup_cons.2 ⟨ht, h.tags.sublist (hsub.map _)⟩

theorem recency_evict (set set' : List CacheLine) (A : Nat) (ws : List Nat) (w : Nat)
    (h : Recency set A ws) (hw : w ∈ ws) (hgone : (wayOf set' w).valid = false)
    (hold : ∀ u ∈ ws, u ≠ w → (wayOf set' u).valid = true ∧
      (wayOf set' u).tag = (wayOf set u).tag ∧
      (wayOf set' u).lru =
        if (wayOf set w).lru < (wayOf set u).lru then (wayOf set u).lru - 1
        else (wayOf set u).lru)
    (hmem : ∀ u, u < A → (wayOf set' u).valid = true → (wayOf set u).valid = true) :
    Recency set' A (ws.filter (fun u => u != w)) ∧
      tagsOf set' (ws.filter (fun u => u != w)) = (tagsOf set ws).erase (wayOf set w).tag := by
  have hfm : ∀ u, u ∈ ws.filter (fun u => u != w) ↔ u ∈ ws ∧ u ≠ w := by
    intro u; rw [List.mem_filter]; simp
  have htags : tagsOf set' (ws.filter (fun u => u != w)) =
      tagsOf set (ws.filter (fun u => u != w)) := by
    unfold tagsOf
    exact List.map_congr_left (fun u hu => (hold u ((hfm u).1 hu).1 ((hfm u).1 hu).2).2.1)
  refine ⟨⟨?_, ?_, ?_⟩, by rw [htags, h.tags_erase w hw]⟩
  · intro u
    rw [hfm]
    constructor
    · rintro ⟨hu, hne⟩
      exact ⟨((h.mem u).1 hu).1, (hold u hu hne).1⟩
    · rintro ⟨huA, hval⟩
      refine ⟨(h.mem u).2 ⟨huA, hmem u huA hval⟩, ?_⟩
      intro heq; rw [heq, hgone] at hval; exact absurd hval (by decide)
  · refine List.Pairwise.imp_of_mem ?_ (h.ages.filter _)
    intro a b ha hb hab
    obtain ⟨ha1, ha2⟩ := (hfm a).1 ha
    obtain ⟨hb1, hb2⟩ := (hfm b).1 hb
    rw [(hold a ha1 ha2).2.2, (hold b hb1 hb2).2.2]
    have hae : (wayOf set a).lru ≠ (wayOf set w).lru := fun heq => ha2 (h.lru_inj a w ha1 hw heq)
    have hbe : (wayOf set b).lru ≠ (wayOf set w).lru := fun heq => hb2 (h.lru_inj b w hb1 hw heq)
    split <;> split <;> omega
  · rw [htags, ← h.tags_erase w hw]
    exact h.tags.sublist (List.erase_sublist _ _)

theorem getLast_not_mem_dropLast (ws : List Nat) (hn : ws.Nodup) (hne : ws ≠ []) :
    ws.getLast hne ∉ ws.dropLast := by
  intro hmem
  have hsplit := List.dropLast_append_getLast hne
  rw [← hsplit] at hn
  exact (List.nodup_append.1 hn).2.2 hmem (List.mem_singleton_self _)

theorem mem_dropLast_of_ne_getLast (ws : List Nat) (hne : ws ≠ []) (u : Nat) (hu : u ∈ ws)
    (hul : u ≠ ws.getLast hne) : u ∈ ws.dropLast := by
  have hsplit := List.dropLast_append_getLast hne
  rw [← hsplit] at hu
  rcases List.mem_append.1 hu with h | h
  · exact h
  · exact absurd (List.mem_singleton.1 h) hul

theorem recency_hit (verbose : Bool) (A address : Nat) (op : CacheOperation)
    (set : List CacheLine) (ws : List Nat) (w : Nat) (h : Recency set A ws)
    (hnn : ∀ j, 0 ≤ (wayOf set j).lru) (hwA : w < A)
    (hvalid : (wayOf set w).valid = true) :
    Recency (hitUpdate verbose A address op w set).1 A (w :: ws.filter (fun u => u != w)) ∧
    tagsOf (hitUpdate verbose A address op w set).1 (w :: ws.filter (fun u => u != w)) =
      (refAccess A (tagsOf set ws) (wayOf set w).tag).2 ∧
    (refAccess A (tagsOf set ws) (wayOf set w).tag).1 = true := by
  have hwl := valid_lt_length _ _ hvalid
  have hw : w ∈ ws := (h.mem w).2 ⟨hwA, hvalid⟩
  have hfm : ∀ u, u ∈ ws.filter (fun u => u != w) ↔ u ∈ ws ∧ u ≠ w := by
    intro u; rw [List.mem_filter]; simp
  have htin : (wayOf set w).tag ∈ tagsOf set ws := (h.mem_tags _).2 ⟨w, hwA, hvalid, rfl⟩
  have href : refAccess A (tagsOf set ws) (wayOf set w).tag =
      (true, (wayOf set w).tag :: (tagsOf set ws).erase (wayOf set w).tag) := by
    unfold refAccess; rw [if_pos htin]
  obtain ⟨h1, h2⟩ := recency_front set (hitUpdate verbose A address op w set).1 A ws
    (ws.filter (fun u => u != w)) w (wayOf set w).tag h (List.filter_sublist _) hwA
    (by rw [hitUpdate_wayOf_self _ _ _ _ _ _ hwl]; exact ⟨hvalid, rfl, rfl⟩)
    (by
      intro u hu
      obtain ⟨hu1, hu2⟩ := (hfm u).1 hu
      rw [hitUpdate_wayOf_other _ _ _ _ _ _ _ hu2, if_pos ((h.mem u).1 hu1)]
      exact ⟨((h.mem u).1 hu1).2, rfl, rfl⟩)
    (fun u _ => hnn u)
    (by
      intro u huA hval
      by_cases huw : u = w
      · exact Or.inl huw
      · right
        rw [hitUpdate_wayOf_other _ _ _ _ _ _ _ huw] at hval
        refine (hfm u).2 ⟨(h.mem u).2 ⟨huA, ?_⟩, huw⟩
        split at hval
        · exact hval
        · exact hval)
    (by
      rw [← h.tags_erase w hw]
      intro hmem
      exact ((h.tags.mem_erase_iff).1 hmem).1 rfl)
  refine ⟨h1, ?_, by rw [href]⟩
  rw [h2, href, h.tags_erase w hw]

theorem recency_miss (A : Nat) (op : CacheOperation) (set : List CacheLine) (ws : List Nat)
    (v t : Nat) (h : Recency set A ws) (hlen : set.length = A)
    (hnn : ∀ j, 0 ≤ (wayOf set j).lru) (hvA : v < A)
    (hmiss : ∀ j, j < A → ¬ ((wayOf set j).valid = true ∧ (wayOf set j).tag = t))
    (hvic : ((wayOf set v).valid = false ∧ ∀ j, j < v → (wayOf set j).valid = true) ∨
      ((∀ j, j < A → (wayOf set j).valid = true) ∧
        (∀ j, j < A → (wayOf set j).lru ≤ (wayOf set v).lru) ∧
        ∀ j, j < v → (wayOf set j).lru < (wayOf set v).lru)) :
    ∃ ws', Recency (bumpOthers v A 0 (set.set v (newLine t op))) A ws' ∧
      tagsOf (bumpOthers v A 0 (set.set v (newLine t op))) ws' =
        (refAccess A (tagsOf set ws) t).2 ∧
      (refAccess A (tagsOf set ws) t).1 = false := by
  have hvl : v < set.length := by rw [hlen]; exact hvA
  have htnot : t ∉ tagsOf set ws := by
    intro hmem
    obtain ⟨w, hwA, hv, ht⟩ := (h.mem_tags t).1 hmem
    exact hmiss w hwA ⟨hv, ht⟩
  have hnew : (wayOf (bumpOthers v A 0 (set.set v (newLine t op))) v).valid = true ∧
      (wayOf (bumpOthers v A 0 (set.set v (newLine t op))) v).tag = t ∧
      (wayOf (bumpOthers v A 0 (set.set v (newLine t op))) v).lru = 0 := by
    rw [missFill_wayOf_self _ _ _ _ hvl]; exact ⟨rfl, rfl, rfl⟩
  have hkeep : ∀ u, u ≠ v → (wayOf (bumpOthers v A 0 (set.set v (newLine t op))) u).valid = true →
      (wayOf set u).valid = true := by
    intro u hu hval
    rw [missFill_wayOf_other _ _ _ _ _ hu] at hval
    split at hval
    · exact hval
    · exact hval
  rcases hvic with ⟨hinv, _⟩ | ⟨hall, hmax, _⟩
  · -- a free way is filled
    have hlt := h.length_lt_of_invalid v hvA hinv
    have href : refAccess A (tagsOf set ws) t = (false, t :: tagsOf set ws) := by
      unfold refAccess
      rw [if_neg htnot, if_pos (by unfold tagsOf; rw [List.length_map]; exact hlt)]
    obtain ⟨h1, h2⟩ := recency_front set _ A ws ws v t h (List.Sublist.refl _) hvA hnew
      (by
        intro u hu
        have huv : u ≠ v := by
          intro heq; rw [heq] at hu
          have := ((h.mem v).1 hu).2
          rw [hinv] at this; exact absurd this (by decide)
        rw [missFill_wayOf_other _ _ _ _ _ huv, if_pos ((h.mem u).1 hu)]
        exact ⟨((h.mem u).1 hu).2, rfl, rfl⟩)
      (fun u _ => hnn u)
      (by
        intro u huA hval
        by_cases huv : u = v
        · exact Or.inl huv
        · exact Or.inr ((h.mem u).2 ⟨huA, hkeep u huv hval⟩))
      htnot
    exact ⟨_, h1, by rw [h2, href], by rw [href]⟩
  · -- the oldest line is replaced
    have hfull := h.length_eq_of_full hall
    have hne : ws ≠ [] := by
      intro he; rw [he] at hfull; simp at hfull; omega
    have hvw : v ∈ ws := (h.mem v).2 ⟨hvA, hall v hvA⟩
    have hlast : ws.getLast hne = v := by
      apply h.lru_inj _ _ (List.getLast_mem hne) hvw
      have h1 := h.last_oldest hne v hvw
      have h2 := hmax _ ((h.mem _).1 (List.getLast_mem hne)).1
      omega
    have href : refAccess A (tagsOf set ws) t = (false, t :: tagsOf set ws.dropLast) := by
      unfold refAccess
      rw [if_neg htnot, if_neg (by unfold tagsOf; rw [List.length_map]; omega)]
      have hne' : tagsOf set ws ≠ [] := by
        unfold tagsOf; intro he; exact hne (List.map_eq_nil_iff.1 he)
      rw [List.dropLast_cons_of_ne_nil hne']
      unfold tagsOf
      rw [List.map_dropLast]
    have hnotin : v ∉ ws.dropLast := by
      rw [← hlast]; exact getLast_not_mem_dropLast ws h.way_nodup hne
    obtain ⟨h1, h2⟩ := recency_front set _ A ws ws.dropLast v t h (List.dropLast_sublist _)
      hvA hnew
      (by
        intro u hu
        have huw := List.dropLast_subset _ hu
        have huv : u ≠ v := fun heq => hnotin (heq ▸ hu)
        rw [missFill_wayOf_other _ _ _ _ _ huv, if_pos ((h.mem u).1 huw)]
        exact ⟨((h.mem u).1 huw).2, rfl, rfl⟩)
      (fun u _ => hnn u)
      (by
        intro u huA hval
        by_cases huv : u = v
        · exact Or.inl huv
        · right
          have huw : u ∈ ws := (h.mem u).2 ⟨huA, hall u huA⟩
          exact mem_dropLast_of_ne_getLast ws hne u huw (by rw [hlast]; exact huv))
      (by
        intro hmem
        apply htnot
        unfold tagsOf at hmem ⊢
        exact (List.Sublist.map _ (List.dropLast_sublist ws)).subset hmem)
    exact ⟨_, h1, by rw [h2, href], by rw [href]⟩

theorem recency_evict_match (A : Nat) (set : List CacheLine) (ws : List Nat) (w : Nat)
    (h : Recency set A ws) (hwA : w < A) (hvalid : (wayOf set w).valid = true) :
    Recency (evictAdjust (wayOf set w).lru A 0 (set.set w CacheLine.empty)) A
      (ws.filter (fun u => u != w)) ∧
    tagsOf (evictAdjust (wayOf set w).lru A 0 (set.set w CacheLine.empty))
      (ws.filter (fun u => u != w)) = refEvict (tagsOf set ws) (wayOf set w).tag := by
  have hwl := valid_lt_length _ _ hvalid
  have hw : w ∈ ws := (h.mem w).2 ⟨hwA, hvalid⟩
  unfold refEvict
  refine recency_evict set _ A ws w h hw ?_ ?_ ?_
  · rw [evictFill_wayOf _ _ _ _ hwl, if_pos rfl]; rfl
  · intro u hu huw
    rw [evictFill_wayOf _ _ _ _ hwl, if_neg huw]
    have hum := (h.mem u).1 hu
    by_cases hlt : (wayOf set w).lru < (wayOf set u).lru
    · rw [if_pos ⟨hum.1, hum.2, hlt⟩, if_pos hlt]
      exact ⟨hum.2, rfl, rfl⟩
    · rw [if_neg (fun hc => hlt hc.2.2), if_neg hlt]
      exact ⟨hum.2, rfl, rfl⟩
  · intro u _ hval
    rw [evictFill_wayOf _ _ _ _ hwl] at hval
    by_cases huw : u = w
    · rw [if_pos huw] at hval; exact absurd hval (by decide)
    · rw [if_neg huw] at hval
      split at hval
      · exact hval
      · exact hval

theorem recency_evict_absent (A : Nat) (set : List CacheLine) (ws : List Nat) (t : Nat)
    (h : Recency set A ws)
    (habsent : ∀ j, j < A → ¬ ((wayOf set j).valid = true ∧ (wayOf set j).tag = t)) :
    tagsOf set ws = refEvict (tagsOf set ws) t := by
  unfold refEvict
  rw [List.erase_of_not_mem]
  intro hmem
  obtain ⟨w, hwA, hv, ht⟩ := (h.mem_tags t).1 hmem
  exact habsent w hwA ⟨hv, ht⟩

/-! ## Auxiliary lemmas: the simulation of the reference LRU lists -/

theorem tags_getD_set_self (L : List (List Nat)) (s : Nat) (x : List Nat) (h : s < L.length) :
    (L.set s x).getD s [] = x := by
  simp [List.getD_eq_getElem?_getD, List.getElem?_set, h]

theorem tags_getD_set_ne (L : List (List Nat)) (s t : Nat) (x : List Nat) (h : s ≠ t) :
    (L.set s x).getD t [] = L.getD t [] := by
  simp [List.getD_eq_getElem?_getD, List.getElem?_set, h]

theorem Cache.NonNeg.set_lru {c : Cache} (hn : c.NonNeg) (h : c.WF) (s : Nat)
    (hs : s < c.numSets) (j : Nat) : 0 ≤ (wayOf (c.cache.getD s []) j).lru := by
  by_cases hj : j < c.associativity
  · exact (hn.way h s j hs hj).1
  · rw [wayOf_of_le _ _ (by rw [h.set_length s hs]; omega)]
    decide

theorem access_none_of_no_ways (c : Cache) (h : c.WF) (hA : c.associativity = 0)
    (address : Nat) (op : CacheOperation) (hop : op ≠ EVICT) : access c address op = none := by
  unfold access
  simp only [if_neg hop, countAccess_numSets, countAccess_cache, countAccess_associativity,
    countAccess_verbose]
  rw [h.lookup _ (h.setIndexOf_lt address)]
  simp only [hA, findHit, findVictim]
  rw [if_neg (by omega)]

theorem Sim.set_step {c : Cache} {L : List (List Nat)} (h : Sim c L) (hwf : c.WF) (c1 : Cache)
    (s : Nat) (x : List CacheLine) (ws : List Nat) (l : List Nat) (hs : s < c.numSets)
    (hn : c1.numSets = c.numSets) (ha : c1.associativity = c.associativity)
    (hc : c1.cache = c.cache.set s x) (hr : Recency x c.associativity ws)
    (hl : l = tagsOf x ws) : Sim c1 (L.set s l) := by
  refine ⟨by rw [List.length_set, hn]; exact h.1, ?_⟩
  intro s' hs'
  rw [hn] at hs'
  rw [ha, hc]
  by_cases hss : s = s'
  · subst hss
    rw [getD_set_self _ _ _ (by rw [hwf.sets]; exact hs),
      tags_getD_set_self _ _ _ (by rw [h.1]; exact hs)]
    exact ⟨ws, hr, hl⟩
  · rw [getD_set_ne _ _ _ _ hss, tags_getD_set_ne _ _ _ _ hss]
    exact h.2 s' hs'

theorem sim_evict (c : Cache) (L : List (List Nat)) (hwf : c.WF) (hnn : c.NonNeg)
    (hsim : Sim c L) (address : Nat) (c1 : Cache) (hev : evictLine c address = some c1) :
    Sim c1 (L.set (c.setIndexOf address)
      (refEvict (L.getD (c.setIndexOf address) []) (c.tagOf address))) := by
  have hs := hwf.setIndexOf_lt address
  obtain ⟨ws, hrec, hL⟩ := hsim.2 _ hs
  rw [evictLine_eq c hwf] at hev
  have hc1 := (Option.some.inj hev).symm
  by_cases hex : ∃ j, j < c.associativity ∧
      ((wayOf (c.cache.getD (c.setIndexOf address) []) j).valid = true ∧
        (wayOf (c.cache.getD (c.setIndexOf address) []) j).tag = c.tagOf address)
  · obtain ⟨w, hwA, ⟨hv, ht⟩, hfirst⟩ := exists_first _ _ hex
    have hage := hnn.set_lru hwf _ hs w
    have hscan := evictScan_match (c.tagOf address) c.associativity c.associativity 0 w
      (c.cache.getD (c.setIndexOf address) []) (Nat.zero_le _) (by omega) hv ht (by omega)
      (fun j _ hj => hfirst j hj)
    rw [hscan] at hc1
    obtain ⟨h1, h2⟩ := recency_evict_match c.associativity _ ws w hrec hwA hv
    refine hsim.set_step hwf c1 _ _ _ _ hs (by rw [hc1]) (by rw [hc1]) (by rw [hc1]) h1 ?_
    rw [h2, hL, ht]
  · have habs : ∀ j, j < c.associativity →
        ¬ ((wayOf (c.cache.getD (c.setIndexOf address) []) j).valid = true ∧
          (wayOf (c.cache.getD (c.setIndexOf address) []) j).tag = c.tagOf address) :=
      fun j hj hp => hex ⟨j, hj, hp⟩
    have hscan := evictScan_no_match (c.tagOf address) c.associativity c.associativity 0
      (c.cache.getD (c.setIndexOf address) []) (fun j _ hj => habs j (by omega))
    rw [hscan] at hc1
    refine hsim.set_step hwf c1 _ _ ws _ hs (by rw [hc1]) (by rw [hc1]) (by rw [hc1]) hrec ?_
    rw [hL]
    exact (recency_evict_absent c.associativity _ ws _ hrec habs).symm

theorem sim_access (c : Cache) (L : List (List Nat)) (hwf : c.WF) (hnn : c.NonNeg)
    (hsim : Sim c L) (address : Nat) (op : CacheOperation) (hop : op ≠ EVICT) (c1 : Cache)
    (out : List Msg) (hacc : access c address op = some (c1, out)) :
    Sim c1 (L.set (c.setIndexOf address)
      (refAccess c.associativity (L.getD (c.setIndexOf address) []) (c.tagOf address)).2) ∧
    decide (c1.cacheHits = c.cacheHits + 1) =
      (refAccess c.associativity (L.getD (c.setIndexOf address) []) (c.tagOf address)).1 := by
  have hs := hwf.setIndexOf_lt address
  obtain ⟨ws, hrec, hL⟩ := hsim.2 _ hs
  have hlen := hwf.set_length _ hs
  have hage := hnn.set_lru hwf _ hs
  rcases hfind : findHit (c.cache.getD (c.setIndexOf address) []) (c.tagOf address)
      c.associativity 0 with _ | w
  · have hA : 1 ≤ c.associativity := by
      by_contra hA0
      rw [access_none_of_no_ways c hwf (by omega) address op hop] at hacc
      exact Option.noConfusion hacc
    have hmiss := findHit_none_spec _ _ _ 0 hfind
    obtain ⟨v, hvA, hvic, hcase⟩ := exists_victim c hwf hnn hA _ hs
    rw [access_miss_eq c hwf address op hop v hvA hfind hvic] at hacc
    have hc1 := (Prod.mk.inj (Option.some.inj hacc)).1.symm
    obtain ⟨ws', h1, h2, h3⟩ := recency_miss c.associativity op _ ws v (c.tagOf address) hrec
      hlen hage hvA (fun j hj => hmiss j (Nat.zero_le _) (by omega)) hcase
    refine ⟨hsim.set_step hwf c1 _ _ ws' _ hs (by rw [hc1]; exact countAccess_numSets c op)
      (by rw [hc1]; exact countAccess_associativity c op) (by rw [hc1, ← countAccess_cache c op])
      h1 (by rw [hL, h2]), ?_⟩
    rw [hL, h3, hc1]
    show decide ((countAccess c op).cacheHits = c.cacheHits + 1) = false
    rw [countAccess_cacheHits]
    exact decide_eq_false (by omega)
  · obtain ⟨_, hwA, hv, ht, _⟩ := findHit_some_spec _ _ _ 0 w hfind
    rw [access_hit_eq c hwf address op hop w hfind] at hacc
    have hc1 := (Prod.mk.inj (Option.some.inj hacc)).1.symm
    obtain ⟨h1, h2, h3⟩ := recency_hit c.verbose c.associativity address op _ ws w hrec hage
      (by omega) hv
    rw [ht] at h2 h3
    refine ⟨hsim.set_step hwf c1 _ _ _ _ hs (by rw [hc1]; exact countAccess_numSets c op)
      (by rw [hc1]; exact countAccess_associativity c op) (by rw [hc1, ← countAccess_cache c op])
      h1 (by rw [hL, h2]), ?_⟩
    rw [hL, h3, hc1]
    exact decide_eq_true rfl

theorem replicate_empty_getD (n w : Nat) :
    (List.replicate n CacheLine.empty)[w]?.getD default = CacheLine.empty := by
  rw [List.getElem?_replicate]
  split <;> rfl

theorem sim_fresh (sets assoc : Nat) (verbosity : Bool) :
    Sim (Cache.new sets assoc verbosity) (List.replicate sets []) := by
  refine ⟨by simp [Cache.new], ?_⟩
  intro s hs
  have hs' : s < sets := hs
  refine ⟨[], ⟨?_, List.Pairwise.nil, List.nodup_nil⟩, ?_⟩
  · intro w
    have hway : wayOf ((Cache.new sets assoc verbosity).cache.getD s []) w = CacheLine.empty := by
      unfold Cache.new wayOf
      simp only [List.getD_eq_getElem?_getD, List.getElem?_replicate, hs']
      simp only [if_true, Option.getD_some]
      exact replicate_empty_getD assoc w
    rw [hway]
    simp [CacheLine.empty]
  · simp [tagsOf, List.getD_eq_getElem?_getD, List.getElem?_replicate, hs']

theorem sim_reset (c : Cache) : Sim (reset c) (List.replicate c.numSets []) := by
  refine ⟨by simp [reset], ?_⟩
  intro s hs
  have hs' : s < c.numSets := hs
  refine ⟨[], ⟨?_, List.Pairwise.nil, List.nodup_nil⟩, ?_⟩
  · intro w
    have hway : wayOf ((reset c).cache.getD s []) w = CacheLine.empty := by
      unfold reset wayOf
      simp only [List.getD_eq_getElem?_getD, List.getElem?_map]
      rcases h1 : c.cache[s]? with _ | set
      · rfl
      · simp only [Option.map_some', Option.getD_some, List.map_const', List.getElem?_replicate]
        split <;> rfl
    rw [hway]
    simp [CacheLine.empty]
  · simp [tagsOf, List.getD_eq_getElem?_getD, List.getElem?_replicate, hs']

theorem Reachable.sim {c : Cache} (h : Reachable c) : ∃ L, Sim c L := by
  induction h with
  | init k assoc verbosity hk => exact ⟨_, sim_fresh _ _ _⟩
  | access c c' address operation out hr hacc ih =>
    obtain ⟨L, hL⟩ := ih
    obtain ⟨hwf, hnn⟩ := hr.wf_nonNeg
    by_cases hop : operation = EVICT
    · subst hop
      rw [access_evict_eq] at hacc
      rcases hev : CacheSim.evictLine c address with _ | c2
      · rw [hev] at hacc; exact Option.noConfusion hacc
      · rw [hev] at hacc
        have hc2 := (Prod.mk.inj (Option.some.inj hacc)).1
        subst hc2
        exact ⟨_, sim_evict c L hwf hnn hL address c2 hev⟩
    · exact ⟨_, (sim_access c L hwf hnn hL address operation hop c' out hacc).1⟩
  | evictLine c c' address hr hev ih =>
    obtain ⟨L, hL⟩ := ih
    obtain ⟨hwf, hnn⟩ := hr.wf_nonNeg
    exact ⟨_, sim_evict c L hwf hnn hL address c' hev⟩
  | reset c hr ih => exact ⟨_, sim_reset c⟩

/-! ## Auxiliary lemmas: the three ways an `access` call can go -/

theorem access_cases (c : Cache) (hwf : c.WF) (hnn : c.NonNeg) (address : Nat)
    (op : CacheOperation) (c1 : Cache) (out : List Msg)
    (hacc : access c address op = some (c1, out)) :
    (op = EVICT ∧ evictLine c address = some c1) ∨
    (op ≠ EVICT ∧ ∃ w, w < c.associativity ∧
      (c.way (c.setIndexOf address) w).valid = true ∧
      (c.way (c.setIndexOf address) w).tag = c.tagOf address ∧
      c1 = { countAccess c op with
             cache := c.cache.set (c.setIndexOf address)
               (hitUpdate c.verbose c.associativity address op w
                 (c.cache.getD (c.setIndexOf address) [])).1
             cacheHits := c.cacheHits + 1 }) ∨
    (op ≠ EVICT ∧ ∃ v, v < c.associativity ∧
      (∀ j, j < c.associativity → ¬ ((c.way (c.setIndexOf address) j).valid = true ∧
        (c.way (c.setIndexOf address) j).tag = c.tagOf address)) ∧
      c1 = { countAccess c op with
             cache := c.cache.set (c.setIndexOf address)
               (bumpOthers v c.associativity 0
                 ((c.cache.getD (c.setIndexOf address) []).set v (newLine (c.tagOf address) op)))
             cacheMisses := c.cacheMisses + 1 }) := by
  have hs := hwf.setIndexOf_lt address
  by_cases hop : op = EVICT
  · left
    subst hop
    rw [access_evict_eq] at hacc
    rcases hev : evictLine c address with _ | c2
    · rw [hev] at hacc; exact Option.noConfusion hacc
    · rw [hev] at hacc
      exact ⟨rfl, by rw [(Prod.mk.inj (Option.some.inj hacc)).1]⟩
  · right
    rcases hfind : findHit (c.cache.getD (c.setIndexOf address) []) (c.tagOf address)
        c.associativity 0 with _ | w
    · right
      have hA : 1 ≤ c.associativity := by
        by_contra hA0
        rw [access_none_of_no_ways c hwf (by omega) address op hop] at hacc
        exact Option.noConfusion hacc
      have hmiss := findHit_none_spec _ _ _ 0 hfind
      obtain ⟨v, hvA, hvic, _⟩ := exists_victim c hwf hnn hA _ hs
      rw [access_miss_eq c hwf address op hop v hvA hfind hvic] at hacc
      exact ⟨hop, v, hvA, fun j hj => hmiss j (Nat.zero_le _) (by omega),
        (Prod.mk.inj (Option.some.inj hacc)).1.symm⟩
    · left
      obtain ⟨_, hwA, hv, ht, _⟩ := findHit_some_spec _ _ _ 0 w hfind
      rw [access_hit_eq c hwf address op hop w hfind] at hacc
      exact ⟨hop, w, by omega, hv, ht, (Prod.mk.inj (Option.some.inj hacc)).1.symm⟩

/-! ## Auxiliary lemmas: the dirty flag follows the write count -/

theorem LineOK.empty : LineOK CacheLine.empty :=
  ⟨fun _ => rfl, fun h => absurd h (by decide)⟩

theorem LineOK.with_lru {l : CacheLine} (h : LineOK l) (hv : l.valid = true) (x : Int) :
    LineOK { l with lru := x } :=
  ⟨fun h' => absurd (hv.symm.trans h') (by decide), fun _ => h.2 hv⟩

theorem LineOK.newLine (t : Nat) (op : CacheOperation) : LineOK (newLine t op) := by
  refine ⟨fun h => absurd h (by simp [CacheSim.newLine]), fun _ => ?_⟩
  unfold CacheSim.newLine
  by_cases hop : op = WRITE
  · simp [hop]
  · simp [hop]

theorem wayOf_lineOK_of_mem (s : List CacheLine) (h : ∀ l ∈ s, LineOK l) (j : Nat) :
    LineOK (wayOf s j) := by
  by_cases hj : j < s.length
  · exact h _ (wayOf_mem s j hj)
  · rw [wayOf_of_le s j (by omega)]
    exact LineOK.empty

theorem evictAdjust_lineOK (e : Int) (assoc : Nat) (s : List CacheLine)
    (h : ∀ j, LineOK (wayOf s j)) : ∀ j, LineOK (wayOf (evictAdjust e assoc 0 s) j) := by
  intro j
  rw [evictAdjust_wayOf]
  split
  · rename_i hc
    exact (h j).with_lru hc.2.2.1 _
  · exact h j

theorem evictScan_lineOK (tag assoc n : Nat) :
    ∀ (i : Nat) (s : List CacheLine), (∀ j, LineOK (wayOf s j)) →
      ∀ j, LineOK (wayOf (evictScan tag assoc n i s) j) := by
  induction n with
  | zero => intro i s h; exact h
  | succ n ih =>
    intro i s h
    have hset : ∀ j, LineOK (wayOf (s.set i CacheLine.empty) j) := by
      intro j
      rw [wayOf_set]
      split
      · exact LineOK.empty
      · exact h j
    simp only [evictScan]
    split
    · split
      · exact evictAdjust_lineOK _ _ _ hset
      · exact ih _ _ hset
    · exact ih _ _ h

theorem hitUpdate_lineOK (verbose : Bool) (assoc address : Nat) (op : CacheOperation) (w : Nat)
    (set : List CacheLine) (hv : (wayOf set w).valid = true) (h : ∀ j, LineOK (wayOf set j)) :
    ∀ j, LineOK (wayOf (hitUpdate verbose assoc address op w set).1 j) := by
  intro j
  by_cases hj : j = w
  · subst hj
    rw [hitUpdate_wayOf_self _ _ _ _ _ _ (valid_lt_length _ _ hv)]
    refine ⟨fun h' => absurd (hv.symm.trans h') (by decide), fun _ => ?_⟩
    have hd := (h j).2 hv
    by_cases hop : op = WRITE
    · by_cases h2 : (wayOf set j).writeCount + 1 = 2
      · simp [hop, h2]
      · simp only [hop, h2, and_false, if_false, if_true, true_and]
        rw [hd]
        exact decide_eq_decide.2 ⟨fun _ => by omega, fun _ => by omega⟩
    · simp only [hop, false_and, if_false]
      exact hd
  · rw [hitUpdate_wayOf_other _ _ _ _ _ _ _ hj]
    split
    · rename_i hc
      exact (h j).with_lru hc.2 _
    · exact h j

theorem missFill_lineOK (v assoc : Nat) (t : Nat) (op : CacheOperation) (set : List CacheLine)
    (hv : v < set.length) (h : ∀ j, LineOK (wayOf set j)) :
    ∀ j, LineOK (wayOf (bumpOthers v assoc 0 (set.set v (newLine t op))) j) := by
  intro j
  by_cases hj : j = v
  · subst hj
    rw [missFill_wayOf_self _ _ _ _ hv]
    exact LineOK.newLine t op
  · rw [missFill_wayOf_other _ _ _ _ _ hj]
    split
    · rename_i hc
      exact (h j).with_lru hc.2 _
    · exact h j

theorem Cache.LinesOK.set_lines {c : Cache} (hn : c.LinesOK) (c' : Cache) (s : Nat)
    (x : List CacheLine) (hc : c'.cache = c.cache.set s x)
    (hx : ∀ j, LineOK (wayOf x j)) : c'.LinesOK := by
  intro t ht
  rw [hc] at ht
  rcases List.mem_or_eq_of_mem_set ht with hm | he
  · exact hn t hm
  · rw [he]
    exact forall_mem_of_wayOf _ x hx

theorem evictLine_linesOK (c : Cache) (hwf : c.WF) (hok : c.LinesOK) (address : Nat)
    (c' : Cache) (h : evictLine c address = some c') : c'.LinesOK := by
  have hsi := hwf.setIndexOf_lt address
  rw [evictLine_eq c hwf address] at h
  have hc := (Option.some.inj h).symm
  subst hc
  refine hok.set_lines _ (c.setIndexOf address) _ rfl ?_
  exact evictScan_lineOK _ _ _ _ _ (wayOf_lineOK_of_mem _ (hok _ (hwf.set_mem _ hsi)))

theorem access_linesOK (c : Cache) (hwf : c.WF) (hnn : c.NonNeg) (hok : c.LinesOK)
    (address : Nat) (op : CacheOperation) (c' : Cache) (out : List Msg)
    (h : access c address op = some (c', out)) : c'.LinesOK := by
  have hsi := hwf.setIndexOf_lt address
  have hset := wayOf_lineOK_of_mem _ (hok _ (hwf.set_mem _ hsi))
  rcases access_cases c hwf hnn address op c' out h with ⟨_, hev⟩ | ⟨_, w, _, hv, _, hc⟩ |
      ⟨_, v, hvA, _, hc⟩
  · exact evictLine_linesOK c hwf hok address c' hev
  · refine hok.set_lines c' (c.setIndexOf address) _ (by rw [hc]) ?_
    exact hitUpdate_lineOK _ _ _ _ _ _ hv hset
  · refine hok.set_lines c' (c.setIndexOf address) _ (by rw [hc]) ?_
    exact missFill_lineOK _ _ _ _ _ (by rw [hwf.set_length _ hsi]; exact hvA) hset

theorem fresh_linesOK (sets assoc : Nat) (verbosity : Bool) :
    (Cache.new sets assoc verbosity).LinesOK := by
  intro s hs l hl
  unfold Cache.new at hs
  rw [List.eq_of_mem_replicate hs] at hl
  rw [List.eq_of_mem_replicate hl]
  exact LineOK.empty

theorem reset_linesOK (c : Cache) : (reset c).LinesOK := by
  intro s hs l hl
  unfold reset at hs
  obtain ⟨s0, _, rfl⟩ := List.mem_map.1 hs
  obtain ⟨l0, _, rfl⟩ := List.mem_map.1 hl
  exact LineOK.empty

theorem Reachable.linesOK {c : Cache} (h : Reachable c) : c.LinesOK := by
  induction h with
  | init k assoc verbosity hk => exact fresh_linesOK _ _ _
  | access c c' address operation out hr hacc ih =>
    exact access_linesOK c hr.wf_nonNeg.1 hr.wf_nonNeg.2 ih address operation c' out hacc
  | evictLine c c' address hr hev ih =>
    exact evictLine_linesOK c hr.wf_nonNeg.1 ih address c' hev
  | reset c hr ih => exact reset_linesOK c

/-! ## Auxiliary lemmas: counters, reachable states and the reference run -/

theorem evictLine_counters (c : Cache) (hwf : c.WF) (address : Nat) (c1 : Cache)
    (h : evictLine c address = some c1) :
    c1.numSets = c.numSets ∧ c1.associativity = c.associativity ∧ c1.verbose = c.verbose ∧
    c1.cacheReads = c.cacheReads ∧ c1.cacheWrites = c.cacheWrites ∧
    c1.cacheHits = c.cacheHits ∧ c1.cacheMisses = c.cacheMisses := by
  rw [evictLine_eq c hwf address] at h
  have hc := (Option.some.inj h).symm
  subst hc
  exact ⟨rfl, rfl, rfl, rfl, rfl, rfl, rfl⟩

theorem access_counters (c : Cache) (hwf : c.WF) (hnn : c.NonNeg) (address : Nat)
    (op : CacheOperation) (c1 : Cache) (out : List Msg)
    (h : access c address op = some (c1, out)) :
    c1.cacheReads = (if op = READ ∨ op = FETCH then c.cacheReads + 1 else c.cacheReads) ∧
    c1.cacheWrites = (if op = WRITE then c.cacheWrites + 1 else c.cacheWrites) ∧
    (op = EVICT → c1.cacheHits = c.cacheHits ∧ c1.cacheMisses = c.cacheMisses) ∧
    (op ≠ EVICT →
      (c1.cacheHits = c.cacheHits + 1 ∧ c1.cacheMisses = c.cacheMisses) ∨
      (c1.cacheHits = c.cacheHits ∧ c1.cacheMisses = c.cacheMisses + 1)) := by
  rcases access_cases c hwf hnn address op c1 out h with ⟨hop, hev⟩ | ⟨hop, w, _, _, _, hc⟩ |
      ⟨hop, v, _, _, hc⟩
  · obtain ⟨_, _, _, h1, h2, h3, h4⟩ := evictLine_counters c hwf address c1 hev
    subst hop
    refine ⟨by rw [h1, if_neg (by decide)], by rw [h2, if_neg (by decide)],
      fun _ => ⟨h3, h4⟩, fun hne => absurd rfl hne⟩
  · subst hc
    exact ⟨countAccess_cacheReads c op, countAccess_cacheWrites c op,
      fun he => absurd he hop, fun _ => Or.inl ⟨rfl, countAccess_cacheMisses c op⟩⟩
  · subst hc
    exact ⟨countAccess_cacheReads c op, countAccess_cacheWrites c op,
      fun he => absurd he hop, fun _ => Or.inr ⟨countAccess_cacheHits c op, rfl⟩⟩

theorem TraceReachable.reachable {c : Cache} (h : TraceReachable c) : Reachable c := by
  induction h with
  | init k assoc verbosity hk => exact Reachable.init k assoc verbosity hk
  | access c c' address operation out _ _ hacc ih =>
    exact Reachable.access c c' address operation out ih hacc
  | evictLine c c' address _ hev ih => exact Reachable.evictLine c c' address ih hev
  | reset c _ ih => exact Reachable.reset c ih

theorem TraceReachable.balance {c : Cache} (h : TraceReachable c) :
    c.cacheHits + c.cacheMisses = c.cacheReads + c.cacheWrites := by
  induction h with
  | init k assoc verbosity hk => rfl
  | access c c' address operation out hr hop hacc ih =>
    obtain ⟨hwf, hnn⟩ := hr.reachable.wf_nonNeg
    obtain ⟨h1, h2, h3, h4⟩ := access_counters c hwf hnn address operation c' out hacc
    rcases hop with hop | hop | hop | hop
    · subst hop
      rw [if_pos (Or.inl rfl)] at h1
      rw [if_neg (by decide)] at h2
      rcases h4 (by decide) with ⟨h5, h6⟩ | ⟨h5, h6⟩ <;> omega
    · subst hop
      rw [if_neg (by decide)] at h1
      rw [if_pos rfl] at h2
      rcases h4 (by decide) with ⟨h5, h6⟩ | ⟨h5, h6⟩ <;> omega
    · subst hop
      rw [if_pos (Or.inr rfl)] at h1
      rw [if_neg (by decide)] at h2
      rcases h4 (by decide) with ⟨h5, h6⟩ | ⟨h5, h6⟩ <;> omega
    · subst hop
      rw [if_neg (by decide)] at h1 h2
      obtain ⟨h5, h6⟩ := h3 rfl
      omega
  | evictLine c c' address hr hev ih =>
    obtain ⟨_, _, _, h1, h2, h3, h4⟩ :=
      evictLine_counters c hr.reachable.wf_nonNeg.1 address c' hev
    omega
  | reset c hr ih => rfl

theorem accessSeq_reachable (reqs : List (Nat × CacheOperation)) :
    ∀ (c c' : Cache) (out : List Msg), Reachable c → accessSeq c reqs = some (c', out) →
      Reachable c' := by
  induction reqs with
  | nil =>
    intro c c' out hr h
    have hc := (Prod.mk.inj (Option.some.inj h)).1
    rw [← hc]; exact hr
  | cons r rest ih =>
    intro c c' out hr h
    rw [accessSeq_cons] at h
    rcases h1 : access c r.1 r.2 with _ | ⟨c1, o1⟩
    · simp [h1] at h
    · simp only [h1] at h
      rcases h2 : accessSeq c1 rest with _ | ⟨c2, o2⟩
      · simp [h2] at h
      · simp only [h2] at h
        have hc := (Prod.mk.inj (Option.some.inj h)).1
        rw [← hc]
        exact ih c1 c2 o2 (Reachable.access c c1 r.1 r.2 o1 hr h1) h2

theorem valid_way_bounds (c : Cache) (hwf : c.WF) (s w : Nat)
    (hv : (c.way s w).valid = true) : s < c.numSets ∧ w < c.associativity := by
  have hwl := valid_lt_length _ _ hv
  have hs : s < c.numSets := by
    by_contra hs
    rw [List.getD_eq_default _ _ (by rw [hwf.sets]; omega)] at hwl
    exact absurd hwl (by simp)
  exact ⟨hs, by rw [← hwf.set_length s hs]; exact hwl⟩

theorem reach_tag_inj (c : Cache) (hr : Reachable c) (s w1 w2 : Nat)
    (hv1 : (c.way s w1).valid = true) (hv2 : (c.way s w2).valid = true)
    (ht : (c.way s w1).tag = (c.way s w2).tag) : w1 = w2 := by
  obtain ⟨L, hL⟩ := hr.sim
  have hwf := hr.wf_nonNeg.1
  obtain ⟨hs, h1⟩ := valid_way_bounds c hwf s w1 hv1
  obtain ⟨_, h2⟩ := valid_way_bounds c hwf s w2 hv2
  obtain ⟨ws, hrec, _⟩ := hL.2 s hs
  exact hrec.tag_inj w1 w2 ((hrec.mem w1).2 ⟨h1, hv1⟩) ((hrec.mem w2).2 ⟨h2, hv2⟩) ht

theorem reach_lru_inj (c : Cache) (hr : Reachable c) (s w1 w2 : Nat)
    (hv1 : (c.way s w1).valid = true) (hv2 : (c.way s w2).valid = true)
    (ht : (c.way s w1).lru = (c.way s w2).lru) : w1 = w2 := by
  obtain ⟨L, hL⟩ := hr.sim
  have hwf := hr.wf_nonNeg.1
  obtain ⟨hs, h1⟩ := valid_way_bounds c hwf s w1 hv1
  obtain ⟨_, h2⟩ := valid_way_bounds c hwf s w2 hv2
  obtain ⟨ws, hrec, _⟩ := hL.2 s hs
  exact hrec.lru_inj w1 w2 ((hrec.mem w1).2 ⟨h1, hv1⟩) ((hrec.mem w2).2 ⟨h2, hv2⟩) ht

theorem sim_resident (c : Cache) (L : List (List Nat)) (h : Sim c L) (s t : Nat)
    (hs : s < c.numSets) : c.resident s t ↔ t ∈ L.getD s [] := by
  obtain ⟨ws, hrec, hL⟩ := h.2 s hs
  rw [hL, hrec.mem_tags t]
  rfl

theorem accessOutcomes_cons (c : Cache) (r : Nat × CacheOperation)
    (rest : List (Nat × CacheOperation)) :
    accessOutcomes c (r :: rest) =
      match access c r.1 r.2 with
      | none => none
      | some (c1, _) =>
        match accessOutcomes c1 rest with
        | none => none
        | some (c2, flags) =>
          some (c2, if r.2 = EVICT then flags
                    else decide (c1.cacheHits = c.cacheHits + 1) :: flags) := rfl

theorem refRun_cons (numSets A : Nat) (L : List (List Nat)) (r : Nat × CacheOperation)
    (rest : List (Nat × CacheOperation)) :
    refRun numSets A L (r :: rest) =
      if r.2 = EVICT then
        refRun numSets A (L.set (decodeSetIndex CACHE_LINE_SIZE numSets r.1)
          (refEvict (L.getD (decodeSetIndex CACHE_LINE_SIZE numSets r.1) [])
            (decodeTag CACHE_LINE_SIZE numSets r.1))) rest
      else
        ((refRun numSets A (L.set (decodeSetIndex CACHE_LINE_SIZE numSets r.1)
          (refAccess A (L.getD (decodeSetIndex CACHE_LINE_SIZE numSets r.1) [])
            (decodeTag CACHE_LINE_SIZE numSets r.1)).2) rest).1,
         (refAccess A (L.getD (decodeSetIndex CACHE_LINE_SIZE numSets r.1) [])
            (decodeTag CACHE_LINE_SIZE numSets r.1)).1 ::
          (refRun numSets A (L.set (decodeSetIndex CACHE_LINE_SIZE numSets r.1)
            (refAccess A (L.getD (decodeSetIndex CACHE_LINE_SIZE numSets r.1) [])
              (decodeTag CACHE_LINE_SIZE numSets r.1)).2) rest).2) := rfl

theorem outcomes_sim (reqs : List (Nat × CacheOperation)) :
    ∀ (c : Cache) (L : List (List Nat)), c.WF → c.NonNeg → 1 ≤ c.associativity → Sim c L →
      ∃ c', accessOutcomes c reqs =
          some (c', (refRun c.numSets c.associativity L reqs).2) ∧
        Sim c' (refRun c.numSets c.associativity L reqs).1 ∧
        c'.numSets = c.numSets ∧ c'.associativity = c.associativity := by
  induction reqs with
  | nil => intro c L _ _ _ hsim; exact ⟨c, rfl, hsim, rfl, rfl⟩
  | cons r rest ih =>
    intro c L hwf hnn hA hsim
    obtain ⟨c1, o1, hacc⟩ := access_returns c hwf hnn hA r.1 r.2
    obtain ⟨hwf1, hnn1⟩ := access_preserves c hwf hnn r.1 r.2 c1 o1 hacc
    obtain ⟨hn1, ha1, _, _⟩ := access_shape c hwf r.1 r.2 c1 o1 hacc
    rw [accessOutcomes_cons, refRun_cons, hacc]
    by_cases hop : r.2 = EVICT
    · rw [if_pos hop]
      rw [hop] at hacc
      rcases access_cases c hwf hnn r.1 EVICT c1 o1 hacc with ⟨_, hev⟩ | ⟨hne, _⟩ | ⟨hne, _⟩
      · have hsim1 := sim_evict c L hwf hnn hsim r.1 c1 hev
        obtain ⟨c2, h1, h2, h3, h4⟩ := ih c1 _ hwf1 hnn1 (by omega) hsim1
        rw [hn1, ha1] at h1 h2
        refine ⟨c2, ?_, h2, by omega, by omega⟩
        simp only [h1, if_pos hop]
        rfl
      · exact absurd rfl hne
      · exact absurd rfl hne
    · rw [if_neg hop]
      obtain ⟨hsim1, hflag⟩ := sim_access c L hwf hnn hsim r.1 r.2 hop c1 o1 hacc
      obtain ⟨c2, h1, h2, h3, h4⟩ := ih c1 _ hwf1 hnn1 (by omega) hsim1
      rw [hn1, ha1] at h1 h2
      refine ⟨c2, ?_, h2, by omega, by omega⟩
      simp only [h1, if_neg hop, hflag]
      rfl

/-! ## Auxiliary lemmas: the sample caches are reachable -/

theorem freshCache_reachable : Reachable freshCache :=
  Reachable.init 2 2 true (by decide)

theorem freshCache_traceReachable : TraceReachable freshCache :=
  TraceReachable.init 2 2 true (by decide)

theorem demoCache_reachable : Reachable demoCache :=
  accessSeq_reachable _ freshCache demoCache _ freshCache_reachable demoCache_reached

theorem demoCache_traceReachable : TraceReachable demoCache := by
  have h1 : access freshCache 0x000 READ =
      some (⟨4, 2, true, [[⟨true, false, 0, 0, 0⟩, CacheLine.empty],
        [CacheLine.empty, CacheLine.empty], [CacheLine.empty, CacheLine.empty],
        [CacheLine.empty, CacheLine.empty]], 1, 0, 0, 1⟩, [("Read from L2", 0x000)]) := by
    decide
  have h2 : access ⟨4, 2, true, [[⟨true, false, 0, 0, 0⟩, CacheLine.empty],
        [CacheLine.empty, CacheLine.empty], [CacheLine.empty, CacheLine.empty],
        [CacheLine.empty, CacheLine.empty]], 1, 0, 0, 1⟩ 0x100 WRITE =
      some (⟨4, 2, true, [[⟨true, false, 0, 1, 0⟩, ⟨true, false, 1, 0, 1⟩],
        [CacheLine.empty, CacheLine.empty], [CacheLine.empty, CacheLine.empty],
        [CacheLine.empty, CacheLine.empty]], 1, 1, 0, 2⟩,
        [("Read for Ownership from L2", 0x100)]) := by
    decide
  have h3 : access ⟨4, 2, true, [[⟨true, false, 0, 1, 0⟩, ⟨true, false, 1, 0, 1⟩],
        [CacheLine.empty, CacheLine.empty], [CacheLine.empty, CacheLine.empty],
        [CacheLine.empty, CacheLine.empty]], 1, 1, 0, 2⟩ 0x100 WRITE = some (demoCache, []) := by
    decide
  exact TraceReachable.access _ _ _ _ _
    (TraceReachable.access _ _ _ _ _
      (TraceReachable.access _ _ _ _ _ freshCache_traceReachable (Or.inl rfl) h1)
      (Or.inr (Or.inl rfl)) h2)
    (Or.inr (Or.inl rfl)) h3

/-! ## Auxiliary lemmas: the 32-bit model -/

theorem wrapInt_of_range (x : Int) (h1 : -2147483648 ≤ x) (h2 : x < 2147483648) :
    wrapInt x = x := by
  unfold wrapInt; omega

theorem LineInRange.of_empty : LineInRange CacheLine.empty :=
  ⟨by decide, by decide, by decide, by decide⟩

theorem wayOf_inRange_of_mem (s : List CacheLine) (h : ∀ l ∈ s, LineInRange l) (j : Nat) :
    LineInRange (wayOf s j) := by
  by_cases hj : j < s.length
  · exact h _ (wayOf_mem s j hj)
  · rw [wayOf_of_le s j (by omega)]
    exact LineInRange.of_empty

theorem bumpOthers32_eq (skip : Int) (n : Nat) :
    ∀ (j : Nat) (s : List CacheLine), (∀ w, j ≤ w → LineInRange (wayOf s w)) →
      bumpOthers32 skip n j s = bumpOthers skip n j s := by
  induction n with
  | zero => intro j s _; rfl
  | succ n ih =>
    intro j s h
    have hj := h j (le_refl _)
    simp only [bumpOthers32, bumpOthers]
    rw [wrapInt_of_range _ (by unfold LineInRange at hj; omega)
      (by unfold LineInRange at hj; omega)]
    apply ih
    intro w hw
    split
    · rw [wayOf_set_ne _ _ _ _ (by omega)]
      exact h w (by omega)
    · exact h w (by omega)

theorem evictAdjust32_eq (e : Int) (he : -2147483648 ≤ e) (n : Nat) :
    ∀ (j : Nat) (s : List CacheLine), (∀ w, j ≤ w → LineInRange (wayOf s w)) →
      evictAdjust32 e n j s = evictAdjust e n j s := by
  induction n with
  | zero => intro j s _; rfl
  | succ n ih =>
    intro j s h
    have hj := h j (le_refl _)
    have hnext : ∀ (x : CacheLine) w, j + 1 ≤ w →
        LineInRange (wayOf (if ((wayOf s j).valid && decide ((wayOf s j).lru > e)) = true then
          s.set j x else s) w) := by
      intro x w hw
      split
      · rw [wayOf_set_ne _ _ _ _ (by omega)]
        exact h w (by omega)
      · exact h w (by omega)
    simp only [evictAdjust32, evictAdjust]
    by_cases hc : ((wayOf s j).valid && decide ((wayOf s j).lru > e)) = true
    · have hlt : e < (wayOf s j).lru := by
        simp only [Bool.and_eq_true, decide_eq_true_eq, gt_iff_lt] at hc
        exact hc.2
      rw [wrapInt_of_range _ (by omega) (by unfold LineInRange at hj; omega)]
      exact ih _ _ (hnext _)
    · rw [if_neg hc, if_neg hc]
      exact ih _ _ (by
        intro w hw
        have := hnext CacheLine.empty w hw
        rwa [if_neg hc] at this)

theorem evictScan32_eq (tag assoc n : Nat) :
    ∀ (i : Nat) (s : List CacheLine), (∀ w, LineInRange (wayOf s w)) →
      evictScan32 tag assoc n i s = evictScan tag assoc n i s := by
  induction n with
  | zero => intro i s _; rfl
  | succ n ih =>
    intro i s h
    have hset : ∀ w, LineInRange (wayOf (s.set i CacheLine.empty) w) := by
      intro w
      rw [wayOf_set]
      split
      · exact LineInRange.of_empty
      · exact h w
    simp only [evictScan32, evictScan]
    rw [evictAdjust32_eq _ (h i).1 _ _ _ (fun w _ => hset w), ih _ _ hset, ih _ _ h]

theorem evictLine32_eq (c : Cache) (h : ∀ s ∈ c.cache, ∀ l ∈ s, LineInRange l)
    (address : Nat) : evictLine32 c address = evictLine c address := by
  unfold evictLine32 evictLine
  simp only []
  rcases hl : c.cache[c.setIndexOf address]? with _ | set
  · rfl
  · simp only []
    rw [evictScan32_eq _ _ _ _ _ (wayOf_inRange_of_mem _ (h _ (List.getElem?_mem hl)))]

theorem hitUpdate32_eq (verbose : Bool) (assoc address : Nat) (op : CacheOperation) (i : Nat)
    (set : List CacheLine) (h : ∀ w, LineInRange (wayOf set w)) :
    hitUpdate32 verbose assoc address op i set = hitUpdate verbose assoc address op i set := by
  have hset : ∀ w, LineInRange (wayOf (set.set i { wayOf set i with lru := 0 }) w) := by
    intro w
    rw [wayOf_set]
    split
    · have := h i
      unfold LineInRange at this ⊢
      exact ⟨by simp, by simp, this.2.2.1, this.2.2.2⟩
    · exact h w
  have hwc : (wayOf (bumpOthers i assoc 0 (set.set i { wayOf set i with lru := 0 })) i).writeCount
      = (wayOf set i).writeCount ∨
      (wayOf (bumpOthers i assoc 0 (set.set i { wayOf set i with lru := 0 })) i).writeCount = 0 := by
    by_cases hi : i < set.length
    · left
      rw [bumpOthers_wayOf, wayOf_set_self _ _ _ hi, if_neg]
      rintro ⟨_, _, a, _⟩
      exact a rfl
    · right
      rw [wayOf_of_le _ _ (by rw [bumpOthers_length, List.length_set]; omega)]
      rfl
  have hr : wrapInt ((wayOf (bumpOthers i assoc 0
      (set.set i { wayOf set i with lru := 0 })) i).writeCount + 1) =
      (wayOf (bumpOthers i assoc 0 (set.set i { wayOf set i with lru := 0 })) i).writeCount + 1 := by
    have hi := h i
    unfold LineInRange at hi
    rcases hwc with e | e <;> rw [e] <;> exact wrapInt_of_range _ (by omega) (by omega)
  unfold hitUpdate32 hitUpdate
  simp only [bumpOthers32_eq _ _ _ _ (fun w _ => hset w), hr]

theorem countAccess32_eq (c : Cache) (h : c.InRange) (op : CacheOperation) :
    countAccess32 c op = countAccess c op := by
  unfold countAccess32 countAccess
  rw [wrapInt_of_range _ (by have := h.2.1; omega) (by have := h.2.1; omega),
    wrapInt_of_range _ (by have := h.2.2.1; omega) (by have := h.2.2.1; omega)]

/-- While every `int` member is below `INT_MAX`, the 32-bit model and the unbounded model
of `access` are the same function. -/
theorem access32_eq_access (c : Cache) (h : c.InRange) (address : Nat)
    (op : CacheOperation) : access32 c address op = access c address op := by
  have hlines : ∀ s ∈ (countAccess c op).cache, ∀ l ∈ s, LineInRange l := by
    rw [countAccess_cache]; exact h.1
  unfold access32 access
  simp only [countAccess32_eq c h op]
  by_cases hop : op = EVICT
  · simp only [if_pos hop, evictLine32_eq _ hlines]
  · simp only [if_neg hop]
    rcases hl : (countAccess c op).cache[c.setIndexOf address]? with _ | set
    · rfl
    · have hset := wayOf_inRange_of_mem _ (hlines _ (List.getElem?_mem hl))
      simp only []
      rcases hf : findHit set (c.tagOf address) (countAccess c op).associativity 0 with _ | i
      · simp only []
        rw [wrapInt_of_range _ (by rw [countAccess_cacheMisses]; have := h.2.2.2.2; omega)
          (by rw [countAccess_cacheMisses]; have := h.2.2.2.2; omega)]
        split
        · rename_i hv
          rw [bumpOthers32_eq]
          intro w _
          rw [wayOf_set]
          split
          · unfold LineInRange CacheSim.newLine
            by_cases hw : op = WRITE <;> simp [hw]
          · exact hset w
        · rfl
      · simp only []
        rw [wrapInt_of_range _ (by rw [countAccess_cacheHits]; have := h.2.2.2.1; omega)
          (by rw [countAccess_cacheHits]; have := h.2.2.2.1; omega),
          hitUpdate32_eq _ _ _ _ _ _ hset]

/-! ## Address decomposition -/

/-- C1: for a 32-bit address and power-of-two line size `2 ^ a` and set count `2 ^ b`
with `a + b < 32`, the decoded tag and set index put back in place,
`(tag << (a + b)) | (setIndex << a)`, give the address with its low `a` bits cleared
(and this value fits in 32 bits); and two addresses decode to the same set index and tag
exactly when they agree above the offset bits (the set index is below the set count and
the tag fits in the remaining `32 - (a + b)` bits). -/
theorem decode_roundtrip (a b address : Nat) (hbits : a + b < 32) (haddr : address < 2 ^ 32) :
    ((decodeTag (2 ^ a) (2 ^ b) address <<< (a + b)) |||
        (decodeSetIndex (2 ^ a) (2 ^ b) address <<< a) = address - address % 2 ^ a) ∧
    (decodeTag (2 ^ a) (2 ^ b) address <<< (a + b)) |||
        (decodeSetIndex (2 ^ a) (2 ^ b) address <<< a) < 2 ^ 32 ∧
    decodeSetIndex (2 ^ a) (2 ^ b) address < 2 ^ b ∧
    decodeTag (2 ^ a) (2 ^ b) address < 2 ^ (32 - (a + b)) ∧
    ∀ other, other < 2 ^ 32 →
      ((decodeSetIndex (2 ^ a) (2 ^ b) address = decodeSetIndex (2 ^ a) (2 ^ b) other ∧
        decodeTag (2 ^ a) (2 ^ b) address = decodeTag (2 ^ a) (2 ^ b) other) ↔
       address / 2 ^ a = other / 2 ^ a) := by
  have hpa : 0 < 2 ^ a := Nat.two_pow_pos a
  have hpb : 0 < 2 ^ b := Nat.two_pow_pos b
  have hrec : (decodeTag (2 ^ a) (2 ^ b) address <<< (a + b)) |||
      (decodeSetIndex (2 ^ a) (2 ^ b) address <<< a) = address - address % 2 ^ a := by
    rw [decodeSetIndex_two_pow, decodeTag_two_pow, Nat.shiftLeft_eq, Nat.shiftLeft_eq]
    have hlt : address / 2 ^ a % 2 ^ b * 2 ^ a < 2 ^ (a + b) := by
      rw [pow_add, mul_comm]
      exact Nat.mul_lt_mul_of_pos_left (Nat.mod_lt _ hpb) hpa
    rw [mul_comm (address / 2 ^ a / 2 ^ b), ← Nat.mul_add_lt_is_or hlt]
    have h1 := Nat.div_add_mod (address / 2 ^ a) (2 ^ b)
    have h2 := Nat.div_add_mod address (2 ^ a)
    have h3 : 2 ^ (a + b) * (address / 2 ^ a / 2 ^ b) + address / 2 ^ a % 2 ^ b * 2 ^ a
        = 2 ^ a * (address / 2 ^ a) := by
      conv_rhs => rw [← h1]
      rw [pow_add]; ring
    rw [h3]; omega
  refine ⟨hrec, ?_, ?_, ?_, ?_⟩
  · rw [hrec]; omega
  · rw [decodeSetIndex_two_pow]; exact Nat.mod_lt _ hpb
  · rw [decodeTag_two_pow, Nat.div_div_eq_div_mul, ← pow_add]
    apply Nat.div_lt_of_lt_mul
    rw [← pow_add, show a + b + (32 - (a + b)) = 32 by omega]
    exact haddr
  · intro other _
    simp only [decodeSetIndex_two_pow, decodeTag_two_pow]
    constructor
    · rintro ⟨h1, h2⟩
      rw [← Nat.div_add_mod (address / 2 ^ a) (2 ^ b), ← Nat.div_add_mod (other / 2 ^ a) (2 ^ b),
        h1, h2]
    · intro h; rw [h]; exact ⟨rfl, rfl⟩

/-- C1 at the production geometry: address `0x12345678`, 64-byte lines, 16384 sets. -/
theorem decode_roundtrip_witness :
    ((decodeTag (2 ^ 6) (2 ^ 14) 0x12345678 <<< (6 + 14)) |||
        (decodeSetIndex (2 ^ 6) (2 ^ 14) 0x12345678 <<< 6) = 0x12345678 - 0x12345678 % 2 ^ 6) ∧
    (decodeTag (2 ^ 6) (2 ^ 14) 0x12345678 <<< (6 + 14)) |||
        (decodeSetIndex (2 ^ 6) (2 ^ 14) 0x12345678 <<< 6) < 2 ^ 32 ∧
    decodeSetIndex (2 ^ 6) (2 ^ 14) 0x12345678 < 2 ^ 14 ∧
    decodeTag (2 ^ 6) (2 ^ 14) 0x12345678 < 2 ^ (32 - (6 + 14)) ∧
    ∀ other, other < 2 ^ 32 →
      ((decodeSetIndex (2 ^ 6) (2 ^ 14) 0x12345678 = decodeSetIndex (2 ^ 6) (2 ^ 14) other ∧
        decodeTag (2 ^ 6) (2 ^ 14) 0x12345678 = decodeTag (2 ^ 6) (2 ^ 14) other) ↔
       0x12345678 / 2 ^ 6 = other / 2 ^ 6) :=
  decode_roundtrip 6 14 0x12345678 (by decide) (by decide)

/-! ## Hits and misses -/

/-- C3: when `access(address, op)` with `op` READ, WRITE or FETCH finds the valid way `w`
of the decoded set carrying the decoded tag (the first such way in way order), the call
returns, way `w` has age 0 afterwards, every other valid way of the set is exactly one
older, invalid ways are unchanged, no way changes its valid flag or tag, the hit counter
grows by one and the miss counter is unchanged. -/
theorem hit_aging (c : Cache) (hwf : c.WF) (address : Nat) (op : CacheOperation)
    (hop : op = READ ∨ op = WRITE ∨ op = FETCH) (w : Nat)
    (hvalid : (c.way (c.setIndexOf address) w).valid = true)
    (htag : (c.way (c.setIndexOf address) w).tag = c.tagOf address)
    (hfirst : ∀ j, j < w → ¬ ((c.way (c.setIndexOf address) j).valid = true ∧
      (c.way (c.setIndexOf address) j).tag = c.tagOf address)) :
    ∃ c' out, access c address op = some (c', out) ∧
      (c'.way (c.setIndexOf address) w).lru = 0 ∧
      (∀ j, j < c.associativity → j ≠ w → (c.way (c.setIndexOf address) j).valid = true →
        (c'.way (c.setIndexOf address) j).lru = (c.way (c.setIndexOf address) j).lru + 1) ∧
      (∀ j, j < c.associativity → (c.way (c.setIndexOf address) j).valid = false →
        c'.way (c.setIndexOf address) j = c.way (c.setIndexOf address) j) ∧
      (∀ j, j < c.associativity →
        (c'.way (c.setIndexOf address) j).valid = (c.way (c.setIndexOf address) j).valid ∧
        (c'.way (c.setIndexOf address) j).tag = (c.way (c.setIndexOf address) j).tag) ∧
      c'.cacheHits = c.cacheHits + 1 ∧ c'.cacheMisses = c.cacheMisses := by
  have hsi := hwf.setIndexOf_lt address
  have hlen := hwf.set_length _ hsi
  have hsl : c.setIndexOf address < c.cache.length := by rw [hwf.sets]; exact hsi
  have hwl : w < (c.cache.getD (c.setIndexOf address) []).length := valid_lt_length _ _ hvalid
  have hne : op ≠ EVICT := by rcases hop with h | h | h <;> rw [h] <;> decide
  have hfind := findHit_eq_some (c.cache.getD (c.setIndexOf address) []) (c.tagOf address)
    c.associativity 0 w (Nat.zero_le _) (by omega) hvalid htag (fun j _ hj => hfirst j hj)
  refine ⟨_, _, access_hit_eq c hwf address op hne w hfind, ?_, ?_, ?_, ?_, ?_, ?_⟩
  · simp only [Cache.way, getD_set_self _ _ _ hsl]
    rw [hitUpdate_wayOf_self _ _ _ _ _ _ hwl]
  · intro j hj hjw hv
    simp only [Cache.way, getD_set_self _ _ _ hsl] at hv ⊢
    rw [hitUpdate_wayOf_other _ _ _ _ _ _ _ hjw, if_pos ⟨hj, hv⟩]
  · intro j hj hv
    have hjw : j ≠ w := by
      intro h; rw [h, hvalid] at hv; exact absurd hv (by decide)
    simp only [Cache.way, getD_set_self _ _ _ hsl] at hv ⊢
    rw [hitUpdate_wayOf_other _ _ _ _ _ _ _ hjw, if_neg]
    intro h; rw [h.2] at hv; exact absurd hv (by decide)
  · intro j hj
    simp only [Cache.way, getD_set_self _ _ _ hsl]
    by_cases hjw : j = w
    · subst hjw
      rw [hitUpdate_wayOf_self _ _ _ _ _ _ hwl]
      exact ⟨rfl, rfl⟩
    · rw [hitUpdate_wayOf_other _ _ _ _ _ _ _ hjw]
      split
      · exact ⟨rfl, rfl⟩
      · exact ⟨rfl, rfl⟩
  · rfl
  · exact countAccess_cacheMisses c op

/-- C2: when `access(address, op)` with `op` READ, WRITE or FETCH finds no valid line of
the decoded set with the decoded tag (cache of associativity at least 1), the call returns,
the miss counter grows by one, the hit counter is unchanged, and the way `v` that is
replaced is the first invalid way if there is one, otherwise the lowest-indexed way of
largest age; afterwards way `v` holds the fresh line (valid, clean, decoded tag, age 0,
write count 1 for WRITE and 0 otherwise), every other valid way is one older with all its
other members unchanged, and every other invalid way is unchanged. -/
theorem miss_post_state (c : Cache) (hwf : c.WF) (hnn : c.NonNeg) (hassoc : 1 ≤ c.associativity)
    (address : Nat) (op : CacheOperation) (hop : op = READ ∨ op = WRITE ∨ op = FETCH)
    (hmiss : ∀ j, j < c.associativity → ¬ ((c.way (c.setIndexOf address) j).valid = true ∧
      (c.way (c.setIndexOf address) j).tag = c.tagOf address)) :
    ∃ c' out v, access c address op = some (c', out) ∧ v < c.associativity ∧
      (((c.way (c.setIndexOf address) v).valid = false ∧
          ∀ j, j < v → (c.way (c.setIndexOf address) j).valid = true) ∨
        ((∀ j, j < c.associativity → (c.way (c.setIndexOf address) j).valid = true) ∧
          (∀ j, j < c.associativity →
            (c.way (c.setIndexOf address) j).lru ≤ (c.way (c.setIndexOf address) v).lru) ∧
          ∀ j, j < v →
            (c.way (c.setIndexOf address) j).lru < (c.way (c.setIndexOf address) v).lru)) ∧
      c'.way (c.setIndexOf address) v =
        ⟨true, false, c.tagOf address, 0, if op = WRITE then 1 else 0⟩ ∧
      (∀ j, j < c.associativity → j ≠ v → (c.way (c.setIndexOf address) j).valid = true →
        c'.way (c.setIndexOf address) j =
          { c.way (c.setIndexOf address) j with
            lru := (c.way (c.setIndexOf address) j).lru + 1 }) ∧
      (∀ j, j < c.associativity → j ≠ v → (c.way (c.setIndexOf address) j).valid = false →
        c'.way (c.setIndexOf address) j = c.way (c.setIndexOf address) j) ∧
      c'.cacheMisses = c.cacheMisses + 1 ∧ c'.cacheHits = c.cacheHits := by
  have hsi := hwf.setIndexOf_lt address
  have hlen := hwf.set_length _ hsi
  have hsl : c.setIndexOf address < c.cache.length := by rw [hwf.sets]; exact hsi
  have hne : op ≠ EVICT := by rcases hop with h | h | h <;> rw [h] <;> decide
  have hfind := findHit_eq_none (c.cache.getD (c.setIndexOf address) []) (c.tagOf address)
    c.associativity 0 (fun j _ hj => hmiss j (by omega))
  have hvic := exists_victim c hwf hnn hassoc _ hsi
  obtain ⟨v, hv, hvictim, hdesc⟩ := hvic
  have hvl : v < (c.cache.getD (c.setIndexOf address) []).length := by rw [hlen]; exact hv
  refine ⟨_, _, v, access_miss_eq c hwf address op hne v hv hfind hvictim, hv, hdesc,
    ?_, ?_, ?_, ?_, ?_⟩
  · simp only [Cache.way, getD_set_self _ _ _ hsl]
    rw [missFill_wayOf_self _ _ _ _ hvl]; rfl
  · intro j hj hjv hval
    simp only [Cache.way, getD_set_self _ _ _ hsl] at hval ⊢
    rw [missFill_wayOf_other _ _ _ _ _ hjv, if_pos ⟨hj, hval⟩]
  · intro j hj hjv hval
    simp only [Cache.way, getD_set_self _ _ _ hsl] at hval ⊢
    rw [missFill_wayOf_other _ _ _ _ _ hjv, if_neg]
    intro h; rw [h.2] at hval; exact absurd hval (by decide)
  · rfl
  · exact countAccess_cacheHits c op

/-! ## Explicit eviction and reset -/

/-- C6: evicting an address (`evictLine(address)` or `access(address, EVICT)`) whose decoded
set holds a valid way with the decoded tag, `w` being the lowest-indexed such way and its
age in the data-model range (non-negative): the call returns, way `w` becomes the
empty default line, every other valid way that was strictly older than `w` gets its age
lowered by exactly 1, every remaining way of the set is unchanged, and the read, write, hit
and miss counters are unchanged. -/
theorem evict_on_match (c : Cache) (hwf : c.WF) (address w : Nat)
    (hvalid : (c.way (c.setIndexOf address) w).valid = true)
    (htag : (c.way (c.setIndexOf address) w).tag = c.tagOf address)
    (hfirst : ∀ j, j < w → ¬ ((c.way (c.setIndexOf address) j).valid = true ∧
      (c.way (c.setIndexOf address) j).tag = c.tagOf address))
    (hage : 0 ≤ (c.way (c.setIndexOf address) w).lru) :
    ∃ c', evictLine c address = some c' ∧ access c address EVICT = some (c', []) ∧
      c'.way (c.setIndexOf address) w = ⟨false, false, 0, 0, 0⟩ ∧
      (∀ j, j < c.associativity → j ≠ w → (c.way (c.setIndexOf address) j).valid = true →
        (c.way (c.setIndexOf address) w).lru < (c.way (c.setIndexOf address) j).lru →
        c'.way (c.setIndexOf address) j =
          { c.way (c.setIndexOf address) j with
            lru := (c.way (c.setIndexOf address) j).lru - 1 }) ∧
      (∀ j, j < c.associativity → j ≠ w →
        ¬ ((c.way (c.setIndexOf address) j).valid = true ∧
          (c.way (c.setIndexOf address) w).lru < (c.way (c.setIndexOf address) j).lru) →
        c'.way (c.setIndexOf address) j = c.way (c.setIndexOf address) j) ∧
      c'.cacheReads = c.cacheReads ∧ c'.cacheWrites = c.cacheWrites ∧
      c'.cacheHits = c.cacheHits ∧ c'.cacheMisses = c.cacheMisses := by
  obtain ⟨c', hev, _, hr, hw', hh, hm, hways⟩ :=
    evictLine_match_spec c hwf address w hvalid htag hfirst hage
  refine ⟨c', hev, by rw [access_evict_eq, hev], ?_, ?_, ?_, hr, hw', hh, hm⟩
  · rw [hways w, if_pos rfl]; rfl
  · intro j hj hjw hv hlt
    rw [hways j, if_neg hjw, if_pos ⟨hj, hv, hlt⟩]
  · intro j hj hjw hn
    rw [hways j, if_neg hjw, if_neg (fun h => hn ⟨h.2.1, h.2.2⟩)]

/-- C7: evicting an address (`evictLine(address)` or `access(address, EVICT)`) whose decoded
set holds no valid line with the decoded tag returns the cache unchanged, every line of
every set and all four counters included, and prints nothing. -/
theorem evict_absent_noop (c : Cache) (hwf : c.WF) (address : Nat)
    (habsent : ∀ j, j < c.associativity → ¬ ((c.way (c.setIndexOf address) j).valid = true ∧
      (c.way (c.setIndexOf address) j).tag = c.tagOf address)) :
    evictLine c address = some c ∧ access c address EVICT = some (c, []) := by
  have hev := evictLine_absent c hwf address habsent
  exact ⟨hev, by rw [access_evict_eq, hev]⟩

/-- C8: after `reset()` every line of every set is the empty default line, whose derived
state is Invalid ("I"), the four counters are 0, the state equals that of a freshly
constructed cache of the same geometry and verbosity, and a second `reset()` changes
nothing. -/
theorem reset_complete (c : Cache) (hwf : c.WF) :
    (∀ s ∈ (reset c).cache, ∀ l ∈ s, l = CacheLine.empty ∧ getState l = "I") ∧
    (reset c).cacheReads = 0 ∧ (reset c).cacheWrites = 0 ∧
    (reset c).cacheHits = 0 ∧ (reset c).cacheMisses = 0 ∧
    reset c = Cache.new c.numSets c.associativity c.verbose ∧
    reset (reset c) = reset c := by
  have hlines : ∀ s ∈ (reset c).cache, ∀ l ∈ s, l = CacheLine.empty := by
    intro s hs l hl
    simp only [reset, List.mem_map] at hs
    obtain ⟨s0, _, rfl⟩ := hs
    simp only [List.mem_map] at hl
    obtain ⟨_, _, rfl⟩ := hl
    rfl
  have hcache : (reset c).cache =
      List.replicate c.numSets (List.replicate c.associativity CacheLine.empty) := by
    simp only [reset]
    rw [List.eq_replicate_iff]
    refine ⟨by rw [List.length_map, hwf.sets], ?_⟩
    intro s hs
    rw [List.mem_map] at hs
    obtain ⟨s0, hs0, rfl⟩ := hs
    rw [List.eq_replicate_iff]
    refine ⟨by rw [List.length_map, hwf.ways s0 hs0], ?_⟩
    intro l hl
    rw [List.mem_map] at hl
    obtain ⟨_, _, rfl⟩ := hl
    rfl
  refine ⟨fun s hs l hl => ?_, rfl, rfl, rfl, rfl, ?_, ?_⟩
  · rw [hlines s hs l hl]; exact ⟨rfl, by decide⟩
  · have h1 : reset c = ⟨c.numSets, c.associativity, c.verbose, (reset c).cache, 0, 0, 0, 0⟩ := rfl
    rw [h1, hcache]; rfl
  · simp only [reset, List.map_map]
    congr 1
    apply List.map_congr_left
    intro s _
    simp only [Function.comp, List.map_map]
    rfl

/-! ## Capacity eviction -/

/-- C4: a cache of associativity `A ≥ 1` (constructed shape, non-negative ages and write
counts), a set `s` whose ways are all invalid, and a sequence `reqs` of accesses whose
members addressed to `s` are, in order, `first :: others`: `A + 1` accesses, each READ,
WRITE or FETCH, with pairwise distinct tags; the other members of `reqs` go to other sets,
so nothing else operates on `s` in between.  Then the whole sequence returns, each of the
`A + 1` accesses to `s` is a miss (it adds 1 to the miss counter and leaves the hit
counter alone), and afterwards the tag inserted first is no longer resident in `s` while
the `A` other tags all are. -/
theorem capacity_eviction (c : Cache) (hwf : c.WF) (hnn : c.NonNeg)
    (hassoc : 1 ≤ c.associativity) (s : Nat)
    (hempty : ∀ w, w < c.associativity → (c.way s w).valid = false)
    (reqs : List (Nat × CacheOperation)) (first : Nat × CacheOperation)
    (others : List (Nat × CacheOperation))
    (htargets : reqs.filter (fun r => decide (c.setIndexOf r.1 = s)) = first :: others)
    (hlen : others.length = c.associativity)
    (hops : ∀ r ∈ first :: others, r.2 = READ ∨ r.2 = WRITE ∨ r.2 = FETCH)
    (hdistinct : ((first :: others).map (fun r => c.tagOf r.1)).Nodup) :
    ∃ c' out, accessSeq c reqs = some (c', out) ∧
      (∀ pre r post, reqs = pre ++ r :: post → c.setIndexOf r.1 = s →
        ∃ cp outp cq outq, accessSeq c pre = some (cp, outp) ∧
          access cp r.1 r.2 = some (cq, outq) ∧
          cq.cacheMisses = cp.cacheMisses + 1 ∧ cq.cacheHits = cp.cacheHits) ∧
      ¬ c'.resident s (c.tagOf first.1) ∧
      ∀ r ∈ others, c'.resident s (c.tagOf r.1) := by
  have hts : ((first :: others).map (fun r => c.tagOf r.1)).length = c.associativity + 1 := by
    rw [List.length_map, List.length_cons, hlen]
  -- the set is empty
  have hF0 : Filled c s [] := by
    refine ⟨fun w hw => absurd hw (Nat.not_lt_zero w), fun w _ => ?_⟩
    by_cases hw : w < c.associativity
    · exact hempty w hw
    · unfold Cache.way
      by_cases hs : s < c.numSets
      · rw [wayOf_of_le _ _ (by rw [hwf.set_length s hs]; omega)]; rfl
      · rw [List.getD_eq_default _ _ (by rw [hwf.sets]; omega), wayOf_of_le _ _ (by simp)]; rfl
  obtain ⟨c', out, hseq, ha, hO, hmisses⟩ :=
    interleaved_fill c s _ hdistinct reqs c 0 hwf hnn rfl hassoc hts
      (by rw [htargets, List.drop_zero])
      (fun r hr hrs => hops r (by
        rw [← htargets]
        exact List.mem_filter.2 ⟨hr, by simpa using hrs⟩))
      (fun _ => by rw [List.take_zero]; exact hF0)
      (fun h => absurd h (by omega))
  refine ⟨c', out, hseq, hmisses, ?_, ?_⟩
  · rintro ⟨w, hw, hval, htag⟩
    rw [ha] at hw
    have h0 : ((first :: others).map (fun r => c.tagOf r.1)).getD 0 0 = c.tagOf first.1 := rfl
    rw [← h0] at htag
    by_cases hw0 : w = 0
    · subst hw0
      rw [hO.2.1, hts] at htag
      exact nodup_getD_ne _ hdistinct _ 0 (by rw [hts]; omega) (by rw [hts]; omega)
        (by omega) htag
    · rw [(hO.2.2 w (by omega) (by rw [hts]; omega)).2] at htag
      exact nodup_getD_ne _ hdistinct w 0 (by rw [hts]; omega) (by rw [hts]; omega) hw0 htag
  · intro r hr
    obtain ⟨i, hi, rfl⟩ := List.mem_iff_getElem.1 hr
    have hti : ((first :: others).map (fun r => c.tagOf r.1)).getD (i + 1) 0
        = c.tagOf others[i].1 := by
      rw [List.map_cons, List.getD_cons_succ,
        List.getD_eq_getElem _ _ (by rw [List.length_map]; exact hi), List.getElem_map]
    by_cases hlast : i + 1 = c.associativity
    · refine ⟨0, by rw [ha]; omega, hO.1, ?_⟩
      rw [hO.2.1, hts, ← hti, ← hlast]
      simp
    · obtain ⟨h1, h2⟩ := hO.2.2 (i + 1) (by omega) (by rw [hts]; omega)
      exact ⟨i + 1, by rw [ha]; omega, h1, by rw [h2, hti]⟩

/-! ## Write-state progression -/

/-- C5 (as amended): a WRITE of `address` that misses, followed by any accesses `reqs`
during which the filled line stays resident (after every prefix of `reqs`), on a cache of
associativity at least 1 with non-negative ages and write counts.  All calls return; the
fill prints the read-for-ownership line; the line sits in a way `v`, valid with the decoded
tag, and its write count is 1 plus the number of further WRITEs to it; its derived state
is Valid ("V") with `dirty = false` as long as no further WRITE reached it and Modified
("M") with `dirty = true` from the first further WRITE on; the first further WRITE to the
line prints nothing, and every WRITE to it after that prints one "Write to L2" line
(printing only when `verbose`). -/
theorem write_progression (c : Cache) (hwf : c.WF) (hnn : c.NonNeg)
    (hassoc : 1 ≤ c.associativity) (address : Nat)
    (hmiss : ∀ j, j < c.associativity → ¬ ((c.way (c.setIndexOf address) j).valid = true ∧
      (c.way (c.setIndexOf address) j).tag = c.tagOf address))
    (reqs : List (Nat × CacheOperation))
    (hstay : ∀ i, i ≤ reqs.length →
      residentAfter c ((address, WRITE) :: reqs.take i) (c.setIndexOf address) (c.tagOf address)) :
    ∃ c' out v, accessSeq c ((address, WRITE) :: reqs) = some (c', out) ∧
      (∃ c1, access c address WRITE =
        some (c1, communicateWithL2 c.verbose "Read for Ownership from L2" address)) ∧
      v < c.associativity ∧
      (c'.way (c.setIndexOf address) v).valid = true ∧
      (c'.way (c.setIndexOf address) v).tag = c.tagOf address ∧
      (c'.way (c.setIndexOf address) v).writeCount =
        1 + (writesTo c (c.setIndexOf address) (c.tagOf address) reqs : Int) ∧
      getState (c'.way (c.setIndexOf address) v) =
        (if writesTo c (c.setIndexOf address) (c.tagOf address) reqs = 0 then "V" else "M") ∧
      (c'.way (c.setIndexOf address) v).dirty =
        decide (1 ≤ writesTo c (c.setIndexOf address) (c.tagOf address) reqs) ∧
      ∀ pre r post, reqs = pre ++ r :: post → r.2 = WRITE →
        c.setIndexOf r.1 = c.setIndexOf address → c.tagOf r.1 = c.tagOf address →
        ∃ cp outp cq outq, accessSeq c ((address, WRITE) :: pre) = some (cp, outp) ∧
          access cp r.1 r.2 = some (cq, outq) ∧
          outq = if writesTo c (c.setIndexOf address) (c.tagOf address) pre = 0 then []
            else communicateWithL2 c.verbose "Write to L2" r.1 := by
  have hsi := hwf.setIndexOf_lt address
  obtain ⟨v, hv, hvictim, _⟩ := exists_victim c hwf hnn hassoc _ hsi
  obtain ⟨c1, hacc, hwf1, hn1, ha1, hvb1, _, _, hself, hother⟩ :=
    access_miss_spec c hwf address WRITE (by decide) v hv hmiss hvictim
  have hacc' : access c address WRITE =
      some (c1, communicateWithL2 c.verbose "Read for Ownership from L2" address) := by
    rw [hacc]; simp
  have hnn1 := (access_preserves c hwf hnn address WRITE c1 _ hacc).2
  have hw1 : Written c1 (c.setIndexOf address) v (c.tagOf address) 1 := by
    refine ⟨by rw [hself]; rfl, by rw [hself]; rfl, by rw [hself]; rfl, by rw [hself]; rfl, ?_⟩
    intro j hj hm
    rw [hother j hj] at hm
    by_cases hc : j < c.associativity ∧ (c.way (c.setIndexOf address) j).valid = true
    · rw [if_pos hc] at hm
      exact hmiss j hc.1 hm
    · rw [if_neg hc] at hm
      exact hc ⟨by
        have := valid_lt_length _ _ hm.1
        rw [hwf.set_length _ hsi] at this
        exact this, hm.1⟩
  obtain ⟨c2, out2, hseq, ⟨hvalid, htag, hwc, hdirty, _⟩, hwrites⟩ :=
    written_phase c (c.setIndexOf address) v (c.tagOf address) reqs c1 1 (by decide) hwf1 hnn1
      (by rw [ha1]; exact hassoc) hn1 hvb1 hw1
      (by
        intro pre post hsplit cp outp hcp
        have h := hstay pre.length (by rw [hsplit, List.length_append]; omega)
        rw [hsplit, List.take_left] at h
        unfold residentAfter at h
        rw [accessSeq_cons, hacc'] at h
        simp only [hcp] at h
        exact h)
  have hfull : accessSeq c ((address, WRITE) :: reqs) =
      some (c2, communicateWithL2 c.verbose "Read for Ownership from L2" address ++ out2) := by
    rw [accessSeq_cons, hacc']; simp only [hseq]
  refine ⟨c2, _, v, hfull, ⟨c1, hacc'⟩, hv, hvalid, htag, hwc, ?_, ?_, ?_⟩
  · unfold getState
    rw [hvalid, hwc]
    by_cases h0 : writesTo c (c.setIndexOf address) (c.tagOf address) reqs = 0
    · rw [h0]; simp
    · have : (2 : Int) ≤ 1 + (writesTo c (c.setIndexOf address) (c.tagOf address) reqs : Int) := by
        omega
      simp [h0, this]
  · rw [hdirty]
    by_cases h0 : writesTo c (c.setIndexOf address) (c.tagOf address) reqs = 0
    · rw [h0]; simp
    · have h1 : (2 : Int) ≤ 1 + (writesTo c (c.setIndexOf address) (c.tagOf address) reqs : Int) := by
        omega
      have h2 : 1 ≤ writesTo c (c.setIndexOf address) (c.tagOf address) reqs := by omega
      simp [h1, h2]
  · intro pre r post hsplit hrw hrs hrt
    obtain ⟨cp, outp, cq, outq, h1, h2, h3⟩ := hwrites pre r post hsplit hrw hrs hrt
    have hpre : accessSeq c ((address, WRITE) :: pre) =
        some (cp, communicateWithL2 c.verbose "Read for Ownership from L2" address ++ outp) := by
      rw [accessSeq_cons, hacc']; simp only [h1]
    refine ⟨cp, _, cq, outq, hpre, h2, ?_⟩
    · rw [h3]
      by_cases h0 : writesTo c (c.setIndexOf address) (c.tagOf address) pre = 0
      · rw [h0]; simp
      · have : (2 : Int) ≤ 1 + (writesTo c (c.setIndexOf address) (c.tagOf address) pre : Int) := by
          omega
        rw [if_pos this, if_neg h0]

/-- C5, the claim as written fails: on a fresh verbose cache (4 sets, 2 ways) a WRITE of
address 0 misses and leaves the line Valid and clean; the very next WRITE makes it Modified
and dirty, yet the only line printed by the two calls is the read-for-ownership of the
fill: the second write emits no "Write to L2". -/
theorem write_progression_counterexample :
    (accessSeq (Cache.new 4 2 true) [(0, WRITE)]).map
        (fun r => (getState (r.1.way 0 0), (r.1.way 0 0).dirty, r.2)) =
      some ("V", false, [("Read for Ownership from L2", 0)]) ∧
    (accessSeq (Cache.new 4 2 true) [(0, WRITE), (0, WRITE)]).map
        (fun r => (getState (r.1.way 0 0), (r.1.way 0 0).dirty, r.2)) =
      some ("M", true, [("Read for Ownership from L2", 0)]) := by
  refine ⟨?_, ?_⟩ <;> decide

/-! ## The example scenario -/

/-- C9: on a fresh verbose cache with 4 sets, 2 ways and 64-byte lines, addresses 0x00,
0x40, 0x80 decode to sets 0, 1, 2; READs of them in that order are three misses (each
printing "Read from L2"); a following READ of 0x00 is a hit; two following WRITEs of 0x00
leave that line Modified ("M") and dirty with no "Write to L2" printed; a third WRITE of
0x00 prints exactly one "Write to L2"; the final counters are reads 4, writes 3, hits 4,
misses 3. -/
theorem example_scenario :
    (Cache.new 4 2 true).setIndexOf 0x00 = 0 ∧
    (Cache.new 4 2 true).setIndexOf 0x40 = 1 ∧
    (Cache.new 4 2 true).setIndexOf 0x80 = 2 ∧
    (accessSeq (Cache.new 4 2 true) [(0x00, READ), (0x40, READ), (0x80, READ)]).map
        (fun r => (r.1.cacheHits, r.1.cacheMisses, r.2)) =
      some (0, 3, [("Read from L2", 0x00), ("Read from L2", 0x40), ("Read from L2", 0x80)]) ∧
    (accessSeq (Cache.new 4 2 true)
        [(0x00, READ), (0x40, READ), (0x80, READ), (0x00, READ)]).map
        (fun r => (r.1.cacheHits, r.1.cacheMisses, r.2)) =
      some (1, 3, [("Read from L2", 0x00), ("Read from L2", 0x40), ("Read from L2", 0x80)]) ∧
    (accessSeq (Cache.new 4 2 true)
        [(0x00, READ), (0x40, READ), (0x80, READ), (0x00, READ), (0x00, WRITE),
          (0x00, WRITE)]).map
        (fun r => (getState (r.1.way 0 0), (r.1.way 0 0).dirty, (r.1.way 0 0).tag, r.2)) =
      some ("M", true, 0,
        [("Read from L2", 0x00), ("Read from L2", 0x40), ("Read from L2", 0x80)]) ∧
    (accessSeq (Cache.new 4 2 true)
        [(0x00, READ), (0x40, READ), (0x80, READ), (0x00, READ), (0x00, WRITE),
          (0x00, WRITE), (0x00, WRITE)]).map
        (fun r => (getState (r.1.way 0 0), (r.1.way 0 0).dirty, r.2)) =
      some ("M", true,
        [("Read from L2", 0x00), ("Read from L2", 0x40), ("Read from L2", 0x80),
          ("Write to L2", 0x00)]) ∧
    (accessSeq (Cache.new 4 2 true)
        [(0x00, READ), (0x40, READ), (0x80, READ), (0x00, READ), (0x00, WRITE),
          (0x00, WRITE), (0x00, WRITE)]).map
        (fun r => (r.1.cacheReads, r.1.cacheWrites, r.1.cacheHits, r.1.cacheMisses)) =
      some (4, 3, 4, 3) := by
  refine ⟨?_, ?_, ?_, ?_, ?_, ?_, ?_, ?_⟩ <;> decide

/-! ## Next-level notifications -/

/-- C10: the lines printed by one `access(address, op)` on a cache of associativity at
least 1 whose ages and write counts are in the data-model range (non-negative).  The call
returns; with `verbose` off nothing is printed; with `verbose` on: EVICT prints nothing;
a miss prints exactly one "Read from L2" line with the address for READ or FETCH, exactly
one "Read for Ownership from L2" line for WRITE (nothing for another operation value,
whatever the replaced victim held); a hit prints exactly one "Write to L2" line when the
operation is WRITE and the line's write count after the increment is at least 3, and
nothing otherwise (a WRITE reaching write count 1 or 2, or any other operation). -/
theorem notifications (c : Cache) (hwf : c.WF) (hnn : c.NonNeg) (hassoc : 1 ≤ c.associativity)
    (address : Nat) (op : CacheOperation) :
    ∃ c' out, access c address op = some (c', out) ∧
      (c.verbose = false → out = []) ∧
      (c.verbose = true →
        (op = EVICT → out = []) ∧
        ((∀ j, j < c.associativity → ¬ ((c.way (c.setIndexOf address) j).valid = true ∧
            (c.way (c.setIndexOf address) j).tag = c.tagOf address)) →
          (op = READ ∨ op = FETCH → out = [("Read from L2", address)]) ∧
          (op = WRITE → out = [("Read for Ownership from L2", address)]) ∧
          (op = RESET ∨ op = PRINT → out = [])) ∧
        (∀ w, (c.way (c.setIndexOf address) w).valid = true →
          (c.way (c.setIndexOf address) w).tag = c.tagOf address →
          (∀ j, j < w → ¬ ((c.way (c.setIndexOf address) j).valid = true ∧
            (c.way (c.setIndexOf address) j).tag = c.tagOf address)) →
          (op = WRITE → 3 ≤ (c.way (c.setIndexOf address) w).writeCount + 1 →
            out = [("Write to L2", address)]) ∧
          (op = WRITE → (c.way (c.setIndexOf address) w).writeCount + 1 < 3 → out = []) ∧
          (op ≠ WRITE → out = []))) := by
  have hsi := hwf.setIndexOf_lt address
  have hlen := hwf.set_length _ hsi
  by_cases hev : op = EVICT
  · subst hev
    have hE := access_evict_eq c address
    rw [evictLine_eq c hwf address] at hE
    refine ⟨_, [], hE, fun _ => rfl, fun _ => ⟨fun _ => rfl, fun _ => ⟨?_, ?_, ?_⟩,
      fun w _ _ _ => ⟨?_, ?_, ?_⟩⟩⟩
    all_goals first
      | (intro _; rfl)
      | (intro h; rcases h with h | h <;> cases h)
  · -- what a miss returns
    have hmissEq : (∀ j, j < c.associativity →
        ¬ ((c.way (c.setIndexOf address) j).valid = true ∧
          (c.way (c.setIndexOf address) j).tag = c.tagOf address)) →
        ∃ c', access c address op = some (c',
          if op = READ ∨ op = FETCH then communicateWithL2 c.verbose "Read from L2" address
          else if op = WRITE then
            communicateWithL2 c.verbose "Read for Ownership from L2" address
          else []) := by
      intro hmiss
      have hfind := findHit_eq_none (c.cache.getD (c.setIndexOf address) []) (c.tagOf address)
        c.associativity 0 (fun j _ hj => hmiss j (by omega))
      obtain ⟨v, hv, hvictim, _⟩ := exists_victim c hwf hnn hassoc _ hsi
      exact ⟨_, access_miss_eq c hwf address op hev v hv hfind hvictim⟩
    -- what a hit returns
    have hhitEq : ∀ w, (c.way (c.setIndexOf address) w).valid = true →
        (c.way (c.setIndexOf address) w).tag = c.tagOf address →
        (∀ j, j < w → ¬ ((c.way (c.setIndexOf address) j).valid = true ∧
          (c.way (c.setIndexOf address) j).tag = c.tagOf address)) →
        ∃ c', access c address op = some (c',
          if op = WRITE ∧ (c.way (c.setIndexOf address) w).writeCount + 1 ≠ 1 ∧
              (c.way (c.setIndexOf address) w).writeCount + 1 ≠ 2 then
            communicateWithL2 c.verbose "Write to L2" address
          else []) := by
      intro w hvalid htag hfirst
      have hwl : w < (c.cache.getD (c.setIndexOf address) []).length :=
        valid_lt_length _ _ hvalid
      have hfind := findHit_eq_some (c.cache.getD (c.setIndexOf address) []) (c.tagOf address)
        c.associativity 0 w (Nat.zero_le _) (by omega) hvalid htag (fun j _ hj => hfirst j hj)
      have := access_hit_eq c hwf address op hev w hfind
      rw [hitUpdate_out _ _ _ _ _ _ hwl] at this
      exact ⟨_, this⟩
    -- the call returns
    have hret : ∃ r, access c address op = some r := by
      by_cases hhit : ∃ j, j < c.associativity ∧
          ((c.way (c.setIndexOf address) j).valid = true ∧
            (c.way (c.setIndexOf address) j).tag = c.tagOf address)
      · classical
        have hw := Nat.find_spec hhit
        obtain ⟨c', h⟩ := hhitEq (Nat.find hhit) hw.2.1 hw.2.2 (by
          intro j hj hm
          have hjl := valid_lt_length _ _ hm.1
          exact Nat.find_min hhit hj ⟨by omega, hm⟩)
        exact ⟨_, h⟩
      · obtain ⟨c', h⟩ := hmissEq (fun j hj hm => hhit ⟨j, hj, hm⟩)
        exact ⟨_, h⟩
    obtain ⟨r, hr⟩ := hret
    refine ⟨r.1, r.2, hr, ?_, ?_⟩
    · intro hverb
      by_cases hhit : ∃ j, j < c.associativity ∧
          ((c.way (c.setIndexOf address) j).valid = true ∧
            (c.way (c.setIndexOf address) j).tag = c.tagOf address)
      · classical
        have hw := Nat.find_spec hhit
        obtain ⟨c', h⟩ := hhitEq (Nat.find hhit) hw.2.1 hw.2.2 (by
          intro j hj hm
          exact Nat.find_min hhit hj ⟨by have := valid_lt_length _ _ hm.1; omega, hm⟩)
        rw [hr] at h
        rw [(Prod.mk.inj (Option.some.inj h)).2]
        simp [communicateWithL2, hverb]
      · obtain ⟨c', h⟩ := hmissEq (fun j hj hm => hhit ⟨j, hj, hm⟩)
        rw [hr] at h
        rw [(Prod.mk.inj (Option.some.inj h)).2]
        simp [communicateWithL2, hverb]
    · intro hverb
      refine ⟨fun h => absurd h hev, ?_, ?_⟩
      · intro hmiss
        obtain ⟨c', h⟩ := hmissEq hmiss
        rw [hr] at h
        rw [(Prod.mk.inj (Option.some.inj h)).2]
        refine ⟨?_, ?_, ?_⟩
        · intro ho; rw [if_pos ho]; simp [communicateWithL2, hverb]
        · intro ho; subst ho; simp [communicateWithL2, hverb]
        · intro ho; rcases ho with ho | ho <;> subst ho <;> simp
      · intro w hvalid htag hfirst
        obtain ⟨c', h⟩ := hhitEq w hvalid htag hfirst
        rw [hr] at h
        rw [(Prod.mk.inj (Option.some.inj h)).2]
        have hwc := (hnn.way hwf _ w hsi (by
          have := valid_lt_length _ _ hvalid; omega)).2
        refine ⟨?_, ?_, ?_⟩
        · intro ho h3
          rw [if_pos ⟨ho, by omega, by omega⟩]
          simp [communicateWithL2, hverb]
        · intro ho h3
          rw [if_neg]
          rintro ⟨_, h1, h2⟩
          omega
        · intro ho
          rw [if_neg]
          rintro ⟨h1, _⟩
          exact ho h1

/-! ## Eviction removes the line -/

/-- C11: in every reachable state of a cache with at least one way, evicting an address
(by `evictLine` or by an EVICT access) returns a state in which no valid line of the
address's set carries its tag, and an immediately following READ, WRITE or FETCH access
to that address returns and is a miss (`cacheMisses` by one more, `cacheHits` unchanged). -/
theorem evict_removes (c : Cache) (hr : Reachable c) (hassoc : 1 ≤ c.associativity)
    (address : Nat) :
    ∃ c', evictLine c address = some c' ∧ access c address EVICT = some (c', []) ∧
      ¬ c'.resident (c.setIndexOf address) (c.tagOf address) ∧
      ∀ op, op = READ ∨ op = WRITE ∨ op = FETCH →
        ∃ c'' out, access c' address op = some (c'', out) ∧
          c''.cacheMisses = c'.cacheMisses + 1 ∧ c''.cacheHits = c'.cacheHits := by
  obtain ⟨hwf, hnn⟩ := hr.wf_nonNeg
  obtain ⟨L, hL⟩ := hr.sim
  have hs := hwf.setIndexOf_lt address
  have hev := evictLine_eq c hwf address
  generalize hc' : ({ c with
    cache := c.cache.set (c.setIndexOf address)
      (evictScan (c.tagOf address) c.associativity c.associativity 0
        (c.cache.getD (c.setIndexOf address) [])) } : Cache) = c' at hev
  have hr' := Reachable.evictLine c c' address hr hev
  obtain ⟨hwf', hnn'⟩ := hr'.wf_nonNeg
  obtain ⟨hn, ha, _⟩ := evictLine_counters c hwf address c' hev
  have hsim' := sim_evict c L hwf hnn hL address c' hev
  have hnot : ¬ c'.resident (c.setIndexOf address) (c.tagOf address) := by
    intro hres
    rw [sim_resident c' _ hsim' _ _ (by rw [hn]; exact hs),
      tags_getD_set_self _ _ _ (by rw [hL.1]; exact hs)] at hres
    obtain ⟨ws, hrec, hl⟩ := hL.2 _ hs
    have hnd : (L.getD (c.setIndexOf address) []).Nodup := by rw [hl]; exact hrec.tags
    unfold refEvict at hres
    exact ((hnd.mem_erase_iff).1 hres).1 rfl
  refine ⟨c', hev, by rw [access_evict_eq, hev], hnot, ?_⟩
  intro op hop
  have hne : op ≠ EVICT := by
    rcases hop with h | h | h <;> rw [h] <;> decide
  have hsi := Cache.setIndexOf_congr c c' hn address
  have hti := Cache.tagOf_congr c c' hn address
  obtain ⟨v, hv, hvic, _⟩ := exists_victim c' hwf' hnn' (by omega) _ (hwf'.setIndexOf_lt address)
  obtain ⟨c'', hacc, _, _, _, _, hhit, hmiss, _⟩ := access_miss_spec c' hwf' address op hne v hv
    (by
      intro j hj hp
      rw [hsi, hti] at hp
      exact hnot ⟨j, hj, hp⟩)
    hvic
  exact ⟨c'', _, hacc, hmiss, hhit⟩

/-! ## The verbosity flag of `main` -/

/-- C12 (amended): both caches built by `main` get the same verbose flag, and it is set
exactly when the mode argument equals 1. -/
theorem verbose_flag (mode : Int) :
    ((l1InstructionCache mode).verbose = true ↔ mode = 1) ∧
    ((l1DataCache mode).verbose = true ↔ mode = 1) ∧
    (l1InstructionCache mode).verbose = (l1DataCache mode).verbose := by
  simp [l1InstructionCache, l1DataCache, Cache.new, mainVerbose]

/-- C12 as stated fails: mode 2 is nonzero, yet both caches are built with the verbose
flag off. -/
theorem verbose_flag_counterexample :
    (2 : Int) ≠ 0 ∧ (l1InstructionCache 2).verbose = false ∧ (l1DataCache 2).verbose = false :=
  ⟨by decide, rfl, rfl⟩

/-! ## The dirty flag -/

/-- C13 (amended): in every reachable state, a WRITE access to an address whose line is
resident in way `w` returns and is a hit; afterwards the line is still valid with the same
tag, its write count is one more than before, and its dirty flag is true exactly when the
line had been written at least once before (so that the new write count is at least 2). -/
theorem write_hit_dirty (c : Cache) (hr : Reachable c) (address w : Nat)
    (hvalid : (c.way (c.setIndexOf address) w).valid = true)
    (htag : (c.way (c.setIndexOf address) w).tag = c.tagOf address) :
    ∃ c' out, access c address WRITE = some (c', out) ∧ c'.cacheHits = c.cacheHits + 1 ∧
      c'.cacheMisses = c.cacheMisses ∧
      (c'.way (c.setIndexOf address) w).valid = true ∧
      (c'.way (c.setIndexOf address) w).tag = c.tagOf address ∧
      (c'.way (c.setIndexOf address) w).writeCount =
        (c.way (c.setIndexOf address) w).writeCount + 1 ∧
      ((c'.way (c.setIndexOf address) w).dirty = true ↔
        1 ≤ (c.way (c.setIndexOf address) w).writeCount) ∧
      ((c'.way (c.setIndexOf address) w).dirty = true ↔
        2 ≤ (c'.way (c.setIndexOf address) w).writeCount) := by
  obtain ⟨hwf, hnn⟩ := hr.wf_nonNeg
  obtain ⟨hs, hwA⟩ := valid_way_bounds c hwf _ w hvalid
  have hok : LineOK (c.way (c.setIndexOf address) w) :=
    wayOf_lineOK_of_mem _ (hr.linesOK _ (hwf.set_mem _ hs)) w
  have hd := hok.2 hvalid
  obtain ⟨c', hacc, _, _, _, _, hhit, hmiss, hway, _⟩ := access_hit_spec c hwf address WRITE
    (by decide) w hvalid htag
    (by
      intro j hj hp
      have := reach_tag_inj c hr _ j w hp.1 hvalid (hp.2.trans htag.symm)
      omega)
  refine ⟨c', _, hacc, hhit, hmiss, ?_⟩
  rw [hway]
  simp only [if_true, true_and]
  refine ⟨hvalid, htag, ?_, ?_⟩
  · by_cases h2 : (c.way (c.setIndexOf address) w).writeCount + 1 = 2
    · rw [if_pos h2]
      exact ⟨fun _ => by omega, fun _ => rfl⟩
    · rw [if_neg h2, hd, decide_eq_true_iff]
      exact ⟨fun _ => by omega, fun _ => by omega⟩
  · by_cases h2 : (c.way (c.setIndexOf address) w).writeCount + 1 = 2
    · rw [if_pos h2]
      exact ⟨fun _ => by omega, fun _ => rfl⟩
    · rw [if_neg h2, hd, decide_eq_true_iff]
      exact ⟨fun _ => by omega, fun _ => by omega⟩

/-- C13 as stated fails: on a fresh cache a READ of address 0 fills way 0 of set 0, the
WRITE of address 0 that follows hits that line, and the line is not dirty afterwards. -/
theorem write_hit_dirty_counterexample :
    ∃ c1 o1 c2 o2, access freshCache 0 READ = some (c1, o1) ∧
      (c1.way 0 0).valid = true ∧ (c1.way 0 0).tag = 0 ∧
      access c1 0 WRITE = some (c2, o2) ∧ c2.cacheHits = c1.cacheHits + 1 ∧
      (c2.way 0 0).valid = true ∧ (c2.way 0 0).tag = 0 ∧ (c2.way 0 0).writeCount = 1 ∧
      (c2.way 0 0).dirty = false := by
  refine ⟨⟨4, 2, true, [[⟨true, false, 0, 0, 0⟩, CacheLine.empty],
      [CacheLine.empty, CacheLine.empty], [CacheLine.empty, CacheLine.empty],
      [CacheLine.empty, CacheLine.empty]], 1, 0, 0, 1⟩, [("Read from L2", 0)],
    ⟨4, 2, true, [[⟨true, false, 0, 0, 1⟩, CacheLine.empty],
      [CacheLine.empty, CacheLine.empty], [CacheLine.empty, CacheLine.empty],
      [CacheLine.empty, CacheLine.empty]], 1, 1, 1, 1⟩, [], ?_, ?_, ?_, ?_, ?_, ?_, ?_, ?_, ?_⟩ <;>
    decide

/-! ## Invariants of reachable states -/

/-- C14: in every reachable state two distinct valid ways of a set never carry the same
tag. -/
theorem tag_unique (c : Cache) (hr : Reachable c) (s w1 w2 : Nat) (hne : w1 ≠ w2)
    (hv1 : (c.way s w1).valid = true) (hv2 : (c.way s w2).valid = true) :
    (c.way s w1).tag ≠ (c.way s w2).tag :=
  fun ht => hne (reach_tag_inj c hr s w1 w2 hv1 hv2 ht)

/-- C15: in every reachable state a valid line is dirty exactly when its write count is
at least 2, which is exactly when `getState` reports "M"; an invalid line is not dirty. -/
theorem dirty_modified (c : Cache) (hr : Reachable c) (s w : Nat) :
    ((c.way s w).valid = true →
      ((c.way s w).dirty = true ↔ 2 ≤ (c.way s w).writeCount) ∧
      ((c.way s w).dirty = true ↔ getState (c.way s w) = "M")) ∧
    ((c.way s w).valid = false → (c.way s w).dirty = false ∧ getState (c.way s w) = "I") := by
  have hwf := hr.wf_nonNeg.1
  have hok : LineOK (c.way s w) := by
    by_cases hs : s < c.numSets
    · exact wayOf_lineOK_of_mem _ (hr.linesOK _ (hwf.set_mem _ hs)) w
    · unfold Cache.way
      rw [List.getD_eq_default _ _ (by rw [hwf.sets]; omega)]
      exact LineOK.empty
  refine ⟨fun hv => ?_, fun hv => ?_⟩
  · have hd := hok.2 hv
    have hst : getState (c.way s w) = "M" ↔ 2 ≤ (c.way s w).writeCount := by
      unfold getState
      rw [hv]
      by_cases h2 : 2 ≤ (c.way s w).writeCount
      · simp [h2]
      · simp only [Bool.not_true, if_neg h2]
        exact ⟨fun h => absurd h (by decide), fun h => absurd h h2⟩
    rw [hst, hd, decide_eq_true_iff]
    exact ⟨Iff.rfl, Iff.rfl⟩
  · rw [hok.1 hv]
    exact ⟨rfl, rfl⟩

/-! ## Age ties -/

/-- C17: on a freshly constructed cache with `2 ^ k` sets and `A ≥ 1` ways, every request
sequence returns, the hit/miss outcome of every access equals that of the reference
true-LRU cache, and in the final state every set holds exactly the tags of its reference
list, ordered by increasing age. -/
theorem lru_equivalence (k A : Nat) (verbosity : Bool) (hk : k < 26) (hA : 1 ≤ A)
    (reqs : List (Nat × CacheOperation)) :
    ∃ c', accessOutcomes (Cache.new (2 ^ k) A verbosity) reqs =
        some (c', (refRun (2 ^ k) A (List.replicate (2 ^ k) []) reqs).2) ∧
      Sim c' (refRun (2 ^ k) A (List.replicate (2 ^ k) []) reqs).1 ∧
      ∀ s t, s < 2 ^ k →
        (c'.resident s t ↔ t ∈ (refRun (2 ^ k) A (List.replicate (2 ^ k) []) reqs).1.getD s []) := by
  obtain ⟨c', h1, h2, h3, _⟩ := outcomes_sim reqs (Cache.new (2 ^ k) A verbosity)
    (List.replicate (2 ^ k) []) (fresh_wf k A verbosity hk) (fresh_nonNeg _ _ _) hA
    (sim_fresh _ _ _)
  exact ⟨c', h1, h2, fun s t hs => sim_resident c' _ h2 s t (by rw [h3]; exact hs)⟩

/-! ## Counters -/

/-- C18: in every state reached by `reset`, `evictLine` and READ/WRITE/FETCH/EVICT `access`
calls, hits + misses = reads + writes; a READ or FETCH access adds 1 to `cacheReads` only,
a WRITE access adds 1 to `cacheWrites` only, each of them adds 1 to exactly one of
`cacheHits` and `cacheMisses`, an EVICT access and `evictLine` change no counter, and with
at least one way every access returns. -/
theorem counter_balance (c : Cache) (hr : TraceReachable c) :
    c.cacheHits + c.cacheMisses = c.cacheReads + c.cacheWrites ∧
    (∀ address op c' out, access c address op = some (c', out) →
      (op = READ ∨ op = FETCH →
        c'.cacheReads = c.cacheReads + 1 ∧ c'.cacheWrites = c.cacheWrites) ∧
      (op = WRITE → c'.cacheReads = c.cacheReads ∧ c'.cacheWrites = c.cacheWrites + 1) ∧
      (op = READ ∨ op = WRITE ∨ op = FETCH →
        (c'.cacheHits = c.cacheHits + 1 ∧ c'.cacheMisses = c.cacheMisses) ∨
        (c'.cacheHits = c.cacheHits ∧ c'.cacheMisses = c.cacheMisses + 1)) ∧
      (op = EVICT → c'.cacheReads = c.cacheReads ∧ c'.cacheWrites = c.cacheWrites ∧
        c'.cacheHits = c.cacheHits ∧ c'.cacheMisses = c.cacheMisses)) ∧
    (∀ address c', evictLine c address = some c' →
      c'.cacheReads = c.cacheReads ∧ c'.cacheWrites = c.cacheWrites ∧
      c'.cacheHits = c.cacheHits ∧ c'.cacheMisses = c.cacheMisses) ∧
    (1 ≤ c.associativity → ∀ address op, ∃ c' out, access c address op = some (c', out)) := by
  obtain ⟨hwf, hnn⟩ := hr.reachable.wf_nonNeg
  refine ⟨hr.balance, ?_, ?_, fun hA address op => access_returns c hwf hnn hA address op⟩
  · intro address op c' out hacc
    obtain ⟨h1, h2, h3, h4⟩ := access_counters c hwf hnn address op c' out hacc
    refine ⟨?_, ?_, ?_, ?_⟩
    · intro hop
      rw [if_pos hop] at h1
      rw [if_neg (by rcases hop with h | h <;> rw [h] <;> decide)] at h2
      exact ⟨h1, h2⟩
    · intro hop
      rw [if_neg (by rw [hop]; decide)] at h1
      rw [if_pos hop] at h2
      exact ⟨h1, h2⟩
    · intro hop
      exact h4 (by rcases hop with h | h | h <;> rw [h] <;> decide)
    · intro hop
      rw [if_neg (by rw [hop]; decide)] at h1 h2
      exact ⟨h1, h2, (h3 hop).1, (h3 hop).2⟩
  · intro address c' hev
    obtain ⟨_, _, _, h⟩ := evictLine_counters c hwf address c' hev
    exact h

/-! ## Set locality -/

/-- C19: an `access` (any operation) or `evictLine` call for an address leaves every set
other than the one the address decodes to unchanged, keeps the number of sets, and never
changes `numSets`, `associativity` or `verbose`; `evictLine` always returns, and `access`
returns whenever the ages are non-negative and there is at least one way. -/
theorem set_locality (c : Cache) (hwf : c.WF) (address : Nat) :
    (∀ op c' out, access c address op = some (c', out) →
      c'.numSets = c.numSets ∧ c'.associativity = c.associativity ∧ c'.verbose = c.verbose ∧
      c'.cache.length = c.cache.length ∧
      ∀ t, t ≠ c.setIndexOf address → c'.cache.getD t [] = c.cache.getD t []) ∧
    (∃ c', evictLine c address = some c' ∧
      c'.numSets = c.numSets ∧ c'.associativity = c.associativity ∧ c'.verbose = c.verbose ∧
      c'.cache.length = c.cache.length ∧
      ∀ t, t ≠ c.setIndexOf address → c'.cache.getD t [] = c.cache.getD t []) ∧
    (c.NonNeg → 1 ≤ c.associativity →
      ∀ op, ∃ c' out, access c address op = some (c', out)) := by
  refine ⟨?_, ?_, fun hnn hA op => access_returns c hwf hnn hA address op⟩
  · intro op c' out hacc
    obtain ⟨h1, h2, h3, x, hx⟩ := access_shape c hwf address op c' out hacc
    refine ⟨h1, h2, h3, by rw [hx, List.length_set], ?_⟩
    intro t ht
    rw [hx, getD_set_ne _ _ _ _ (Ne.symm ht)]
  · refine ⟨_, evictLine_eq c hwf address, rfl, rfl, rfl, by simp only [List.length_set], ?_⟩
    intro t ht
    simp only
    rw [getD_set_ne _ _ _ _ (Ne.symm ht)]

/-! ## In-bounds indexing -/

/-- C20 (amended): in every state reachable from a cache constructed with `2 ^ k` sets,
`k ≤ 25`, and at least one way, the shift amounts stay below 32, the decoded set index is
below `numSets` and selects a set of `associativity` ways, the victim loop returns an
index in `[0, associativity)`, never -1, and both `access` and `evictLine` return. -/
theorem in_bounds (c : Cache) (hr : Reachable c) (hassoc : 1 ≤ c.associativity)
    (address : Nat) (op : CacheOperation) :
    log2 CACHE_LINE_SIZE + log2 c.numSets < 32 ∧
    c.setIndexOf address < c.numSets ∧
    c.cache[c.setIndexOf address]? = some (c.cache.getD (c.setIndexOf address) []) ∧
    (c.cache.getD (c.setIndexOf address) []).length = c.associativity ∧
    (∃ v : Nat, v < c.associativity ∧
      findVictim (c.cache.getD (c.setIndexOf address) []) c.associativity 0 (-1) (-1) =
        (v : Int)) ∧
    findVictim (c.cache.getD (c.setIndexOf address) []) c.associativity 0 (-1) (-1) ≠ -1 ∧
    (∃ c' out, access c address op = some (c', out)) ∧
    ∃ c', evictLine c address = some c' := by
  obtain ⟨hwf, hnn⟩ := hr.wf_nonNeg
  have hs := hwf.setIndexOf_lt address
  obtain ⟨v, hv, hvic, _⟩ := exists_victim c hwf hnn hassoc _ hs
  obtain ⟨k, hk, hk26⟩ := hwf.geometry
  refine ⟨?_, hs, hwf.lookup _ hs, hwf.set_length _ hs, ⟨v, hv, hvic⟩, ?_,
    access_returns c hwf hnn hassoc address op, ⟨_, evictLine_eq c hwf address⟩⟩
  · rw [hk, log2_two_pow, show CACHE_LINE_SIZE = 2 ^ 6 from rfl, log2_two_pow]
    omega
  · rw [hvic]
    omega

/-- C20 as stated fails: a set count of `2 ^ 26` is a power of two that fits an `int`,
but with line size 64 the shift amounts add up to 32, which is not below 32. -/
theorem in_bounds_counterexample :
    (Cache.new (2 ^ 26) 1 false).numSets = 2 ^ 26 ∧
    1 ≤ (Cache.new (2 ^ 26) 1 false).associativity ∧
    (2 : Nat) ^ 26 < 2 ^ 31 ∧
    ¬ (log2 CACHE_LINE_SIZE + log2 (Cache.new (2 ^ 26) 1 false).numSets < 32) := by
  refine ⟨rfl, by decide, by decide, ?_⟩
  show ¬ (log2 CACHE_LINE_SIZE + log2 (2 ^ 26) < 32)
  rw [log2_two_pow, show CACHE_LINE_SIZE = 2 ^ 6 from rfl, log2_two_pow]
  decide

/-! ## Instances of the theorems on concrete caches -/

/-- C3 on `demoCache`: a WRITE of address 0x100 (set 0, tag 1) hits way 1. -/
theorem hit_aging_witness :
    demoCache.WF ∧ (demoCache.way (demoCache.setIndexOf 0x100) 1).valid = true ∧
    (demoCache.way (demoCache.setIndexOf 0x100) 1).tag = demoCache.tagOf 0x100 ∧
    (∀ j, j < 1 → ¬ ((demoCache.way (demoCache.setIndexOf 0x100) j).valid = true ∧
      (demoCache.way (demoCache.setIndexOf 0x100) j).tag = demoCache.tagOf 0x100)) ∧
    (∃ c' out, access demoCache 0x100 WRITE = some (c', out) ∧
      (c'.way (demoCache.setIndexOf 0x100) 1).lru = 0 ∧
      (∀ j, j < demoCache.associativity → j ≠ 1 → (demoCache.way (demoCache.setIndexOf 0x100) j).valid = true →
        (c'.way (demoCache.setIndexOf 0x100) j).lru = (demoCache.way (demoCache.setIndexOf 0x100) j).lru + 1) ∧
      (∀ j, j < demoCache.associativity → (demoCache.way (demoCache.setIndexOf 0x100) j).valid = false →
        c'.way (demoCache.setIndexOf 0x100) j = demoCache.way (demoCache.setIndexOf 0x100) j) ∧
      (∀ j, j < demoCache.associativity →
        (c'.way (demoCache.setIndexOf 0x100) j).valid = (demoCache.way (demoCache.setIndexOf 0x100) j).valid ∧
        (c'.way (demoCache.setIndexOf 0x100) j).tag = (demoCache.way (demoCache.setIndexOf 0x100) j).tag) ∧
      c'.cacheHits = demoCache.cacheHits + 1 ∧ c'.cacheMisses = demoCache.cacheMisses) :=
  ⟨demoCache_wf, by decide, by decide, by decide,
    hit_aging demoCache demoCache_wf 0x100 WRITE (Or.inr (Or.inl rfl)) 1 (by decide) (by decide)
      (by decide)⟩

/-- C2 on `demoCache`: a READ of address 0x200 (set 0, tag 2) misses in the full set 0. -/
theorem miss_post_state_witness :
    demoCache.WF ∧ demoCache.NonNeg ∧ 1 ≤ demoCache.associativity ∧
    (∀ j, j < demoCache.associativity →
      ¬ ((demoCache.way (demoCache.setIndexOf 0x200) j).valid = true ∧
        (demoCache.way (demoCache.setIndexOf 0x200) j).tag = demoCache.tagOf 0x200)) ∧
    (∃ c' out v, access demoCache 0x200 READ = some (c', out) ∧ v < demoCache.associativity ∧
      (((demoCache.way (demoCache.setIndexOf 0x200) v).valid = false ∧
          ∀ j, j < v → (demoCache.way (demoCache.setIndexOf 0x200) j).valid = true) ∨
        ((∀ j, j < demoCache.associativity → (demoCache.way (demoCache.setIndexOf 0x200) j).valid = true) ∧
          (∀ j, j < demoCache.associativity →
            (demoCache.way (demoCache.setIndexOf 0x200) j).lru ≤ (demoCache.way (demoCache.setIndexOf 0x200) v).lru) ∧
          ∀ j, j < v →
            (demoCache.way (demoCache.setIndexOf 0x200) j).lru < (demoCache.way (demoCache.setIndexOf 0x200) v).lru)) ∧
      c'.way (demoCache.setIndexOf 0x200) v =
        ⟨true, false, demoCache.tagOf 0x200, 0, if READ = WRITE then 1 else 0⟩ ∧
      (∀ j, j < demoCache.associativity → j ≠ v → (demoCache.way (demoCache.setIndexOf 0x200) j).valid = true →
        c'.way (demoCache.setIndexOf 0x200) j =
          { demoCache.way (demoCache.setIndexOf 0x200) j with
            lru := (demoCache.way (demoCache.setIndexOf 0x200) j).lru + 1 }) ∧
      (∀ j, j < demoCache.associativity → j ≠ v → (demoCache.way (demoCache.setIndexOf 0x200) j).valid = false →
        c'.way (demoCache.setIndexOf 0x200) j = demoCache.way (demoCache.setIndexOf 0x200) j) ∧
      c'.cacheMisses = demoCache.cacheMisses + 1 ∧ c'.cacheHits = demoCache.cacheHits) :=
  ⟨demoCache_wf, demoCache_nonNeg, by decide, by decide,
    miss_post_state demoCache demoCache_wf demoCache_nonNeg (by decide) 0x200 READ
      (Or.inl rfl) (by decide)⟩

/-- C4 on a fresh 4-set 2-way cache: tags 0, 1, 2 go into set 0, with a WRITE to set 1
and an EVICT in set 2 in between. -/
theorem capacity_eviction_witness :
    freshCache.WF ∧ freshCache.NonNeg ∧ 1 ≤ freshCache.associativity ∧
    (∀ w, w < freshCache.associativity → (freshCache.way 0 w).valid = false) ∧
    [(0x000, READ), (0x40, WRITE), (0x100, WRITE), (0x80, EVICT), (0x200, FETCH)].filter
        (fun r => decide (freshCache.setIndexOf r.1 = 0)) =
      (0x000, READ) :: [(0x100, WRITE), (0x200, FETCH)] ∧
    (∃ c' out, accessSeq freshCache [(0x000, READ), (0x40, WRITE), (0x100, WRITE), (0x80, EVICT), (0x200, FETCH)] = some (c', out) ∧
      (∀ pre r post, [(0x000, READ), (0x40, WRITE), (0x100, WRITE), (0x80, EVICT), (0x200, FETCH)] = pre ++ r :: post → freshCache.setIndexOf r.1 = 0 →
        ∃ cp outp cq outq, accessSeq freshCache pre = some (cp, outp) ∧
          access cp r.1 r.2 = some (cq, outq) ∧
          cq.cacheMisses = cp.cacheMisses + 1 ∧ cq.cacheHits = cp.cacheHits) ∧
      ¬ c'.resident 0 (freshCache.tagOf (0x000, READ).1) ∧
      ∀ r ∈ [(0x100, WRITE), (0x200, FETCH)], c'.resident 0 (freshCache.tagOf r.1)) :=
  ⟨freshCache_wf, freshCache_nonNeg, by decide, by decide, by decide,
    capacity_eviction freshCache freshCache_wf freshCache_nonNeg (by decide) 0 (by decide)
      [(0x000, READ), (0x40, WRITE), (0x100, WRITE), (0x80, EVICT), (0x200, FETCH)]
      (0x000, READ) [(0x100, WRITE), (0x200, FETCH)] (by decide) (by decide) (by decide)
      (by decide)⟩

/-- C5 (amended) on a fresh verbose cache: a WRITE of address 0x40 that misses, then
three more WRITEs to that line, interleaved with a READ of it, a READ in another set and a
READ that fills the other way of its set. -/
theorem write_progression_witness :
    freshCache.WF ∧ freshCache.NonNeg ∧ 1 ≤ freshCache.associativity ∧
    (∀ j, j < freshCache.associativity →
      ¬ ((freshCache.way (freshCache.setIndexOf 0x40) j).valid = true ∧
        (freshCache.way (freshCache.setIndexOf 0x40) j).tag = freshCache.tagOf 0x40)) ∧
    (∀ i, i ≤ [(0x40, WRITE), (0x00, READ), (0x44, READ), (0x140, READ), (0x40, WRITE), (0x48, WRITE)].length →
      residentAfter freshCache ((0x40, WRITE) :: [(0x40, WRITE), (0x00, READ), (0x44, READ), (0x140, READ), (0x40, WRITE), (0x48, WRITE)].take i)
        (freshCache.setIndexOf 0x40) (freshCache.tagOf 0x40)) ∧
    (∃ c' out v, accessSeq freshCache ((0x40, WRITE) :: [(0x40, WRITE), (0x00, READ), (0x44, READ), (0x140, READ), (0x40, WRITE), (0x48, WRITE)]) = some (c', out) ∧
      (∃ c1, access freshCache 0x40 WRITE =
        some (c1, communicateWithL2 freshCache.verbose "Read for Ownership from L2" 0x40)) ∧
      v < freshCache.associativity ∧
      (c'.way (freshCache.setIndexOf 0x40) v).valid = true ∧
      (c'.way (freshCache.setIndexOf 0x40) v).tag = freshCache.tagOf 0x40 ∧
      (c'.way (freshCache.setIndexOf 0x40) v).writeCount =
        1 + (writesTo freshCache (freshCache.setIndexOf 0x40) (freshCache.tagOf 0x40) [(0x40, WRITE), (0x00, READ), (0x44, READ), (0x140, READ), (0x40, WRITE), (0x48, WRITE)] : Int) ∧
      getState (c'.way (freshCache.setIndexOf 0x40) v) =
        (if writesTo freshCache (freshCache.setIndexOf 0x40) (freshCache.tagOf 0x40) [(0x40, WRITE), (0x00, READ), (0x44, READ), (0x140, READ), (0x40, WRITE), (0x48, WRITE)] = 0 then "V" else "M") ∧
      (c'.way (freshCache.setIndexOf 0x40) v).dirty =
        decide (1 ≤ writesTo freshCache (freshCache.setIndexOf 0x40) (freshCache.tagOf 0x40) [(0x40, WRITE), (0x00, READ), (0x44, READ), (0x140, READ), (0x40, WRITE), (0x48, WRITE)]) ∧
      ∀ pre r post, [(0x40, WRITE), (0x00, READ), (0x44, READ), (0x140, READ), (0x40, WRITE), (0x48, WRITE)] = pre ++ r :: post → r.2 = WRITE →
        freshCache.setIndexOf r.1 = freshCache.setIndexOf 0x40 → freshCache.tagOf r.1 = freshCache.tagOf 0x40 →
        ∃ cp outp cq outq, accessSeq freshCache ((0x40, WRITE) :: pre) = some (cp, outp) ∧
          access cp r.1 r.2 = some (cq, outq) ∧
          outq = if writesTo freshCache (freshCache.setIndexOf 0x40) (freshCache.tagOf 0x40) pre = 0 then []
            else communicateWithL2 freshCache.verbose "Write to L2" r.1) :=
  ⟨freshCache_wf, freshCache_nonNeg, by decide, by decide, by decide,
    write_progression freshCache freshCache_wf freshCache_nonNeg (by decide) 0x40 (by decide)
      [(0x40, WRITE), (0x00, READ), (0x44, READ), (0x140, READ), (0x40, WRITE), (0x48, WRITE)] (by decide)⟩

/-- C6 on `demoCache`: evicting address 0x100 (set 0, tag 1, way 1, age 0). -/
theorem evict_on_match_witness :
    demoCache.WF ∧ (demoCache.way (demoCache.setIndexOf 0x100) 1).valid = true ∧
    (demoCache.way (demoCache.setIndexOf 0x100) 1).tag = demoCache.tagOf 0x100 ∧
    (∀ j, j < 1 → ¬ ((demoCache.way (demoCache.setIndexOf 0x100) j).valid = true ∧
      (demoCache.way (demoCache.setIndexOf 0x100) j).tag = demoCache.tagOf 0x100)) ∧
    0 ≤ (demoCache.way (demoCache.setIndexOf 0x100) 1).lru ∧
    (∃ c', evictLine demoCache 0x100 = some c' ∧ access demoCache 0x100 EVICT = some (c', []) ∧
      c'.way (demoCache.setIndexOf 0x100) 1 = ⟨false, false, 0, 0, 0⟩ ∧
      (∀ j, j < demoCache.associativity → j ≠ 1 → (demoCache.way (demoCache.setIndexOf 0x100) j).valid = true →
        (demoCache.way (demoCache.setIndexOf 0x100) 1).lru < (demoCache.way (demoCache.setIndexOf 0x100) j).lru →
        c'.way (demoCache.setIndexOf 0x100) j =
          { demoCache.way (demoCache.setIndexOf 0x100) j with
            lru := (demoCache.way (demoCache.setIndexOf 0x100) j).lru - 1 }) ∧
      (∀ j, j < demoCache.associativity → j ≠ 1 →
        ¬ ((demoCache.way (demoCache.setIndexOf 0x100) j).valid = true ∧
          (demoCache.way (demoCache.setIndexOf 0x100) 1).lru < (demoCache.way (demoCache.setIndexOf 0x100) j).lru) →
        c'.way (demoCache.setIndexOf 0x100) j = demoCache.way (demoCache.setIndexOf 0x100) j) ∧
      c'.cacheReads = demoCache.cacheReads ∧ c'.cacheWrites = demoCache.cacheWrites ∧
      c'.cacheHits = demoCache.cacheHits ∧ c'.cacheMisses = demoCache.cacheMisses) :=
  ⟨demoCache_wf, by decide, by decide, by decide, by decide,
    evict_on_match demoCache demoCache_wf 0x100 1 (by decide) (by decide) (by decide)
      (by decide)⟩

/-- C7 on `demoCache`: evicting address 0x200 (set 0, tag 2), which is not resident. -/
theorem evict_absent_noop_witness :
    demoCache.WF ∧
    (∀ j, j < demoCache.associativity →
      ¬ ((demoCache.way (demoCache.setIndexOf 0x200) j).valid = true ∧
        (demoCache.way (demoCache.setIndexOf 0x200) j).tag = demoCache.tagOf 0x200)) ∧
    (evictLine demoCache 0x200 = some demoCache ∧ access demoCache 0x200 EVICT = some (demoCache, [])) :=
  ⟨demoCache_wf, by decide, evict_absent_noop demoCache demoCache_wf 0x200 (by decide)⟩

/-- C8 on `demoCache`. -/
theorem reset_complete_witness :
    demoCache.WF ∧
    ((∀ s ∈ (reset demoCache).cache, ∀ l ∈ s, l = CacheLine.empty ∧ getState l = "I") ∧
    (reset demoCache).cacheReads = 0 ∧ (reset demoCache).cacheWrites = 0 ∧
    (reset demoCache).cacheHits = 0 ∧ (reset demoCache).cacheMisses = 0 ∧
    reset demoCache = Cache.new demoCache.numSets demoCache.associativity demoCache.verbose ∧
    reset (reset demoCache) = reset demoCache) :=
  ⟨demoCache_wf, reset_complete demoCache demoCache_wf⟩

/-- C10 on `demoCache`: a WRITE of address 0x100, whose line has already seen two writes. -/
theorem notifications_witness :
    demoCache.WF ∧ demoCache.NonNeg ∧ 1 ≤ demoCache.associativity ∧
    (∃ c' out, access demoCache 0x100 WRITE = some (c', out) ∧
      (demoCache.verbose = false → out = []) ∧
      (demoCache.verbose = true →
        (WRITE = EVICT → out = []) ∧
        ((∀ j, j < demoCache.associativity → ¬ ((demoCache.way (demoCache.setIndexOf 0x100) j).valid = true ∧
            (demoCache.way (demoCache.setIndexOf 0x100) j).tag = demoCache.tagOf 0x100)) →
          (WRITE = READ ∨ WRITE = FETCH → out = [("Read from L2", 0x100)]) ∧
          (WRITE = WRITE → out = [("Read for Ownership from L2", 0x100)]) ∧
          (WRITE = RESET ∨ WRITE = PRINT → out = [])) ∧
        (∀ w, (demoCache.way (demoCache.setIndexOf 0x100) w).valid = true →
          (demoCache.way (demoCache.setIndexOf 0x100) w).tag = demoCache.tagOf 0x100 →
          (∀ j, j < w → ¬ ((demoCache.way (demoCache.setIndexOf 0x100) j).valid = true ∧
            (demoCache.way (demoCache.setIndexOf 0x100) j).tag = demoCache.tagOf 0x100)) →
          (WRITE = WRITE → 3 ≤ (demoCache.way (demoCache.setIndexOf 0x100) w).writeCount + 1 →
            out = [("Write to L2", 0x100)]) ∧
          (WRITE = WRITE → (demoCache.way (demoCache.setIndexOf 0x100) w).writeCount + 1 < 3 → out = []) ∧
          (WRITE ≠ WRITE → out = [])))) :=
  ⟨demoCache_wf, demoCache_nonNeg, by decide,
    notifications demoCache demoCache_wf demoCache_nonNeg (by decide) 0x100 WRITE⟩

/-- C11 on `demoCache`: evicting address 0x100 (set 0, tag 1), then accessing it again. -/
theorem evict_removes_witness :
    Reachable demoCache ∧ 1 ≤ demoCache.associativity ∧
    (∃ c', evictLine demoCache 0x100 = some c' ∧ access demoCache 0x100 EVICT = some (c', []) ∧
      ¬ c'.resident (demoCache.setIndexOf 0x100) (demoCache.tagOf 0x100) ∧
      ∀ op, op = READ ∨ op = WRITE ∨ op = FETCH →
        ∃ c'' out, access c' 0x100 op = some (c'', out) ∧
          c''.cacheMisses = c'.cacheMisses + 1 ∧ c''.cacheHits = c'.cacheHits) :=
  ⟨demoCache_reachable, by decide,
    evict_removes demoCache demoCache_reachable (by decide) 0x100⟩

/-- C13 (amended) on `demoCache`: a WRITE of address 0x100, resident in way 1 of set 0. -/
theorem write_hit_dirty_witness :
    Reachable demoCache ∧ (demoCache.way (demoCache.setIndexOf 0x100) 1).valid = true ∧
    (demoCache.way (demoCache.setIndexOf 0x100) 1).tag = demoCache.tagOf 0x100 ∧
    (∃ c' out, access demoCache 0x100 WRITE = some (c', out) ∧ c'.cacheHits = demoCache.cacheHits + 1 ∧
      c'.cacheMisses = demoCache.cacheMisses ∧
      (c'.way (demoCache.setIndexOf 0x100) 1).valid = true ∧
      (c'.way (demoCache.setIndexOf 0x100) 1).tag = demoCache.tagOf 0x100 ∧
      (c'.way (demoCache.setIndexOf 0x100) 1).writeCount =
        (demoCache.way (demoCache.setIndexOf 0x100) 1).writeCount + 1 ∧
      ((c'.way (demoCache.setIndexOf 0x100) 1).dirty = true ↔
        1 ≤ (demoCache.way (demoCache.setIndexOf 0x100) 1).writeCount) ∧
      ((c'.way (demoCache.setIndexOf 0x100) 1).dirty = true ↔
        2 ≤ (c'.way (demoCache.setIndexOf 0x100) 1).writeCount)) :=
  ⟨demoCache_reachable, by decide, by decide,
    write_hit_dirty demoCache demoCache_reachable 0x100 1 (by decide) (by decide)⟩

/-- C14 on `demoCache`: ways 0 and 1 of set 0 are valid and carry tags 0 and 1. -/
theorem tag_unique_witness :
    Reachable demoCache ∧ (0 : Nat) ≠ 1 ∧ (demoCache.way 0 0).valid = true ∧
    (demoCache.way 0 1).valid = true ∧ (demoCache.way 0 0).tag ≠ (demoCache.way 0 1).tag :=
  ⟨demoCache_reachable, by decide, by decide, by decide,
    tag_unique demoCache demoCache_reachable 0 0 1 (by decide) (by decide) (by decide)⟩

/-- C15 on `demoCache`: way 1 of set 0, written twice and dirty. -/
theorem dirty_modified_witness :
    Reachable demoCache ∧
    (((demoCache.way 0 1).valid = true →
      ((demoCache.way 0 1).dirty = true ↔ 2 ≤ (demoCache.way 0 1).writeCount) ∧
      ((demoCache.way 0 1).dirty = true ↔ getState (demoCache.way 0 1) = "M")) ∧
    ((demoCache.way 0 1).valid = false → (demoCache.way 0 1).dirty = false ∧ getState (demoCache.way 0 1) = "I")) :=
  ⟨demoCache_reachable, dirty_modified demoCache demoCache_reachable 0 1⟩

/-- C17 on a fresh 4-set 2-way cache: three tags compete for set 0, with a capacity
replacement, an eviction and a refill. -/
theorem lru_equivalence_witness :
    2 < 26 ∧ 1 ≤ 2 ∧
    (∃ c', accessOutcomes (Cache.new (2 ^ 2) 2 true) [(0x000, READ), (0x100, WRITE), (0x000, READ), (0x200, FETCH), (0x100, READ), (0x000, EVICT), (0x000, READ)] =
        some (c', (refRun (2 ^ 2) 2 (List.replicate (2 ^ 2) []) [(0x000, READ), (0x100, WRITE), (0x000, READ), (0x200, FETCH), (0x100, READ), (0x000, EVICT), (0x000, READ)]).2) ∧
      Sim c' (refRun (2 ^ 2) 2 (List.replicate (2 ^ 2) []) [(0x000, READ), (0x100, WRITE), (0x000, READ), (0x200, FETCH), (0x100, READ), (0x000, EVICT), (0x000, READ)]).1 ∧
      ∀ s t, s < 2 ^ 2 →
        (c'.resident s t ↔ t ∈ (refRun (2 ^ 2) 2 (List.replicate (2 ^ 2) []) [(0x000, READ), (0x100, WRITE), (0x000, READ), (0x200, FETCH), (0x100, READ), (0x000, EVICT), (0x000, READ)]).1.getD s [])) :=
  ⟨by decide, by decide,
    lru_equivalence 2 2 true (by decide) (by decide)
      [(0x000, READ), (0x100, WRITE), (0x000, READ), (0x200, FETCH), (0x100, READ), (0x000, EVICT), (0x000, READ)]⟩

/-- C18 on `demoCache`, reached by a READ and two WRITEs. -/
theorem counter_balance_witness :
    TraceReachable demoCache ∧
    (demoCache.cacheHits + demoCache.cacheMisses = demoCache.cacheReads + demoCache.cacheWrites ∧
    (∀ address op c' out, access demoCache address op = some (c', out) →
      (op = READ ∨ op = FETCH →
        c'.cacheReads = demoCache.cacheReads + 1 ∧ c'.cacheWrites = demoCache.cacheWrites) ∧
      (op = WRITE → c'.cacheReads = demoCache.cacheReads ∧ c'.cacheWrites = demoCache.cacheWrites + 1) ∧
      (op = READ ∨ op = WRITE ∨ op = FETCH →
        (c'.cacheHits = demoCache.cacheHits + 1 ∧ c'.cacheMisses = demoCache.cacheMisses) ∨
        (c'.cacheHits = demoCache.cacheHits ∧ c'.cacheMisses = demoCache.cacheMisses + 1)) ∧
      (op = EVICT → c'.cacheReads = demoCache.cacheReads ∧ c'.cacheWrites = demoCache.cacheWrites ∧
        c'.cacheHits = demoCache.cacheHits ∧ c'.cacheMisses = demoCache.cacheMisses)) ∧
    (∀ address c', evictLine demoCache address = some c' →
      c'.cacheReads = demoCache.cacheReads ∧ c'.cacheWrites = demoCache.cacheWrites ∧
      c'.cacheHits = demoCache.cacheHits ∧ c'.cacheMisses = demoCache.cacheMisses) ∧
    (1 ≤ demoCache.associativity → ∀ address op, ∃ c' out, access demoCache address op = some (c', out))) :=
  ⟨demoCache_traceReachable, counter_balance demoCache demoCache_traceReachable⟩

/-- C19 on `demoCache`: calls for address 0x100, which decodes to set 0. -/
theorem set_locality_witness :
    demoCache.WF ∧
    ((∀ op c' out, access demoCache 0x100 op = some (c', out) →
      c'.numSets = demoCache.numSets ∧ c'.associativity = demoCache.associativity ∧ c'.verbose = demoCache.verbose ∧
      c'.cache.length = demoCache.cache.length ∧
      ∀ t, t ≠ demoCache.setIndexOf 0x100 → c'.cache.getD t [] = demoCache.cache.getD t []) ∧
    (∃ c', evictLine demoCache 0x100 = some c' ∧
      c'.numSets = demoCache.numSets ∧ c'.associativity = demoCache.associativity ∧ c'.verbose = demoCache.verbose ∧
      c'.cache.length = demoCache.cache.length ∧
      ∀ t, t ≠ demoCache.setIndexOf 0x100 → c'.cache.getD t [] = demoCache.cache.getD t []) ∧
    (demoCache.NonNeg → 1 ≤ demoCache.associativity →
      ∀ op, ∃ c' out, access demoCache 0x100 op = some (c', out))) :=
  ⟨demoCache_wf, set_locality demoCache demoCache_wf 0x100⟩

/-- C20 (amended) on `demoCache`: a READ of address 0x200, a miss in the full set 0. -/
theorem in_bounds_witness :
    Reachable demoCache ∧ 1 ≤ demoCache.associativity ∧
    (log2 CACHE_LINE_SIZE + log2 demoCache.numSets < 32 ∧
    demoCache.setIndexOf 0x200 < demoCache.numSets ∧
    demoCache.cache[demoCache.setIndexOf 0x200]? = some (demoCache.cache.getD (demoCache.setIndexOf 0x200) []) ∧
    (demoCache.cache.getD (demoCache.setIndexOf 0x200) []).length = demoCache.associativity ∧
    (∃ v : Nat, v < demoCache.associativity ∧
      findVictim (demoCache.cache.getD (demoCache.setIndexOf 0x200) []) demoCache.associativity 0 (-1) (-1) =
        (v : Int)) ∧
    findVictim (demoCache.cache.getD (demoCache.setIndexOf 0x200) []) demoCache.associativity 0 (-1) (-1) ≠ -1 ∧
    (∃ c' out, access demoCache 0x200 READ = some (c', out)) ∧
    ∃ c', evictLine demoCache 0x200 = some c') :=
  ⟨demoCache_reachable, by decide,
    in_bounds demoCache demoCache_reachable (by decide) 0x200 READ⟩

end CacheSim
